import Mathlib

/-!
Verification of the qupido pipeline kernel (src/src/pipeline.rs, source.rs,
node.rs, container.rs), shallowly embedded in Lean.

Modelling conventions:
* `Source::Id(String)` is modelled as `String` (`get_id` is the identity on
  the string content).
* Rust `HashMap<String, _>` is modelled as an association list together with
  lookup / insert (overwrite) / erase operations.  A real `HashMap` has an
  unspecified iteration order; the model fixes it to insertion order, which
  is one admissible behaviour.
* `Uuid` node ids are modelled as `Nat`; `Uuid::new_v4` mints fresh ids, so
  theorems about pipelines assume the ids in a node slice are pairwise
  distinct (`Nodup`).
* The payload is a type parameter `V`; the `DataTypeMismatch` variant keeps
  only the key (the `TypeId` fields are not modelled, no claim mentions
  them).
* Node functions are opaque Lean functions `Context V → Except _ (Container V)`,
  exactly the shape of `NodeFunc`.
-/

namespace Qupido

/-- The `Source` newtype over `String` (`source.rs` / `lib.rs`); `get_id`
returns the wrapped string, so the model identifies the two. -/
abbrev Source := String

/-- The error enumeration `QupidoError` from `container.rs` (the `TypeId`
payload of `DataTypeMismatch` is not modelled). -/
inductive QupidoError where
  | DataNotFound (name : Source)
  | InvalidPipeline
  | DuplicateData (name : Source)
  | DataTypeMismatch (name : Source)
  | NodeNotFound
deriving DecidableEq, Repr

/-- Lookup in an association list modelling `HashMap::get`. -/
def hmLookup {α : Type} : List (Source × α) → Source → Option α
  | [], _ => none
  | (k, v) :: rest, j => if k = j then some v else hmLookup rest j

/-- `HashMap::insert`: overwrite the binding of the key if present,
otherwise add a binding.  The model keeps insertion order. -/
def hmInsert {α : Type} : List (Source × α) → Source → α → List (Source × α)
  | [], k, v => [(k, v)]
  | (k', v') :: rest, k, v =>
      if k' = k then (k, v) :: rest else (k', v') :: hmInsert rest k v

/-- `HashMap::remove`: drop the binding of a key. -/
def hmErase {α : Type} : List (Source × α) → Source → List (Source × α)
  | [], _ => []
  | (k, v) :: rest, j => if k = j then hmErase rest j else (k, v) :: hmErase rest j

/-- The heterogeneous store `Container` (`container.rs`): a map from names
to payloads.  Payload sharing via `Arc` is irrelevant to the values held. -/
structure Container (V : Type) where
  data : List (Source × V)
deriving DecidableEq, Repr

/-- `Container::new`. -/
def Container.new (V : Type) : Container V := ⟨[]⟩

/-- `self.data.get(key)` — raw map lookup used by the engine. -/
def Container.find? {V : Type} (c : Container V) (k : Source) : Option V :=
  hmLookup c.data k

/-- `self.data.insert(key, value)` — raw overwriting map insert used by the
engine (and by `Container::upsert`). -/
def Container.insertD {V : Type} (c : Container V) (k : Source) (v : V) : Container V :=
  ⟨hmInsert c.data k v⟩

/-- `self.data.remove(key)` — drop the binding of a key (the looked-up value
is taken separately with `Container.find?`). -/
def Container.removeD {V : Type} (c : Container V) (k : Source) : Container V :=
  ⟨hmErase c.data k⟩

/-- `Container::insert` — strict insert, `DuplicateData` on collision. -/
def Container.insert {V : Type} (c : Container V) (k : Source) (v : V) :
    Except QupidoError (Container V) :=
  if (c.find? k).isSome then .error (.DuplicateData k) else .ok (c.insertD k v)

/-- `Container::upsert` — silently overwriting insert. -/
def Container.upsert {V : Type} (c : Container V) (k : Source) (v : V) : Container V :=
  c.insertD k v

/-- `Container::get` — lookup, `DataNotFound` when the key is absent.  The
model is payload-homogeneous, so the `DataTypeMismatch` branch of the typed
downcast cannot fire. -/
def Container.get {V : Type} (c : Container V) (k : Source) : Except QupidoError V :=
  match c.find? k with
  | some v => .ok v
  | none => .error (.DataNotFound k)

/-- `NodeSources` (`source.rs`): a port declaration, either a plain list of
names (local = external) or a local-to-external mapping.  The `Map` variant
holds a `HashMap<Source, Source>`, modelled as an association list of
`(local, external)` pairs. -/
inductive NodeSources where
  | list (l : List Source)
  | map (m : List (Source × Source))
deriving DecidableEq, Repr

/-- `NodeSources::inputs` — the external names (for `Map` the value side). -/
def NodeSources.inputs : NodeSources → List Source
  | .list l => l
  | .map m => m.map Prod.snd

/-- `NodeSources::outputs` — identical to `inputs` in the source. -/
def NodeSources.outputs : NodeSources → List Source
  | .list l => l
  | .map m => m.map Prod.snd

/-- `NodeSources::map` from `source.rs` (named `mapNames` because `map` is
the constructor name): external names are transformed by `f`, local names
are preserved; a `List` is promoted to a `Map` whose keys are the original
names.  Both branches build a fresh `HashMap` by repeated insertion. -/
def NodeSources.mapNames (f : Source → Source) : NodeSources → NodeSources
  | .list l => .map (l.foldl (fun h nodeId => hmInsert h nodeId (f nodeId)) [])
  | .map m => .map (m.foldl (fun h p => hmInsert h p.1 (f p.2)) [])

/-- `From<[Source; N]> for NodeSources` — the list form, kept verbatim. -/
def nodeSourcesOfList (l : List Source) : NodeSources := .list l

/-- `From<[(Source, Source); N]> for NodeSources` — the map form: the pairs
are inserted one by one into a fresh `HashMap`. -/
def nodeSourcesOfPairs (l : List (Source × Source)) : NodeSources :=
  .map (l.foldl (fun m p => hmInsert m p.1 p.2) [])

/-- `From<()> for NodeSources` — the empty port list. -/
def nodeSourcesOfUnit : NodeSources := .list []

/-- The local (node-side) names of a port declaration: the names themselves
for `List`, the key side for `Map`. -/
def NodeSources.locals : NodeSources → List Source
  | .list l => l
  | .map m => m.map Prod.fst

/-- The `Context` handed to a node function (`lib.rs`): a wrapper around the
input `Container`. -/
structure Context (V : Type) where
  inputs : Container V

/-- `Node` (`node.rs`): id, ports, tags, function, namespace.  The `Uuid`
id is a `Nat`; the field `namespace` is called `nspace` (`namespace` is a
Lean keyword). -/
structure Node (V : Type) where
  id : Nat
  inputs : NodeSources
  outputs : NodeSources
  tags : List String
  func : Context V → Except QupidoError (Container V)
  nspace : Option String

/-- External input names of a node. -/
def Node.extIns {V : Type} (n : Node V) : List Source := n.inputs.inputs

/-- External output names of a node. -/
def Node.extOuts {V : Type} (n : Node V) : List Source := n.outputs.outputs

/-- Local input names of a node (what its function reads). -/
def Node.localIns {V : Type} (n : Node V) : List Source := n.inputs.locals

/-- Local output names of a node (what its function must produce). -/
def Node.localOuts {V : Type} (n : Node V) : List Source := n.outputs.locals

/-- Default node, standing in for the unreachable `unwrap` in `from_nodes`
(`nodes.get(idx.index()).unwrap()`). -/
def dfltNode (V : Type) : Node V :=
  ⟨0, .list [], .list [], [], fun _ => .error .NodeNotFound, none⟩

/-- A `Map` port built from a real `HashMap` has pairwise-distinct keys;
this is the well-formedness fact the model keeps as a side condition. -/
def NodeSources.keysNodup : NodeSources → Prop
  | .list _ => True
  | .map m => (m.map Prod.fst).Nodup

/-- Well-formed node: both its port maps come from real `HashMap`s. -/
def Node.WF {V : Type} (n : Node V) : Prop :=
  n.inputs.keysNodup ∧ n.outputs.keysNodup

/-- Step 2 of `Pipeline::from_nodes`, inner loop: record each external
output name of one node in the producer map, failing with `DuplicateData`
when the name is already present. -/
def insertOutputs (acc : List (Source × Nat)) (nid : Nat) :
    List Source → Except QupidoError (List (Source × Nat))
  | [] => .ok acc
  | o :: rest =>
      if (hmLookup acc o).isSome then .error (.DuplicateData o)
      else insertOutputs (hmInsert acc o nid) nid rest

/-- Step 2 of `Pipeline::from_nodes`, outer loop: build the
`outputs : HashMap<Source, Uuid>` producer map. -/
def collectOutputs {V : Type} : List (Node V) → List (Source × Nat) →
    Except QupidoError (List (Source × Nat))
  | [], acc => .ok acc
  | n :: rest, acc =>
      match insertOutputs acc n.id n.extOuts with
      | .error e => .error e
      | .ok acc' => collectOutputs rest acc'

/-- `graph_nodes.get(uuid)`: the `HashMap<Uuid, NodeIndex>` collected from
`nodes.iter().map(|n| (n.id, g.add_node(n.id)))` maps an id to the index of
the last node carrying it (later inserts overwrite earlier ones). -/
def lastIdxOf : List Nat → Nat → Option Nat
  | [], _ => none
  | x :: rest, pid =>
      match lastIdxOf rest pid with
      | some j => some (j + 1)
      | none => if x = pid then some 0 else none

/-- A graph edge: (producer index, consumer index, name label). -/
abbrev Edge := Nat × Nat × Source

/-- Step 3 of `Pipeline::from_nodes`, inner loop: for each external input
name of the consumer, add an edge from its producer when one exists. -/
def edgesForInputs (ids : List Nat) (prods : List (Source × Nat)) (dst : Nat) :
    List Source → Except QupidoError (List Edge)
  | [] => .ok []
  | i :: rest =>
      match hmLookup prods i with
      | none => edgesForInputs ids prods dst rest
      | some pid =>
          match lastIdxOf ids pid with
          | none => .error .NodeNotFound
          | some src =>
              match edgesForInputs ids prods dst rest with
              | .error e => .error e
              | .ok es => .ok ((src, dst, i) :: es)

/-- Step 3 of `Pipeline::from_nodes`, outer loop over consumers. -/
def buildEdges {V : Type} (ids : List Nat) (prods : List (Source × Nat)) :
    List (Node V) → Except QupidoError (List Edge)
  | [] => .ok []
  | n :: rest =>
      match lastIdxOf ids n.id with
      | none => .error .NodeNotFound
      | some dst =>
          match edgesForInputs ids prods dst n.extIns with
          | .error e => .error e
          | .ok es1 =>
              match buildEdges ids prods rest with
              | .error e => .error e
              | .ok es2 => .ok (es1 ++ es2)

/-- Does graph vertex `c` have an incoming edge from a vertex still in
`remaining`?  (Used by the topological sort.) -/
def hasIncoming (es : List Edge) (remaining : List Nat) (c : Nat) : Bool :=
  es.any (fun e => e.2.1 == c && remaining.contains e.1)

/-- Pick the first remaining vertex with no incoming edge from `remaining`. -/
def pickNext (es : List Edge) (remaining : List Nat) : Option Nat :=
  remaining.find? (fun c => !(hasIncoming es remaining c))

/-- Kahn's algorithm, standing in for `petgraph::algo::toposort`: repeatedly
emit a vertex with no incoming edge among the remaining ones; if none exists
the graph has a cycle and the sort fails.  (petgraph's DFS-based sort emits
some topological order and fails exactly on cycles; the model picks one
admissible order.)  The fuel argument is the vertex count. -/
def kahn : Nat → List Edge → List Nat → Except QupidoError (List Nat)
  | _, _, [] => .ok []
  | 0, _, _ :: _ => .error .InvalidPipeline
  | fuel + 1, es, r :: rest =>
      match pickNext es (r :: rest) with
      | none => .error .InvalidPipeline
      | some c =>
          match kahn fuel es ((r :: rest).erase c) with
          | .error e => .error e
          | .ok order => .ok (c :: order)

/-- `Pipeline` (`pipeline.rs`): the topologically ordered nodes plus the
retained graph (vertex weights are node ids in insertion order, edges are
index pairs labelled by names). -/
structure Pipeline (V : Type) where
  nodes : List (Node V)
  graphNodes : List Nat
  graphEdges : List Edge

/-- `Pipeline::from_nodes`: build the producer map (duplicate outputs fail
with `DuplicateData`), add producer-to-consumer edges, topologically sort
(cycles fail with `InvalidPipeline`), and store the sorted nodes with the
graph. -/
def Pipeline.from_nodes {V : Type} (nodes : List (Node V)) :
    Except QupidoError (Pipeline V) :=
  let ids := nodes.map Node.id
  match collectOutputs nodes [] with
  | .error e => .error e
  | .ok prods =>
      match buildEdges ids prods nodes with
      | .error e => .error e
      | .ok es =>
          match kahn nodes.length es (List.range nodes.length) with
          | .error _ => .error .InvalidPipeline
          | .ok order =>
              .ok ⟨order.map (fun i => nodes.getD i (dfltNode V)), ids, es⟩

/-- The input-remapping loop of `Pipeline::run` for a `Map` port: look each
external name up in the view built so far and bind it to the local name
(note the lookup is in the progressively extended view `c`, exactly as in
the source). -/
def remapInputs {V : Type} : List (Source × Source) → Container V →
    Except QupidoError (Container V)
  | [], c => .ok c
  | (nodeId, globalId) :: rest, c =>
      match c.find? globalId with
      | none => .error (.DataNotFound globalId)
      | some v => remapInputs rest (c.insertD nodeId v)

/-- Build the view handed to a node function: the running state, plus the
remapped locals for a `Map` input port. -/
def remapFor {V : Type} (n : Node V) (st : Container V) :
    Except QupidoError (Container V) :=
  match n.inputs with
  | .list _ => .ok st
  | .map m => remapInputs m st

/-- The output-folding loop of `Pipeline::run` for a `List` port: remove
each declared name from the produced store and upsert it into the state. -/
def extractList {V : Type} : List Source → Container V → Container V →
    Except QupidoError (Container V)
  | [], _, st => .ok st
  | o :: rest, res, st =>
      match res.find? o with
      | none => .error (.DataNotFound o)
      | some v => extractList rest (res.removeD o) (st.insertD o v)

/-- The output-folding loop for a `Map` port: remove each declared local
name from the produced store and upsert it under its external name. -/
def extractMap {V : Type} : List (Source × Source) → Container V → Container V →
    Except QupidoError (Container V)
  | [], _, st => .ok st
  | (nodeId, globalId) :: rest, res, st =>
      match res.find? nodeId with
      | none => .error (.DataNotFound nodeId)
      | some v => extractMap rest (res.removeD nodeId) (st.insertD globalId v)

/-- Fold one node's produced store back into the running state. -/
def extractFor {V : Type} (n : Node V) (res st : Container V) :
    Except QupidoError (Container V) :=
  match n.outputs with
  | .list l => extractList l res st
  | .map m => extractMap m res st

/-- One iteration of the `Pipeline::run` loop: remap, call the node
function, fold the declared outputs back. -/
def runStep {V : Type} (n : Node V) (st : Container V) :
    Except QupidoError (Container V) :=
  match remapFor n st with
  | .error e => .error e
  | .ok view =>
      match n.func ⟨view⟩ with
      | .error e => .error e
      | .ok res => extractFor n res st

/-- The `Pipeline::run` loop over the ordered nodes. -/
def runNodes {V : Type} : List (Node V) → Container V →
    Except QupidoError (Container V)
  | [], st => .ok st
  | n :: rest, st =>
      match runStep n st with
      | .error e => .error e
      | .ok st' => runNodes rest st'

/-- `Pipeline::run`: clone the seed (value passing in the model) and thread
it through the ordered nodes. -/
def Pipeline.run {V : Type} (p : Pipeline V) (container : Container V) :
    Except QupidoError (Container V) :=
  runNodes p.nodes container

/-- Lexicographic comparison of char lists; `charListLe a b` decides
`a ≤ b`.  (Rust compares `String`s byte-lexicographically on UTF-8, which
coincides with code-point order.) -/
def charListLe : List Char → List Char → Bool
  | [], _ => true
  | _ :: _, [] => false
  | a :: as, b :: bs => if a < b then true else if b < a then false else charListLe as bs

/-- Boolean string comparison used by the model's sort. -/
def sourceLe (a b : Source) : Bool := charListLe a.data b.data

/-- Insert a name into an ascending list, keeping it ascending. -/
def insertSorted (a : Source) : List Source → List Source
  | [] => [a]
  | b :: bs => if sourceLe a b then a :: b :: bs else b :: insertSorted a bs

/-- `r.sort()` on a `Vec<Source>`: ascending sort by the string order
(insertion sort; for a total antisymmetric order the sorted permutation is
unique, so this agrees with Rust's stable sort on `Vec<String>`). -/
def sortSources (l : List Source) : List Source :=
  l.foldr insertSorted []

/-- `Pipeline::inputs`: for every node (in sorted order), push each external
input name with no incoming edge carrying that name at that node; then
sort.  The node's graph index is the first vertex weight equal to its id. -/
def Pipeline.inputs {V : Type} (p : Pipeline V) : List Source :=
  sortSources <| p.nodes.flatMap fun n =>
    let idx := p.graphNodes.findIdx (fun w => w == n.id)
    let incoming := p.graphEdges.filter (fun e => e.2.1 == idx)
    n.extIns.filter (fun i => !(incoming.any (fun e => e.2.2 == i)))

/-- `Pipeline::outputs`: for every node, push each external output name with
no outgoing edge carrying that name at that node; then sort. -/
def Pipeline.outputs {V : Type} (p : Pipeline V) : List Source :=
  sortSources <| p.nodes.flatMap fun n =>
    let idx := p.graphNodes.findIdx (fun w => w == n.id)
    let outgoing := p.graphEdges.filter (fun e => e.1 == idx)
    n.extOuts.filter (fun o => !(outgoing.any (fun e => e.2.2 == o)))

/-- `Pipeline::all_outputs`: every external output name, deduplicated with a
`contains` check, then sorted. -/
def Pipeline.all_outputs {V : Type} (p : Pipeline V) : List Source :=
  sortSources <| p.nodes.foldl
    (fun r n => n.extOuts.foldl (fun r o => if r.contains o then r else r ++ [o]) r) []

/-- The per-node transformation of `Pipeline::with_namespace`: external
names are prefixed (`"{namespace}.{name}"`), the id is regenerated (a fresh
`Uuid` in the source, the new index in the model), the namespace metadata is
composed. -/
def namespaceNode {V : Type} (ns : String) (newId : Nat) (n : Node V) : Node V :=
  { id := newId
    inputs := n.inputs.mapNames (fun nodeId => ns ++ "." ++ nodeId)
    outputs := n.outputs.mapNames (fun nodeId => ns ++ "." ++ nodeId)
    tags := n.tags
    func := n.func
    nspace := some (match n.nspace with
      | some old => ns ++ "." ++ old
      | none => ns) }

/-- `Pipeline::with_namespace`: map every node and revalidate through
`from_nodes`. -/
def Pipeline.with_namespace {V : Type} (p : Pipeline V) (ns : String) :
    Except QupidoError (Pipeline V) :=
  Pipeline.from_nodes (p.nodes.mapIdx (fun i n => namespaceNode ns i n))

/-- `Pipeline::add`: concatenate the node lists and revalidate. -/
def Pipeline.add {V : Type} (p other : Pipeline V) : Except QupidoError (Pipeline V) :=
  Pipeline.from_nodes (p.nodes ++ other.nodes)

/-! ### Claim-level predicates -/

/-- Extensional equality of stores: equal value at every name. -/
def Container.Equiv {V : Type} (c1 c2 : Container V) : Prop :=
  ∀ k, c1.find? k = c2.find? k

/-- Agreement of two stores on a set of names. -/
def Container.EquivOn {V : Type} (A : Source → Prop) (c1 c2 : Container V) : Prop :=
  ∀ k, A k → c1.find? k = c2.find? k

/-- The producer/consumer wiring of the spec: `n` feeds `m` when some
external output name of `n` is an external input name of `m`. -/
def wired {V : Type} (n m : Node V) : Prop :=
  ∃ x, x ∈ n.extOuts ∧ x ∈ m.extIns

/-- The wiring of a node slice contains a cycle: a node `a` of the slice
with a `wired` path through slice members back to itself. -/
def HasWiredCycle {V : Type} (ns : List (Node V)) : Prop :=
  ∃ a rest, a ∈ ns ∧ (∀ n ∈ rest, n ∈ ns) ∧ List.Chain wired a (rest ++ [a])

/-- A node list is topologically ordered: wiring always points forward. -/
def TopoOrdered {V : Type} (l : List (Node V)) : Prop :=
  ∀ i j : Fin l.length, wired (l.get i) (l.get j) → i < j

/-- The (unenforced) purity contract on node functions: the result depends
only on the values of the declared local input names in the view. -/
def RespectsInputs {V : Type} (n : Node V) : Prop :=
  ∀ c1 c2 : Container V,
    (∀ k, k ∈ n.localIns → c1.find? k = c2.find? k) → n.func ⟨c1⟩ = n.func ⟨c2⟩

/-- A node function that always succeeds and always produces every declared
output local name (the hypothesis of spec invariant 1). -/
def ProducesOutputs {V : Type} (n : Node V) : Prop :=
  ∀ c : Container V, ∃ r, n.func ⟨c⟩ = .ok r ∧ ∀ o ∈ n.localOuts, (r.find? o).isSome

/-- The constructor tag of a `QupidoError`, for comparing error kinds. -/
def QupidoError.kind : QupidoError → Nat
  | .DataNotFound _ => 0
  | .InvalidPipeline => 1
  | .DuplicateData _ => 2
  | .DataTypeMismatch _ => 3
  | .NodeNotFound => 4

/-- The outcome kind of a fallible operation: `none` for success, the error
kind tag for failure. -/
def outcomeKind {α : Type} : Except QupidoError α → Option Nat
  | .ok _ => none
  | .error e => some e.kind

/-! ### Concrete scenarios (payload model M1 with `V = Nat`) -/

/-- Scenario S1 node A: reads `a` and `b`, produces `sum = a + b`.  Total
(missing inputs default to `0`) so it satisfies `ProducesOutputs`. -/
def nodeA : Node Nat :=
  ⟨0, .list ["a", "b"], .list ["sum"], [],
    fun ctx => .ok ⟨[("sum", (ctx.inputs.find? "a").getD 0 + (ctx.inputs.find? "b").getD 0)]⟩,
    none⟩

/-- Scenario S1 node B: reads `sum`, produces `sq = sum * sum`. -/
def nodeB : Node Nat :=
  ⟨1, .list ["sum"], .list ["sq"], [],
    fun ctx => .ok ⟨[("sq", (ctx.inputs.find? "sum").getD 0 * (ctx.inputs.find? "sum").getD 0)]⟩,
    none⟩

/-- The S1 linear chain. -/
def chainNodes : List (Node Nat) := [nodeA, nodeB]

/-- The S1 seed store. -/
def seed35 : Container Nat := ⟨[("a", 3), ("b", 5)]⟩

/-- Two nodes sharing both external outputs `m` and `n` (C3): the build
reports the first collision, `m`, whichever common name the claim picks. -/
def nodeMN1 : Node Nat := ⟨0, .list [], .list ["m", "n"], [], fun _ => .ok ⟨[]⟩, none⟩

/-- Second node of the C3 counterexample. -/
def nodeMN2 : Node Nat := ⟨1, .list [], .list ["m", "n"], [], fun _ => .ok ⟨[]⟩, none⟩

/-- Two input-free nodes both declaring output `x` (C4): the wiring is
trivially acyclic yet the build fails, with `DuplicateData`. -/
def nodeX1 : Node Nat := ⟨0, .list [], .list ["x"], [], fun _ => .ok ⟨[("x", 1)]⟩, none⟩

/-- Second node of the C4 counterexample. -/
def nodeX2 : Node Nat := ⟨1, .list [], .list ["x"], [], fun _ => .ok ⟨[("x", 2)]⟩, none⟩

/-- Scenario S4 node A: consumes `y`, produces `x` (half of a cycle). -/
def nodeCycA : Node Nat := ⟨0, .list ["y"], .list ["x"], [], fun _ => .ok ⟨[("x", 1)]⟩, none⟩

/-- Scenario S4 node B: consumes `x`, produces `y` (other half). -/
def nodeCycB : Node Nat := ⟨1, .list ["x"], .list ["y"], [], fun _ => .ok ⟨[("y", 1)]⟩, none⟩

/-- C7 counterexample, first consumer of the free input `a`. -/
def node7a : Node Nat := ⟨0, .list ["a"], .list ["x"], [], fun _ => .ok ⟨[("x", 0)]⟩, none⟩

/-- C7 counterexample, second consumer of the free input `a`. -/
def node7b : Node Nat := ⟨1, .list ["a"], .list ["y"], [], fun _ => .ok ⟨[("y", 0)]⟩, none⟩

/-- C6 counterexample node: its `Map` inputs bind local `x` to external `a`
and local `y` to external `x`; the second lookup finds the local `x`
inserted by the first mapping even when the running store has no `x`. -/
def aliasNode : Node Nat :=
  ⟨0, .map [("x", "a"), ("y", "x")], .list [], [], fun _ => .ok ⟨[]⟩, none⟩

/-- Seed holding only `a` (the external `x` is absent). -/
def seedA1 : Container Nat := ⟨[("a", 1)]⟩

/-- C10 node: `List` inputs `p`, `q`; its function ignores the store and
returns the declared output. -/
def node10 : Node Nat := ⟨0, .list ["p", "q"], .list ["out"], [], fun _ => .ok ⟨[("out", 7)]⟩, none⟩

/-- The empty seed store. -/
def emptySeed : Container Nat := ⟨[]⟩

/-- C8 witness node: no inputs, constant output `u`. -/
def node8p : Node Nat := ⟨0, .list [], .list ["u"], [], fun _ => .ok ⟨[("u", 1)]⟩, none⟩

/-- C8 witness node: no inputs, constant output `v`. -/
def node8q : Node Nat := ⟨1, .list [], .list ["v"], [], fun _ => .ok ⟨[("v", 2)]⟩, none⟩

/-- The pipeline `from_nodes chainNodes` evaluates to (checked by `rfl`). -/
def chainPipe : Pipeline Nat := ⟨[nodeA, nodeB], [0, 1], [(0, 1, "sum")]⟩

/-- The pipeline `chainPipe.with_namespace "c"` evaluates to. -/
def nsChainPipe : Pipeline Nat :=
  ⟨[⟨0, .map [("a", "c.a"), ("b", "c.b")], .map [("sum", "c.sum")], [], nodeA.func, some "c"⟩,
    ⟨1, .map [("sum", "c.sum")], .map [("sq", "c.sq")], [], nodeB.func, some "c"⟩],
   [0, 1], [(0, 1, "c.sum")]⟩

/-- The pipeline `from_nodes [node7a, node7b]` evaluates to. -/
def pipe7 : Pipeline Nat := ⟨[node7a, node7b], [0, 1], []⟩

/-- The pipeline `from_nodes [node10]` evaluates to. -/
def pipe10 : Pipeline Nat := ⟨[node10], [0], []⟩

/-- The pipeline `from_nodes [aliasNode]` evaluates to. -/
def aliasPipe : Pipeline Nat := ⟨[aliasNode], [0], []⟩

/-- The pipeline `from_nodes [node8p, node8q]` evaluates to. -/
def pipe8pq : Pipeline Nat := ⟨[node8p, node8q], [0, 1], []⟩

/-- The pipeline `from_nodes [node8q, node8p]` evaluates to. -/
def pipe8qp : Pipeline Nat := ⟨[node8q, node8p], [1, 0], []⟩

/-! ## Lemmas: association maps -/

theorem hmLookup_insert {α : Type} (l : List (Source × α)) (k j : Source) (v : α) :
    hmLookup (hmInsert l k v) j = if k = j then some v else hmLookup l j := by
  induction l with
  | nil => simp [hmInsert, hmLookup]
  | cons p rest ih =>
      obtain ⟨k', v'⟩ := p
      by_cases hk : k' = k
      · subst hk
        by_cases hj : k' = j <;> simp [hmInsert, hmLookup, hj]
      · by_cases hj : k' = j
        · subst hj
          have : ¬ k = k' := fun h => hk h.symm
          simp [hmInsert, hmLookup, hk, this]
        · simp [hmInsert, hmLookup, hk, hj, ih]

theorem hmLookup_erase {α : Type} (l : List (Source × α)) (k j : Source) :
    hmLookup (hmErase l k) j = if k = j then none else hmLookup l j := by
  induction l with
  | nil => simp [hmErase, hmLookup]
  | cons p rest ih =>
      obtain ⟨k', v'⟩ := p
      by_cases hk : k' = k
      · subst hk
        rw [hmErase, if_pos rfl, ih]
        by_cases hj : k' = j
        · simp [hj]
        · simp [hmLookup, hj]
      · rw [hmErase, if_neg hk]
        by_cases hj : k' = j
        · subst hj
          have hne : ¬ k = k' := fun h => hk h.symm
          simp [hmLookup, hne]
        · simp [hmLookup, hj, ih]

theorem Container.find?_insertD {V : Type} (c : Container V) (k j : Source) (v : V) :
    (c.insertD k v).find? j = if k = j then some v else c.find? j :=
  hmLookup_insert c.data k j v

theorem Container.find?_removeD {V : Type} (c : Container V) (k j : Source) :
    (c.removeD k).find? j = if k = j then none else c.find? j :=
  hmLookup_erase c.data k j

/-- Keys of a map after `hmInsert`. -/
theorem mem_keys_hmInsert {α : Type} (l : List (Source × α)) (k j : Source) (v : α) :
    j ∈ (hmInsert l k v).map Prod.fst ↔ j = k ∨ j ∈ l.map Prod.fst := by
  induction l with
  | nil => simp [hmInsert]
  | cons p rest ih =>
      obtain ⟨k', v'⟩ := p
      by_cases hk : k' = k
      · subst hk
        rw [hmInsert, if_pos rfl]
        simp only [List.map_cons, List.mem_cons]
        tauto
      · rw [hmInsert, if_neg hk]
        simp only [List.map_cons, List.mem_cons, ih]
        tauto

/-- `hmInsert` preserves distinctness of keys. -/
theorem keys_nodup_hmInsert {α : Type} (l : List (Source × α)) (k : Source) (v : α)
    (h : (l.map Prod.fst).Nodup) : ((hmInsert l k v).map Prod.fst).Nodup := by
  induction l with
  | nil => simp [hmInsert]
  | cons p rest ih =>
      obtain ⟨k', v'⟩ := p
      simp only [List.map_cons, List.nodup_cons] at h
      by_cases hk : k' = k
      · subst hk
        rw [hmInsert, if_pos rfl]
        simpa [List.nodup_cons] using h
      · rw [hmInsert, if_neg hk]
        simp only [List.map_cons, List.nodup_cons]
        refine ⟨fun hmem => ?_, ih h.2⟩
        rcases (mem_keys_hmInsert rest k k' v).mp hmem with h' | h'
        · exact hk h'
        · exact h.1 h'

/-- Folding `hmInsert` over any pair list yields distinct keys. -/
theorem keys_nodup_foldl_hmInsert {α : Type} (ps : List (Source × α))
    (acc : List (Source × α)) (h : (acc.map Prod.fst).Nodup) :
    (((ps.foldl (fun m p => hmInsert m p.1 p.2) acc)).map Prod.fst).Nodup := by
  induction ps generalizing acc with
  | nil => exact h
  | cons p rest ih => exact ih _ (keys_nodup_hmInsert _ _ _ h)

/-! ## Lemmas: the string order bridge -/

theorem charListLe_iff : ∀ a b : List Char, charListLe a b = true ↔ ¬ List.lt b a
  | [], b => by
      constructor
      · intro _ h
        cases h
      · intro _
        rfl
  | a :: as, [] => by
      constructor
      · intro h
        cases h
      · intro h
        exact absurd (List.lt.nil a as) h
  | a :: as, b :: bs => by
      by_cases hab : a < b
      · constructor
        · intro _ h
          cases h with
          | head _ _ hba => exact lt_asymm hab hba
          | tail h1 h2 _ => exact h2 hab
        · intro _
          simp [charListLe, hab]
      · by_cases hba : b < a
        · constructor
          · intro h
            simp [charListLe, hab, hba] at h
          · intro h
            exact absurd (List.lt.head bs as hba) h
        · have ih := charListLe_iff as bs
          constructor
          · intro h hlt
            cases hlt with
            | head _ _ h' => exact hba h'
            | tail _ _ h' => exact (ih.mp (by simpa [charListLe, hab, hba] using h)) h'
          · intro h
            simp only [charListLe, if_neg hab, if_neg hba]
            exact ih.mpr (fun h' => h (List.lt.tail hba hab h'))

theorem sourceLe_iff (a b : Source) : sourceLe a b = true ↔ a ≤ b := by
  have h2 : List.lt b.data a.data ↔ b < a :=
    (List.lt_iff_lex_lt b.data a.data).trans String.lt_iff_toList_lt.symm
  exact (charListLe_iff a.data b.data).trans (by rw [h2]; exact not_lt)

theorem sourceLe_trans : ∀ a b c : Source, sourceLe a b → sourceLe b c → sourceLe a c := by
  intro a b c hab hbc
  exact (sourceLe_iff a c).mpr (le_trans ((sourceLe_iff a b).mp hab) ((sourceLe_iff b c).mp hbc))

theorem sourceLe_total : ∀ a b : Source, sourceLe a b || sourceLe b a := by
  intro a b
  rcases le_total a b with h | h
  · simp [(sourceLe_iff a b).mpr h]
  · simp [(sourceLe_iff b a).mpr h]

theorem insertSorted_perm (a : Source) (l : List Source) :
    (insertSorted a l).Perm (a :: l) := by
  induction l with
  | nil => exact List.Perm.refl _
  | cons b bs ih =>
      by_cases h : sourceLe a b
      · simp [insertSorted, h]
      · simp only [insertSorted, if_neg h]
        exact (ih.cons b).trans (List.Perm.swap a b bs)

theorem sortSources_perm (l : List Source) : (sortSources l).Perm l := by
  induction l with
  | nil => exact List.Perm.refl _
  | cons a as ih =>
      exact (insertSorted_perm a (sortSources as)).trans (ih.cons a)

theorem mem_sortSources {l : List Source} {x : Source} : x ∈ sortSources l ↔ x ∈ l :=
  (sortSources_perm l).mem_iff

theorem insertSorted_sorted (a : Source) {l : List Source}
    (h : l.Pairwise (· ≤ ·)) : (insertSorted a l).Pairwise (· ≤ ·) := by
  induction l with
  | nil => simp [insertSorted]
  | cons b bs ih =>
      rcases List.pairwise_cons.mp h with ⟨hb, hbs⟩
      by_cases hab : sourceLe a b
      · have hab' := (sourceLe_iff a b).mp hab
        simp only [insertSorted, if_pos hab]
        refine List.pairwise_cons.mpr ⟨?_, h⟩
        intro x hx
        rcases List.mem_cons.mp hx with rfl | hx
        · exact hab'
        · exact le_trans hab' (hb x hx)
      · have hba' : b ≤ a := le_of_not_le (fun hle => hab ((sourceLe_iff a b).mpr hle))
        simp only [insertSorted, if_neg hab]
        refine List.pairwise_cons.mpr ⟨?_, ih hbs⟩
        intro x hx
        rcases List.mem_cons.mp ((insertSorted_perm a bs).mem_iff.mp hx) with rfl | h2
        · exact hba'
        · exact hb x h2

theorem sortSources_sorted (l : List Source) : (sortSources l).Pairwise (· ≤ ·) := by
  induction l with
  | nil => simp [sortSources]
  | cons a as ih => exact insertSorted_sorted a ih

theorem sortSources_nodup {l : List Source} (h : l.Nodup) : (sortSources l).Nodup :=
  ((sortSources_perm l).nodup_iff).mpr h

/-- An ascending duplicate-free list is strictly ascending. -/
theorem pairwise_lt_of_le_nodup {l : List Source}
    (hle : l.Pairwise (· ≤ ·)) (hnd : l.Nodup) : l.Pairwise (· < ·) :=
  (hle.and hnd).imp (fun h => lt_of_le_of_ne h.1 h.2)

/-! ## Lemmas: the run engine -/

theorem extractList_ok_find {V : Type} :
    ∀ (l : List Source) (res st st' : Container V),
      extractList l res st = .ok st' →
      ∀ k, k ∉ l → st'.find? k = st.find? k := by
  intro l
  induction l with
  | nil =>
      intro res st st' h k _
      cases h
      rfl
  | cons o rest ih =>
      intro res st st' h k hk
      rw [List.mem_cons] at hk
      push_neg at hk
      simp only [extractList] at h
      cases hres : res.find? o with
      | none => rw [hres] at h; cases h
      | some v =>
          rw [hres] at h
          rw [ih _ _ _ h k hk.2, Container.find?_insertD, if_neg (fun he => hk.1 he.symm)]

theorem extractMap_ok_find {V : Type} :
    ∀ (m : List (Source × Source)) (res st st' : Container V),
      extractMap m res st = .ok st' →
      ∀ k, k ∉ m.map Prod.snd → st'.find? k = st.find? k := by
  intro m
  induction m with
  | nil =>
      intro res st st' h k _
      cases h
      rfl
  | cons p rest ih =>
      intro res st st' h k hk
      obtain ⟨loc, ext⟩ := p
      simp only [List.map_cons, List.mem_cons] at hk
      push_neg at hk
      simp only [extractMap] at h
      cases hres : res.find? loc with
      | none => rw [hres] at h; cases h
      | some v =>
          rw [hres] at h
          rw [ih _ _ _ h k hk.2, Container.find?_insertD, if_neg (fun he => hk.1 he.symm)]

theorem runStep_ok_find {V : Type} {n : Node V} {st st' : Container V}
    (h : runStep n st = .ok st') : ∀ k, k ∉ n.extOuts → st'.find? k = st.find? k := by
  intro k hk
  simp only [runStep] at h
  cases hview : remapFor n st with
  | error e => rw [hview] at h; cases h
  | ok view =>
      rw [hview] at h
      dsimp only at h
      cases hres : n.func ⟨view⟩ with
      | error e => rw [hres] at h; cases h
      | ok res =>
          rw [hres] at h
          dsimp only at h
          simp only [extractFor] at h
          cases hout : n.outputs with
          | list l =>
              rw [hout] at h
              exact extractList_ok_find _ _ _ _ h k
                (by simpa [Node.extOuts, NodeSources.outputs, hout] using hk)
          | map m =>
              rw [hout] at h
              exact extractMap_ok_find _ _ _ _ h k
                (by simpa [Node.extOuts, NodeSources.outputs, hout] using hk)

theorem runNodes_ok_find {V : Type} :
    ∀ (ns : List (Node V)) (st st' : Container V),
      runNodes ns st = .ok st' →
      ∀ k, (∀ n ∈ ns, k ∉ n.extOuts) → st'.find? k = st.find? k := by
  intro ns
  induction ns with
  | nil =>
      intro st st' h k _
      cases h
      rfl
  | cons n rest ih =>
      intro st st' h k hk
      simp only [runNodes] at h
      cases hstep : runStep n st with
      | error e => rw [hstep] at h; cases h
      | ok st1 =>
          rw [hstep] at h
          rw [ih _ _ h k (fun n' hn' => hk n' (List.mem_cons_of_mem _ hn')),
            runStep_ok_find hstep k (hk n (List.mem_cons_self _ _))]

/-- Membership in the deduplicating push of `all_outputs`. -/
theorem mem_push_dedup {l : List Source} {acc : List Source} {x : Source} :
    x ∈ l.foldl (fun r o => if r.contains o then r else r ++ [o]) acc ↔
      x ∈ acc ∨ x ∈ l := by
  induction l generalizing acc with
  | nil => simp
  | cons o rest ih =>
      simp only [List.foldl_cons, ih, List.mem_cons]
      by_cases h : acc.contains o
      · simp only [if_pos h]
        constructor
        · tauto
        · rintro (h' | h' | h')
          · tauto
          · exact .inl (h' ▸ (by simpa using h))
          · tauto
      · simp only [if_neg h, List.mem_append, List.mem_singleton]
        tauto

theorem mem_all_outputs {V : Type} {p : Pipeline V} {x : Source} :
    x ∈ p.all_outputs ↔ ∃ n ∈ p.nodes, x ∈ n.extOuts := by
  have : ∀ (ns : List (Node V)) (acc : List Source),
      x ∈ ns.foldl (fun r n => n.extOuts.foldl
          (fun r o => if r.contains o then r else r ++ [o]) r) acc ↔
        x ∈ acc ∨ ∃ n ∈ ns, x ∈ n.extOuts := by
    intro ns
    induction ns with
    | nil => simp
    | cons n rest ih =>
        intro acc
        simp only [List.foldl_cons, ih, mem_push_dedup]
        constructor
        · rintro ((h | h) | h)
          · tauto
          · exact .inr ⟨n, List.mem_cons_self _ _, h⟩
          · obtain ⟨n', hn', hx⟩ := h
            exact .inr ⟨n', List.mem_cons_of_mem _ hn', hx⟩
        · rintro (h | ⟨n', hn', hx⟩)
          · tauto
          · rcases List.mem_cons.mp hn' with rfl | hn'
            · tauto
            · exact .inr ⟨n', hn', hx⟩
  rw [Pipeline.all_outputs, mem_sortSources, this]
  simp

/-! ## Claim C2 -/

/-- C2: for every pipeline and seed on which `run` succeeds, every key of
the seed outside `all_outputs()` keeps its seed value in the result store.
(The model passes stores by value, so the seed itself is unchanged by
construction, also on failure: `run` only reads `container` through the
initial clone.) -/
theorem run_preserves_seed_outside_outputs {V : Type} (p : Pipeline V)
    (S r : Container V) (hrun : p.run S = .ok r) :
    ∀ k, k ∉ p.all_outputs → r.find? k = S.find? k := by
  intro k hk
  refine runNodes_ok_find p.nodes S r hrun k ?_
  intro n hn hmem
  exact hk (mem_all_outputs.mpr ⟨n, hn, hmem⟩)

/-- Witness for C2 on the S1 chain: the seed key `a` survives unchanged. -/
theorem run_preserves_seed_outside_outputs_witness :
    ∃ r, Pipeline.from_nodes chainNodes = .ok chainPipe ∧ chainPipe.run seed35 = .ok r ∧
      r.find? "a" = seed35.find? "a" :=
  ⟨_, rfl, rfl,
    run_preserves_seed_outside_outputs chainPipe seed35 _ rfl "a" (by decide)⟩

/-! ## Claim C9 -/

/-- C9 counterexample: the public list conversion
(`From<[Source; N]> for NodeSources`) applied to a list with a repeated
name yields a PortSpec whose local names (and external names) are not
pairwise distinct. -/
theorem portspec_conversion_dup_counterexample :
    (nodeSourcesOfList ["a", "a"]).locals = ["a", "a"] ∧
    (nodeSourcesOfList ["a", "a"]).inputs = ["a", "a"] ∧
    ¬ (["a", "a"] : List Source).Nodup := by
  refine ⟨rfl, rfl, ?_⟩
  intro h
  exact (List.nodup_cons.mp h).1 (List.mem_singleton.mpr rfl)

/-- C9 amended: the pair-list conversion (backed by a `HashMap`) and the
empty conversion produce pairwise-distinct local names; the list conversion
keeps the given name list verbatim, so uniqueness there is the caller's
responsibility. -/
theorem portspec_pairs_conversion_locals_nodup (ps : List (Source × Source)) :
    (nodeSourcesOfPairs ps).locals.Nodup ∧ nodeSourcesOfUnit.locals.Nodup ∧
      nodeSourcesOfUnit.inputs.Nodup := by
  refine ⟨?_, by simp [nodeSourcesOfUnit, NodeSources.locals],
    by simp [nodeSourcesOfUnit, NodeSources.inputs]⟩
  simpa [nodeSourcesOfPairs, NodeSources.locals] using
    keys_nodup_foldl_hmInsert ps [] (by simp)

/-! ## Claim C10 -/

/-- C10: for a `List` input port the engine performs no presence check (the
remap stage passes the state through untouched); concretely, a pipeline
whose single node declares `List` inputs `p`, `q` runs successfully against
the empty seed, producing its declared output. -/
theorem list_inputs_not_checked :
    (∀ (V : Type) (n : Node V) (l : List Source) (st : Container V),
      n.inputs = .list l → remapFor n st = .ok st) ∧
    (∃ p r, Pipeline.from_nodes [node10] = .ok p ∧ p.run emptySeed = .ok r ∧
      r.find? "out" = some 7 ∧ emptySeed.find? "p" = none ∧
      emptySeed.find? "q" = none ∧ node10.extIns = ["p", "q"]) := by
  constructor
  · intro V n l st h
    simp [remapFor, h]
  · exact ⟨_, _, rfl, rfl, rfl, rfl, rfl, rfl⟩

/-- Witness for C10's general part at the concrete node. -/
theorem list_inputs_not_checked_witness :
    remapFor node10 emptySeed = .ok emptySeed :=
  list_inputs_not_checked.1 Nat node10 ["p", "q"] emptySeed rfl

/-! ## Lemmas: the producer map of from_nodes -/

theorem hmLookup_isSome_iff {α : Type} (l : List (Source × α)) (k : Source) :
    (hmLookup l k).isSome ↔ k ∈ l.map Prod.fst := by
  induction l with
  | nil => simp [hmLookup]
  | cons p rest ih =>
      obtain ⟨k', v'⟩ := p
      by_cases h : k' = k
      · subst h
        simp [hmLookup]
      · rw [hmLookup, if_neg h]
        simp only [List.map_cons, List.mem_cons, ih]
        constructor
        · exact Or.inr
        · rintro (rfl | hm)
          · exact absurd rfl h
          · exact hm

theorem hmInsert_of_not_mem {α : Type} (l : List (Source × α)) (k : Source) (v : α)
    (h : hmLookup l k = none) : hmInsert l k v = l ++ [(k, v)] := by
  induction l with
  | nil => simp [hmInsert]
  | cons p rest ih =>
      obtain ⟨k', v'⟩ := p
      simp only [hmLookup] at h
      by_cases hk : k' = k
      · rw [if_pos hk] at h
        cases h
      · rw [if_neg hk] at h
        simp [hmInsert, hk, ih h]

theorem insertOutputs_err {V : Type} :
    ∀ (outs : List Source) (acc : List (Source × Nat)) (nid : Nat) (e : QupidoError),
      insertOutputs acc nid outs = .error e →
      ∃ x, e = .DuplicateData x ∧ x ∈ outs ∧
        2 ≤ ((acc.map Prod.fst) ++ outs).count x := by
  intro outs
  induction outs with
  | nil => intro acc nid e h; cases h
  | cons o rest ih =>
      intro acc nid e h
      by_cases hs : (hmLookup acc o).isSome
      · rw [insertOutputs, if_pos hs] at h
        cases h
        refine ⟨o, rfl, List.mem_cons_self _ _, ?_⟩
        have h1 : 0 < (acc.map Prod.fst).count o :=
          List.count_pos_iff.mpr ((hmLookup_isSome_iff acc o).mp hs)
        have h2 : 0 < (o :: rest).count o := List.count_pos_iff.mpr (List.mem_cons_self _ _)
        rw [List.count_append]
        omega
      · rw [insertOutputs, if_neg hs] at h
        obtain ⟨x, he, hx, hc⟩ := ih _ _ _ h
        refine ⟨x, he, List.mem_cons_of_mem _ hx, ?_⟩
        rw [hmInsert_of_not_mem acc o nid (Option.not_isSome_iff_eq_none.mp hs)] at hc
        simp only [List.map_append, List.count_append, List.map_cons, List.map_nil] at hc ⊢
        rw [List.count_cons]
        simp only [List.count_cons, List.count_nil] at hc
        omega

theorem insertOutputs_ok_lookup {V : Type} :
    ∀ (outs : List Source) (acc acc' : List (Source × Nat)) (nid : Nat),
      insertOutputs acc nid outs = .ok acc' →
      ∀ x, hmLookup acc' x = if x ∈ outs then some nid else hmLookup acc x := by
  intro outs
  induction outs with
  | nil =>
      intro acc acc' nid h x
      cases h
      simp
  | cons o rest ih =>
      intro acc acc' nid h x
      by_cases hs : (hmLookup acc o).isSome
      · rw [insertOutputs, if_pos hs] at h
        cases h
      · rw [insertOutputs, if_neg hs] at h
        rw [ih _ _ _ h x]
        by_cases hx : x ∈ rest
        · simp [hx, List.mem_cons_of_mem _ hx]
        · by_cases hxo : x = o
          · subst hxo
            simp [hx, hmLookup_insert]
          · have hno : ¬ x ∈ (o :: rest) := by simp [hxo, hx]
            rw [if_neg hx, if_neg hno, hmLookup_insert,
              if_neg (fun h' : o = x => hxo h'.symm)]

theorem insertOutputs_ok_keys {V : Type} :
    ∀ (outs : List Source) (acc acc' : List (Source × Nat)) (nid : Nat),
      insertOutputs acc nid outs = .ok acc' →
      acc'.map Prod.fst = acc.map Prod.fst ++ outs := by
  intro outs
  induction outs with
  | nil =>
      intro acc acc' nid h
      cases h
      simp
  | cons o rest ih =>
      intro acc acc' nid h
      by_cases hs : (hmLookup acc o).isSome
      · rw [insertOutputs, if_pos hs] at h
        cases h
      · rw [insertOutputs, if_neg hs] at h
        rw [ih _ _ _ h,
          hmInsert_of_not_mem acc o nid (Option.not_isSome_iff_eq_none.mp hs)]
        simp

theorem insertOutputs_ok_nodup {V : Type} :
    ∀ (outs : List Source) (acc acc' : List (Source × Nat)) (nid : Nat),
      insertOutputs acc nid outs = .ok acc' →
      outs.Nodup ∧ ∀ x ∈ outs, hmLookup acc x = none := by
  intro outs
  induction outs with
  | nil =>
      intro acc acc' nid _
      exact ⟨List.nodup_nil, by simp⟩
  | cons o rest ih =>
      intro acc acc' nid h
      by_cases hs : (hmLookup acc o).isSome
      · rw [insertOutputs, if_pos hs] at h
        cases h
      · rw [insertOutputs, if_neg hs] at h
        obtain ⟨hnd, hnone⟩ := ih _ _ _ h
        have ho : o ∉ rest := by
          intro hmem
          have := hnone o hmem
          rw [hmLookup_insert] at this
          simp at this
        refine ⟨List.nodup_cons.mpr ⟨ho, hnd⟩, ?_⟩
        intro x hx
        rcases List.mem_cons.mp hx with rfl | hx
        · exact Option.not_isSome_iff_eq_none.mp hs
        · have := hnone x hx
          rw [hmLookup_insert] at this
          by_cases hox : o = x
          · subst hox
            exact absurd hx ho
          · rwa [if_neg hox] at this

theorem insertOutputs_ok_of_fresh {V : Type} :
    ∀ (outs : List Source) (acc : List (Source × Nat)) (nid : Nat),
      outs.Nodup → (∀ x ∈ outs, hmLookup acc x = none) →
      ∃ acc', insertOutputs acc nid outs = .ok acc' := by
  intro outs
  induction outs with
  | nil => intro acc nid _ _; exact ⟨acc, rfl⟩
  | cons o rest ih =>
      intro acc nid hnd hnone
      have hs : ¬ (hmLookup acc o).isSome := by
        rw [hnone o (List.mem_cons_self _ _)]
        simp
      have hfresh : ∀ x ∈ rest, hmLookup (hmInsert acc o nid) x = none := by
        intro x hx
        rw [hmLookup_insert,
          if_neg (fun h' : o = x => (List.nodup_cons.mp hnd).1 (h' ▸ hx))]
        exact hnone x (List.mem_cons_of_mem _ hx)
      obtain ⟨acc', h⟩ := ih (hmInsert acc o nid) nid (List.nodup_cons.mp hnd).2 hfresh
      exact ⟨acc', by rw [insertOutputs, if_neg hs]; exact h⟩

theorem collectOutputs_err {V : Type} :
    ∀ (ns : List (Node V)) (acc : List (Source × Nat)) (e : QupidoError),
      collectOutputs ns acc = .error e →
      ∃ x, e = .DuplicateData x ∧ x ∈ ns.flatMap Node.extOuts ∧
        2 ≤ ((acc.map Prod.fst) ++ ns.flatMap Node.extOuts).count x := by
  intro ns
  induction ns with
  | nil => intro acc e h; cases h
  | cons n rest ih =>
      intro acc e h
      rw [collectOutputs] at h
      cases hio : insertOutputs acc n.id n.extOuts with
      | error e' =>
          rw [hio] at h
          cases h
          obtain ⟨x, he, hx, hc⟩ := insertOutputs_err (V := V) _ _ _ _ hio
          refine ⟨x, he, List.mem_flatMap.mpr ⟨n, List.mem_cons_self _ _, hx⟩, ?_⟩
          simp only [List.flatMap_cons, List.count_append] at hc ⊢
          omega
      | ok acc' =>
          rw [hio] at h
          obtain ⟨x, he, hx, hc⟩ := ih _ _ h
          refine ⟨x, he, List.mem_flatMap.mpr ?_, ?_⟩
          · obtain ⟨n', hn', hx'⟩ := List.mem_flatMap.mp hx
            exact ⟨n', List.mem_cons_of_mem _ hn', hx'⟩
          · rw [insertOutputs_ok_keys (V := V) _ _ _ _ hio] at hc
            simp only [List.flatMap_cons, List.count_append] at hc ⊢
            omega

theorem collectOutputs_ok_keys {V : Type} :
    ∀ (ns : List (Node V)) (acc prods : List (Source × Nat)),
      collectOutputs ns acc = .ok prods →
      prods.map Prod.fst = acc.map Prod.fst ++ ns.flatMap Node.extOuts := by
  intro ns
  induction ns with
  | nil =>
      intro acc prods h
      cases h
      simp
  | cons n rest ih =>
      intro acc prods h
      rw [collectOutputs] at h
      cases hio : insertOutputs acc n.id n.extOuts with
      | error e => rw [hio] at h; cases h
      | ok acc' =>
          rw [hio] at h
          rw [ih _ _ h, insertOutputs_ok_keys (V := V) _ _ _ _ hio]
          simp

theorem collectOutputs_ok_nodup {V : Type} :
    ∀ (ns : List (Node V)) (acc prods : List (Source × Nat)),
      collectOutputs ns acc = .ok prods → (acc.map Prod.fst).Nodup →
      (acc.map Prod.fst ++ ns.flatMap Node.extOuts).Nodup := by
  intro ns
  induction ns with
  | nil =>
      intro acc prods _ hacc
      simpa using hacc
  | cons n rest ih =>
      intro acc prods h hacc
      rw [collectOutputs] at h
      cases hio : insertOutputs acc n.id n.extOuts with
      | error e => rw [hio] at h; cases h
      | ok acc' =>
          rw [hio] at h
          obtain ⟨hnd, hfresh⟩ := insertOutputs_ok_nodup (V := V) _ _ _ _ hio
          have hkeys := insertOutputs_ok_keys (V := V) _ _ _ _ hio
          have hacc' : (acc'.map Prod.fst).Nodup := by
            rw [hkeys]
            rw [List.nodup_append]
            refine ⟨hacc, hnd, ?_⟩
            intro x hx hx'
            have h1 := (hmLookup_isSome_iff acc x).mpr hx
            rw [hfresh x hx'] at h1
            simp at h1
          have := ih _ _ h hacc'
          rw [hkeys] at this
          simpa [List.append_assoc] using this

theorem collectOutputs_ok_of_nodup {V : Type} :
    ∀ (ns : List (Node V)) (acc : List (Source × Nat)),
      (acc.map Prod.fst ++ ns.flatMap Node.extOuts).Nodup →
      ∃ prods, collectOutputs ns acc = .ok prods := by
  intro ns
  induction ns with
  | nil => intro acc _; exact ⟨acc, rfl⟩
  | cons n rest ih =>
      intro acc hnd
      simp only [List.flatMap_cons, ← List.append_assoc] at hnd
      have hout : n.extOuts.Nodup :=
        ((List.nodup_append.mp (List.nodup_append.mp hnd).1).2).1
      have hdisj : ∀ x ∈ n.extOuts, hmLookup acc x = none := by
        intro x hx
        rcases hl : hmLookup acc x with _ | v
        · rfl
        · have hmem : x ∈ acc.map Prod.fst :=
            (hmLookup_isSome_iff acc x).mp (by rw [hl]; rfl)
          exact ((((List.nodup_append.mp (List.nodup_append.mp hnd).1).2).2) hmem hx).elim
      obtain ⟨acc', hio⟩ := insertOutputs_ok_of_fresh (V := V) n.extOuts acc n.id hout hdisj
      obtain ⟨prods, h⟩ := ih acc' (by
        rw [insertOutputs_ok_keys (V := V) _ _ _ _ hio]
        simpa [List.append_assoc] using hnd)
      exact ⟨prods, by rw [collectOutputs, hio]; exact h⟩

theorem collectOutputs_ok_lookup_some {V : Type} :
    ∀ (ns : List (Node V)) (acc prods : List (Source × Nat)),
      collectOutputs ns acc = .ok prods →
      ∀ x pid, hmLookup prods x = some pid →
        hmLookup acc x = some pid ∨ ∃ n ∈ ns, n.id = pid ∧ x ∈ n.extOuts := by
  intro ns
  induction ns with
  | nil =>
      intro acc prods h x pid hx
      cases h
      exact .inl hx
  | cons n rest ih =>
      intro acc prods h x pid hx
      rw [collectOutputs] at h
      cases hio : insertOutputs acc n.id n.extOuts with
      | error e => rw [hio] at h; cases h
      | ok acc' =>
          rw [hio] at h
          rcases ih _ _ h x pid hx with hcase | ⟨n', hn', hid, hx'⟩
          · rw [insertOutputs_ok_lookup (V := V) _ _ _ _ hio x] at hcase
            by_cases hmem : x ∈ n.extOuts
            · rw [if_pos hmem] at hcase
              cases hcase
              exact .inr ⟨n, List.mem_cons_self _ _, rfl, hmem⟩
            · rw [if_neg hmem] at hcase
              exact .inl hcase
          · exact .inr ⟨n', List.mem_cons_of_mem _ hn', hid, hx'⟩

/-! ## Lemmas: from_nodes inversion -/

theorem from_nodes_collect_err {V : Type} {ns : List (Node V)} {e : QupidoError}
    (h : collectOutputs ns [] = .error e) : Pipeline.from_nodes ns = .error e := by
  simp [Pipeline.from_nodes, h]

theorem from_nodes_ok_inv {V : Type} {ns : List (Node V)} {P : Pipeline V}
    (h : Pipeline.from_nodes ns = .ok P) :
    ∃ prods es order, collectOutputs ns [] = .ok prods ∧
      buildEdges (ns.map Node.id) prods ns = .ok es ∧
      kahn ns.length es (List.range ns.length) = .ok order ∧
      P = ⟨order.map (fun i => ns.getD i (dfltNode V)), ns.map Node.id, es⟩ := by
  simp only [Pipeline.from_nodes] at h
  cases hco : collectOutputs ns [] with
  | error e => rw [hco] at h; cases h
  | ok prods =>
      rw [hco] at h
      dsimp only at h
      cases hbe : buildEdges (ns.map Node.id) prods ns with
      | error e => rw [hbe] at h; cases h
      | ok es =>
          rw [hbe] at h
          dsimp only at h
          cases hk : kahn ns.length es (List.range ns.length) with
          | error e => rw [hk] at h; cases h
          | ok order =>
              rw [hk] at h
              dsimp only at h
              cases h
              exact ⟨prods, es, order, rfl, hbe, hk, rfl⟩

/-- Success of `from_nodes` forces globally duplicate-free external
outputs. -/
theorem from_nodes_ok_outputs_nodup {V : Type} {ns : List (Node V)} {P : Pipeline V}
    (h : Pipeline.from_nodes ns = .ok P) : (ns.flatMap Node.extOuts).Nodup := by
  obtain ⟨prods, es, order, hco, _, _, _⟩ := from_nodes_ok_inv h
  simpa using collectOutputs_ok_nodup ns [] prods hco (by simp)

/-- With duplicate-free flattened outputs, an output name pins down the
producing node position. -/
theorem flatMap_nodup_position_unique {V : Type} {ns : List (Node V)}
    (h : (ns.flatMap Node.extOuts).Nodup) (i j : Fin ns.length) (x : Source)
    (hi : x ∈ (ns.get i).extOuts) (hj : x ∈ (ns.get j).extOuts) : i = j := by
  rcases List.nodup_flatMap.mp h with ⟨_, hpw⟩
  have hg := List.pairwise_iff_get.mp hpw
  rcases lt_trichotomy i j with hlt | heq | hlt
  · exact absurd hj (fun hj' => (hg i j hlt) hi hj')
  · exact heq
  · exact absurd hi (fun hi' => (hg j i hlt) hj hi')

/-! ## Claim C3 -/

/-- C3 (amended): when two distinct nodes declare a common external output,
`from_nodes` fails with `DuplicateData m` for some name `m` that occurs at
least twice among the declared external outputs (the first collision in
declaration order, not necessarily the common name the claim picked); and a
successful build forces every external output name to be produced by
exactly one node position. -/
theorem from_nodes_duplicate_output {V : Type} (ns : List (Node V)) :
    ((∃ i j : Fin ns.length, i ≠ j ∧
        ∃ x, x ∈ (ns.get i).extOuts ∧ x ∈ (ns.get j).extOuts) →
      ∃ m, Pipeline.from_nodes ns = .error (.DuplicateData m) ∧
        2 ≤ (ns.flatMap Node.extOuts).count m) ∧
    (∀ P, Pipeline.from_nodes ns = .ok P →
      ∀ (i j : Fin ns.length) (x : Source),
        x ∈ (ns.get i).extOuts → x ∈ (ns.get j).extOuts → i = j) := by
  constructor
  · rintro ⟨i, j, hij, x, hi, hj⟩
    cases hco : collectOutputs ns [] with
    | ok prods =>
        have hnd : (ns.flatMap Node.extOuts).Nodup := by
          simpa using collectOutputs_ok_nodup ns [] prods hco (by simp)
        exact absurd (flatMap_nodup_position_unique hnd i j x hi hj) hij
    | error e =>
        obtain ⟨m, rfl, hm, hc⟩ := collectOutputs_err _ _ _ hco
        exact ⟨m, from_nodes_collect_err hco, by simpa using hc⟩
  · intro P hP i j x hi hj
    exact flatMap_nodup_position_unique (from_nodes_ok_outputs_nodup hP) i j x hi hj

/-- C3 counterexample for the claim's error payload: the two nodes share
the output name `n` (besides `m`), yet the reported name is `m`, not `n`. -/
theorem from_nodes_duplicate_payload_counterexample :
    "n" ∈ nodeMN1.extOuts ∧ "n" ∈ nodeMN2.extOuts ∧ nodeMN1.id ≠ nodeMN2.id ∧
    Pipeline.from_nodes [nodeMN1, nodeMN2] = .error (.DuplicateData "m") ∧
    QupidoError.DuplicateData "m" ≠ .DuplicateData "n" := by
  refine ⟨?_, ?_, by decide, rfl, by decide⟩
  · simp [nodeMN1, Node.extOuts, NodeSources.outputs]
  · simp [nodeMN2, Node.extOuts, NodeSources.outputs]

/-- Witness for C3's amended theorem at the concrete duplicate slice. -/
theorem from_nodes_duplicate_output_witness :
    ∃ m, Pipeline.from_nodes [nodeMN1, nodeMN2] = .error (.DuplicateData m) ∧
      2 ≤ ([nodeMN1, nodeMN2].flatMap Node.extOuts).count m := by
  refine (from_nodes_duplicate_output [nodeMN1, nodeMN2]).1
    ⟨⟨0, by decide⟩, ⟨1, by decide⟩, by decide, "m", ?_, ?_⟩
  · simp [nodeMN1, Node.extOuts, NodeSources.outputs]
  · simp [nodeMN2, Node.extOuts, NodeSources.outputs]

/-! ## Lemmas: graph node indices -/

theorem lastIdxOf_eq_none_iff (ids : List Nat) (pid : Nat) :
    lastIdxOf ids pid = none ↔ pid ∉ ids := by
  induction ids with
  | nil => simp [lastIdxOf]
  | cons x rest ih =>
      rw [lastIdxOf]
      cases h : lastIdxOf rest pid with
      | some j =>
          have hmem : pid ∈ rest := by
            by_contra hmem
            rw [ih.mpr hmem] at h
            cases h
          simp [List.mem_cons, hmem]
      | none =>
          have hnm : pid ∉ rest := ih.mp h
          by_cases hx : x = pid
          · simp [hx]
          · rw [if_neg hx]
            simp only [List.mem_cons]
            constructor
            · rintro _ (rfl | hm)
              · exact hx rfl
              · exact hnm hm
            · intro _
              trivial

theorem lastIdxOf_some_get : ∀ (ids : List Nat) (pid j : Nat),
    lastIdxOf ids pid = some j →
    ∃ h : j < ids.length, ids.get ⟨j, h⟩ = pid := by
  intro ids
  induction ids with
  | nil => intro pid j h; cases h
  | cons x rest ih =>
      intro pid j h
      rw [lastIdxOf] at h
      cases hr : lastIdxOf rest pid with
      | some j' =>
          rw [hr] at h
          cases h
          obtain ⟨hlt, hget⟩ := ih pid j' hr
          exact ⟨by simpa using Nat.succ_lt_succ hlt, hget⟩
      | none =>
          rw [hr] at h
          by_cases hx : x = pid
          · rw [if_pos hx] at h
            cases h
            exact ⟨by simp, hx⟩
          · rw [if_neg hx] at h
            cases h

theorem lastIdxOf_of_nodup : ∀ (ids : List Nat), ids.Nodup →
    ∀ (j : Nat) (h : j < ids.length), lastIdxOf ids (ids.get ⟨j, h⟩) = some j := by
  intro ids
  induction ids with
  | nil => intro _ j h; cases h
  | cons x rest ih =>
      intro hnd j h
      rcases List.nodup_cons.mp hnd with ⟨hx, hrest⟩
      cases j with
      | zero =>
          have hr : lastIdxOf rest x = none := (lastIdxOf_eq_none_iff rest x).mpr hx
          simp only [List.get] at *
          rw [lastIdxOf, hr, if_pos rfl]
      | succ j' =>
          have h' : j' < rest.length := by simpa using Nat.lt_of_succ_lt_succ h
          have := ih hrest j' h'
          simp only [List.get] at *
          rw [lastIdxOf, this]

/-! ## Lemmas: edge construction -/

theorem edgesForInputs_ok_of_resolvable {V : Type} (ids : List Nat)
    (prods : List (Source × Nat)) (dst : Nat)
    (hres : ∀ x pid, hmLookup prods x = some pid → pid ∈ ids) :
    ∀ ins : List Source, ∃ es, edgesForInputs ids prods dst ins = .ok es := by
  intro ins
  induction ins with
  | nil => exact ⟨[], rfl⟩
  | cons i rest ih =>
      obtain ⟨es, hrec⟩ := ih
      cases hp : hmLookup prods i with
      | none => exact ⟨es, by rw [edgesForInputs, hp]; exact hrec⟩
      | some pid =>
          cases hl : lastIdxOf ids pid with
          | none =>
              have := (lastIdxOf_eq_none_iff ids pid).mp hl
              exact absurd (hres i pid hp) this
          | some src =>
              refine ⟨(src, dst, i) :: es, ?_⟩
              rw [edgesForInputs, hp]
              dsimp only
              rw [hl]
              dsimp only
              rw [hrec]

theorem edgesForInputs_mem {V : Type} :
    ∀ (ins : List Source) (ids : List Nat) (prods : List (Source × Nat))
      (dst : Nat) (es : List Edge),
      edgesForInputs ids prods dst ins = .ok es →
      ∀ s d x, (s, d, x) ∈ es ↔
        d = dst ∧ x ∈ ins ∧ ∃ pid, hmLookup prods x = some pid ∧
          lastIdxOf ids pid = some s := by
  intro ins
  induction ins with
  | nil =>
      intro ids prods dst es h s d x
      cases h
      simp
  | cons i rest ih =>
      intro ids prods dst es h s d x
      rw [edgesForInputs] at h
      cases hp : hmLookup prods i with
      | none =>
          rw [hp] at h
          rw [ih _ _ _ _ h s d x]
          constructor
          · rintro ⟨rfl, hx, hpid⟩
            exact ⟨rfl, List.mem_cons_of_mem _ hx, hpid⟩
          · rintro ⟨rfl, hx, pid, hpid, hl⟩
            rcases List.mem_cons.mp hx with rfl | hx
            · rw [hp] at hpid
              cases hpid
            · exact ⟨rfl, hx, pid, hpid, hl⟩
      | some pid =>
          rw [hp] at h
          dsimp only at h
          cases hl : lastIdxOf ids pid with
          | none => rw [hl] at h; cases h
          | some src =>
              rw [hl] at h
              dsimp only at h
              cases hrec : edgesForInputs ids prods dst rest with
              | error e => rw [hrec] at h; cases h
              | ok es' =>
                  rw [hrec] at h
                  cases h
                  rw [List.mem_cons, ih _ _ _ _ hrec s d x]
                  constructor
                  · rintro (heq | ⟨rfl, hx, hpid⟩)
                    · rw [Prod.mk.injEq, Prod.mk.injEq] at heq
                      obtain ⟨rfl, rfl, rfl⟩ := heq
                      exact ⟨rfl, List.mem_cons_self _ _, pid, hp, hl⟩
                    · exact ⟨rfl, List.mem_cons_of_mem _ hx, hpid⟩
                  · rintro ⟨rfl, hx, pid', hpid', hl'⟩
                    rcases List.mem_cons.mp hx with rfl | hx
                    · rw [hp] at hpid'
                      cases hpid'
                      rw [hl] at hl'
                      cases hl'
                      exact .inl rfl
                    · exact .inr ⟨rfl, hx, pid', hpid', hl'⟩

theorem buildEdges_ok_of_resolvable {V : Type} (ids : List Nat)
    (prods : List (Source × Nat))
    (hres : ∀ x pid, hmLookup prods x = some pid → pid ∈ ids) :
    ∀ ns : List (Node V), (∀ n ∈ ns, n.id ∈ ids) →
      ∃ es, buildEdges ids prods ns = .ok es := by
  intro ns
  induction ns with
  | nil => intro _; exact ⟨[], rfl⟩
  | cons n rest ih =>
      intro hmem
      cases hl : lastIdxOf ids n.id with
      | none =>
          exact absurd (hmem n (List.mem_cons_self _ _))
            ((lastIdxOf_eq_none_iff ids n.id).mp hl)
      | some dst =>
          obtain ⟨es1, h1⟩ := edgesForInputs_ok_of_resolvable (V := V) ids prods dst hres n.extIns
          obtain ⟨es2, h2⟩ := ih (fun n' hn' => hmem n' (List.mem_cons_of_mem _ hn'))
          refine ⟨es1 ++ es2, ?_⟩
          rw [buildEdges, hl]
          dsimp only
          rw [h1]
          dsimp only
          rw [h2]

theorem buildEdges_mem {V : Type} :
    ∀ (ns : List (Node V)) (ids : List Nat) (prods : List (Source × Nat))
      (es : List Edge), buildEdges ids prods ns = .ok es →
      ∀ s d x, (s, d, x) ∈ es ↔
        ∃ n ∈ ns, lastIdxOf ids n.id = some d ∧ x ∈ n.extIns ∧
          ∃ pid, hmLookup prods x = some pid ∧ lastIdxOf ids pid = some s := by
  intro ns
  induction ns with
  | nil =>
      intro ids prods es h s d x
      cases h
      simp
  | cons n rest ih =>
      intro ids prods es h s d x
      rw [buildEdges] at h
      cases hl : lastIdxOf ids n.id with
      | none => rw [hl] at h; cases h
      | some dst =>
          rw [hl] at h
          dsimp only at h
          cases h1 : edgesForInputs ids prods dst n.extIns with
          | error e => rw [h1] at h; cases h
          | ok es1 =>
              rw [h1] at h
              dsimp only at h
              cases h2 : buildEdges ids prods rest with
              | error e => rw [h2] at h; cases h
              | ok es2 =>
                  rw [h2] at h
                  cases h
                  rw [List.mem_append, edgesForInputs_mem (V := V) _ _ _ _ _ h1 s d x,
                    ih _ _ _ h2 s d x]
                  constructor
                  · rintro (⟨rfl, hx, hpid⟩ | ⟨n', hn', hrest⟩)
                    · exact ⟨n, List.mem_cons_self _ _, hl, hx, hpid⟩
                    · exact ⟨n', List.mem_cons_of_mem _ hn', hrest⟩
                  · rintro ⟨n', hn', hd, hx, hpid⟩
                    rcases List.mem_cons.mp hn' with rfl | hn'
                    · rw [hl] at hd
                      cases hd
                      exact .inl ⟨rfl, hx, hpid⟩
                    · exact .inr ⟨n', hn', hd, hx, hpid⟩

/-! ## Lemmas: the topological sort -/

theorem kahn_nil (fuel : Nat) (es : List Edge) : kahn fuel es [] = .ok [] := by
  cases fuel <;> rfl

theorem kahn_ok_perm :
    ∀ (fuel : Nat) (es : List Edge) (rem order : List Nat),
      kahn fuel es rem = .ok order → order.Perm rem := by
  intro fuel
  induction fuel with
  | zero =>
      intro es rem order h
      cases rem with
      | nil => cases h; exact List.Perm.refl _
      | cons r rest => cases h
  | succ fuel ih =>
      intro es rem order h
      cases rem with
      | nil => cases h; exact List.Perm.refl _
      | cons r rest =>
          rw [kahn] at h
          cases hp : pickNext es (r :: rest) with
          | none => rw [hp] at h; cases h
          | some c =>
              rw [hp] at h
              dsimp only at h
              cases hrec : kahn fuel es ((r :: rest).erase c) with
              | error e => rw [hrec] at h; cases h
              | ok order' =>
                  rw [hrec] at h
                  cases h
                  have hc : c ∈ r :: rest := List.mem_of_find?_eq_some hp
                  exact ((ih _ _ _ hrec).cons c).trans (List.perm_cons_erase hc).symm

theorem kahn_ok_mono :
    ∀ (fuel : Nat) (es : List Edge) (rem order : List Nat),
      kahn fuel es rem = .ok order → rem.Nodup →
      ∀ (u v : Fin order.length) (x : Source),
        (order.get u, order.get v, x) ∈ es → u < v := by
  intro fuel
  induction fuel with
  | zero =>
      intro es rem order h _
      cases rem with
      | nil =>
          cases h
          intro u
          exact absurd u.isLt (by simp)
      | cons r rest => cases h
  | succ fuel ih =>
      intro es rem order h hnd
      cases rem with
      | nil =>
          cases h
          intro u
          exact absurd u.isLt (by simp)
      | cons r rest =>
          rw [kahn] at h
          cases hp : pickNext es (r :: rest) with
          | none => rw [hp] at h; cases h
          | some c =>
              rw [hp] at h
              dsimp only at h
              cases hrec : kahn fuel es ((r :: rest).erase c) with
              | error e => rw [hrec] at h; cases h
              | ok order' =>
                  rw [hrec] at h
                  cases h
                  intro u v x hedge
                  have hperm' := kahn_ok_perm _ _ _ _ hrec
                  obtain ⟨vv, hv⟩ := v
                  cases vv with
                  | zero =>
                      -- the selected vertex has no incoming edge from rem
                      exfalso
                      have hpick := List.find?_some hp
                      rw [Bool.not_eq_eq_eq_not, Bool.not_true] at hpick
                      have hsrc : (c :: order').get u ∈ (r :: rest) := by
                        obtain ⟨uu, hu⟩ := u
                        cases uu with
                        | zero => exact List.mem_of_find?_eq_some hp
                        | succ uu =>
                            have hm : order'.get ⟨uu, by simpa using hu⟩ ∈ order' :=
                              List.get_mem _ _ _
                            exact List.mem_of_mem_erase (hperm'.mem_iff.mp hm)
                      have hcontra : hasIncoming es (r :: rest) c = true := by
                        rw [hasIncoming, List.any_eq_true]
                        refine ⟨((c :: order').get u, c, x), hedge, ?_⟩
                        simp only [beq_self_eq_true, Bool.true_and]
                        exact List.elem_iff.mpr hsrc
                      rw [hcontra] at hpick
                      cases hpick
                  | succ vv =>
                      obtain ⟨uu, hu⟩ := u
                      cases uu with
                      | zero => exact Nat.succ_pos vv
                      | succ uu =>
                          have hlt := ih es ((r :: rest).erase c) order' hrec
                            (hnd.erase c)
                            ⟨uu, by simpa using hu⟩ ⟨vv, by simpa using hv⟩ x hedge
                          exact Nat.succ_lt_succ hlt

/-- In a finite set where every element has a predecessor, the predecessor
relation has a cycle (pigeonhole on iterated predecessors). -/
theorem exists_cycle_of_all_pred {α : Type} [DecidableEq α] (S : List α)
    (R : α → α → Prop) (hne : S ≠ [])
    (h : ∀ c ∈ S, ∃ p ∈ S, R p c) :
    ∃ c cs, c ∈ S ∧ (∀ v ∈ cs, v ∈ S) ∧ List.Chain R c (cs ++ [c]) := by
  obtain ⟨a0, ha0⟩ : ∃ a, a ∈ S := by
    cases S with
    | nil => exact absurd rfl hne
    | cons a _ => exact ⟨a, List.mem_cons_self _ _⟩
  have hF : ∀ c, ∃ p, c ∈ S → p ∈ S ∧ R p c := by
    intro c
    by_cases hc : c ∈ S
    · obtain ⟨p, hp, hr⟩ := h c hc
      exact ⟨p, fun _ => ⟨hp, hr⟩⟩
    · exact ⟨a0, fun hc' => absurd hc' hc⟩
  choose F hFspec using hF
  have hgsucc : ∀ k, F^[k + 1] a0 = F (F^[k] a0) := fun k =>
    Function.iterate_succ_apply' F k a0
  have hmem : ∀ k, F^[k] a0 ∈ S := by
    intro k
    induction k with
    | zero => simpa using ha0
    | succ k ihk =>
        rw [hgsucc k]
        exact (hFspec _ ihk).1
  have hstep : ∀ k, R (F^[k + 1] a0) (F^[k] a0) := by
    intro k
    rw [hgsucc k]
    exact (hFspec _ (hmem k)).2
  -- a descending chain of iterates of any length
  have hchain : ∀ (d a : Nat), ∃ cs, (∀ v ∈ cs, ∃ k, v = F^[k] a0) ∧
      List.Chain R (F^[a + d + 1] a0) (cs ++ [F^[a] a0]) := by
    intro d
    induction d with
    | zero =>
        intro a
        refine ⟨[], by simp, ?_⟩
        simpa using List.Chain.cons (hstep a) List.Chain.nil
    | succ d ihd =>
        intro a
        obtain ⟨cs, hcs, hch⟩ := ihd (a + 1)
        refine ⟨cs ++ [F^[a + 1] a0], ?_, ?_⟩
        · intro v hv
          rcases List.mem_append.mp hv with hv | hv
          · exact hcs v hv
          · exact ⟨a + 1, List.mem_singleton.mp hv⟩
        · rw [List.append_assoc]
          refine (@List.chain_split _ _ _ (F^[a + 1] a0) cs [F^[a] a0]).mpr ⟨?_, ?_⟩
          · have harith : a + 1 + d + 1 = a + (d + 1) + 1 := by omega
            rw [harith] at hch
            exact hch
          · exact List.Chain.cons (hstep a) List.Chain.nil
  -- pigeonhole over S.length + 1 iterates
  have hcard : S.toFinset.card < (Finset.range (S.length + 1)).card := by
    rw [Finset.card_range]
    exact Nat.lt_succ_of_le (List.toFinset_card_le S)
  obtain ⟨x, hx, y, hy, hxy, hgxy⟩ :=
    Finset.exists_ne_map_eq_of_card_lt_of_maps_to hcard
      (fun k _ => List.mem_toFinset.mpr (hmem k))
  have haux : ∀ x y : Nat, x < y → F^[x] a0 = F^[y] a0 →
      ∃ c cs, c ∈ S ∧ (∀ v ∈ cs, v ∈ S) ∧ List.Chain R c (cs ++ [c]) := by
    intro x y hlt heq
    obtain ⟨cs, hcs, hch⟩ := hchain (y - x - 1) x
    have harith : x + (y - x - 1) + 1 = y := by omega
    rw [harith, heq] at hch
    exact ⟨F^[y] a0, cs, hmem y, fun v hv => by
      obtain ⟨k, rfl⟩ := hcs v hv
      exact hmem k, hch⟩
  rcases Nat.lt_or_ge x y with hlt | hge
  · exact haux x y hlt hgxy
  · rcases Nat.lt_or_ge y x with hlt | hge'
    · exact haux y x hlt hgxy.symm
    · exact absurd (Nat.le_antisymm hge hge') (fun he => hxy he.symm)

theorem kahn_ok_of_acyclic :
    ∀ (fuel : Nat) (es : List Edge) (rem : List Nat),
      rem.length ≤ fuel →
      (¬ ∃ c cs, c ∈ rem ∧ (∀ v ∈ cs, v ∈ rem) ∧
        List.Chain (fun s d => ∃ x, (s, d, x) ∈ es) c (cs ++ [c])) →
      ∃ order, kahn fuel es rem = .ok order := by
  intro fuel
  induction fuel with
  | zero =>
      intro es rem hlen _
      cases rem with
      | nil => exact ⟨[], rfl⟩
      | cons r rest => simp at hlen
  | succ fuel ih =>
      intro es rem hlen hacyc
      cases rem with
      | nil => exact ⟨[], rfl⟩
      | cons r rest =>
          cases hp : pickNext es (r :: rest) with
          | none =>
              exfalso
              apply hacyc
              refine exists_cycle_of_all_pred (r :: rest)
                (fun s d => ∃ x, (s, d, x) ∈ es) (by simp) ?_
              intro c hc
              have hall := List.find?_eq_none.mp hp c hc
              rw [Bool.not_eq_eq_eq_not, Bool.not_true, Bool.not_eq_false] at hall
              rw [hasIncoming, List.any_eq_true] at hall
              obtain ⟨e, he, hprop⟩ := hall
              rw [Bool.and_eq_true, beq_iff_eq] at hprop
              obtain ⟨s, d, x⟩ := e
              refine ⟨s, List.elem_iff.mp hprop.2, x, ?_⟩
              have : d = c := hprop.1
              rw [← this]
              exact he
          | some c =>
              have hc : c ∈ r :: rest := List.mem_of_find?_eq_some hp
              obtain ⟨order, hrec⟩ := ih es ((r :: rest).erase c)
                (by
                  rw [List.length_erase_of_mem hc]
                  simp only [List.length_cons] at hlen ⊢
                  omega)
                (by
                  intro ⟨c', cs', hc', hcs', hch'⟩
                  exact hacyc ⟨c', cs', List.mem_of_mem_erase hc',
                    fun v hv => List.mem_of_mem_erase (hcs' v hv), hch'⟩)
              refine ⟨c :: order, ?_⟩
              rw [kahn, hp]
              dsimp only
              rw [hrec]

/-! ## Lemmas: wiring vs graph edges -/

/-- With distinct ids, a position holding a node's id holds the node. -/
theorem get_eq_of_id_eq {V : Type} {ns : List (Node V)}
    (hids : (ns.map Node.id).Nodup) {n : Node V} (hn : n ∈ ns)
    (j : Fin ns.length) (hj : (ns.get j).id = n.id) : ns.get j = n := by
  obtain ⟨i, hi⟩ := List.mem_iff_get.mp hn
  have hinj := List.nodup_iff_injective_get.mp hids
  have hlen : (ns.map Node.id).length = ns.length := List.length_map ns Node.id
  have hgi : (ns.map Node.id).get ⟨i.val, by rw [hlen]; exact i.isLt⟩ = n.id := by
    rw [List.get_map]
    simp only [Fin.eta]
    rw [hi]
  have hgj : (ns.map Node.id).get ⟨j.val, by rw [hlen]; exact j.isLt⟩ = n.id := by
    rw [List.get_map]
    simp only [Fin.eta]
    rw [hj]
  have := hinj (hgi.trans hgj.symm)
  have hij : i.val = j.val := by
    simpa using congrArg Fin.val this
  have hij' : j = i := Fin.ext hij.symm
  rw [hij']
  exact hi

/-- `lastIdxOf` on the id list finds a node's own position. -/
theorem lastIdxOf_id {V : Type} {ns : List (Node V)}
    (hids : (ns.map Node.id).Nodup) (j : Fin ns.length) :
    lastIdxOf (ns.map Node.id) (ns.get j).id = some j.val := by
  have hlen : (ns.map Node.id).length = ns.length := List.length_map ns Node.id
  have hget : (ns.map Node.id).get ⟨j.val, by rw [hlen]; exact j.isLt⟩ = (ns.get j).id := by
    rw [List.get_map]
  have := lastIdxOf_of_nodup (ns.map Node.id) hids j.val (by rw [hlen]; exact j.isLt)
  rwa [hget] at this

/-- The wiring relation between node positions corresponds exactly to the
edges built by `from_nodes`. -/
theorem wired_iff_edge {V : Type} {ns : List (Node V)}
    {prods : List (Source × Nat)} {es : List Edge}
    (hids : (ns.map Node.id).Nodup)
    (houts : (ns.flatMap Node.extOuts).Nodup)
    (hco : collectOutputs ns [] = .ok prods)
    (hbe : buildEdges (ns.map Node.id) prods ns = .ok es)
    (i j : Fin ns.length) :
    wired (ns.get i) (ns.get j) ↔ ∃ x, (i.val, j.val, x) ∈ es := by
  constructor
  · rintro ⟨x, hxo, hxi⟩
    have hxkeys : x ∈ prods.map Prod.fst := by
      rw [collectOutputs_ok_keys ns [] prods hco]
      simp only [List.map_nil, List.nil_append]
      exact List.mem_flatMap.mpr ⟨ns.get i, List.get_mem _ _ _, hxo⟩
    obtain ⟨pid, hpid⟩ := Option.isSome_iff_exists.mp ((hmLookup_isSome_iff prods x).mpr hxkeys)
    rcases collectOutputs_ok_lookup_some ns [] prods hco x pid hpid with hemp | ⟨n', hn', hid, hxo'⟩
    · cases hemp
    · obtain ⟨i', hi'⟩ := List.mem_iff_get.mp hn'
      have heq : i' = i :=
        flatMap_nodup_position_unique houts i' i x (by rw [hi']; exact hxo') hxo
      have hi2 : ns.get i = n' := by
        rw [← heq]
        exact hi'
      refine ⟨x, (buildEdges_mem ns (ns.map Node.id) prods es hbe i.val j.val x).mpr
        ⟨ns.get j, List.get_mem _ _ _, lastIdxOf_id hids j, hxi, pid, hpid, ?_⟩⟩
      rw [← hid, ← hi2]
      exact lastIdxOf_id hids i
  · rintro ⟨x, hedge⟩
    obtain ⟨n, hn, hlj, hxi, pid, hpid, hli⟩ :=
      (buildEdges_mem ns (ns.map Node.id) prods es hbe i.val j.val x).mp hedge
    obtain ⟨hjlt, hgj⟩ := lastIdxOf_some_get _ _ _ hlj
    have hlen : (ns.map Node.id).length = ns.length := List.length_map ns Node.id
    have hnj : ns.get j = n := by
      apply get_eq_of_id_eq hids hn
      have : (ns.map Node.id).get ⟨j.val, hjlt⟩ = (ns.get j).id := by
        rw [List.get_map]
      rw [← this, hgj]
    rcases collectOutputs_ok_lookup_some ns [] prods hco x pid hpid with hemp | ⟨n', hn', hid, hxo'⟩
    · cases hemp
    · obtain ⟨hilt, hgi⟩ := lastIdxOf_some_get _ _ _ hli
      have hni : ns.get i = n' := by
        apply get_eq_of_id_eq hids hn'
        have : (ns.map Node.id).get ⟨i.val, hilt⟩ = (ns.get i).id := by
          rw [List.get_map]
        rw [← this, hgi, hid]
      exact ⟨x, by rw [hni]; exact hxo', by rw [hnj]; exact hxi⟩

/-! ## Lemmas: chains, cycles and the sorted order -/

/-- Positions in a successful Kahn order strictly increase along any chain
of edges. -/
theorem chain_pos_increasing {fuel : Nat} {es : List Edge} {rem order : List Nat}
    (hk : kahn fuel es rem = .ok order) (hnd : rem.Nodup) :
    ∀ (il : List Nat) (a : Nat),
      List.Chain (fun s d => ∃ x, (s, d, x) ∈ es) a il →
      (∀ v ∈ il, v ∈ order) →
      ∀ ua : Fin order.length, order.get ua = a →
        ∃ ub : Fin order.length, order.get ub = il.getLastD a ∧ (il = [] ∨ ua < ub) := by
  have hndo : order.Nodup := ((kahn_ok_perm _ _ _ _ hk).nodup_iff).mpr hnd
  intro il
  induction il with
  | nil =>
      intro a _ _ ua hua
      exact ⟨ua, by simpa using hua, .inl rfl⟩
  | cons b t ih =>
      intro a hch hmem ua hua
      rcases List.chain_cons.mp hch with ⟨⟨x, hedge⟩, hch'⟩
      obtain ⟨ubh, hubh⟩ := List.mem_iff_get.mp (hmem b (List.mem_cons_self _ _))
      have hlt : ua < ubh := by
        refine kahn_ok_mono _ _ _ _ hk hnd ua ubh x ?_
        rw [hua, hubh]
        exact hedge
      obtain ⟨ub, hub, hcase⟩ := ih b hch'
        (fun v hv => hmem v (List.mem_cons_of_mem _ hv)) ubh hubh
      refine ⟨ub, by rw [hub, List.getLastD_cons], .inr ?_⟩
      rcases hcase with rfl' | hlt2
      · have : ub = ubh := by
          apply List.nodup_iff_injective_get.mp hndo
          rw [hub, hubh]
          rw [rfl']
          simp
        rw [this]
        exact hlt
      · exact lt_trans hlt hlt2

/-- A wired chain through the slice lifts to an edge chain on positions. -/
theorem chain_wired_to_idx {V : Type} {ns : List (Node V)}
    {prods : List (Source × Nat)} {es : List Edge}
    (hids : (ns.map Node.id).Nodup)
    (houts : (ns.flatMap Node.extOuts).Nodup)
    (hco : collectOutputs ns [] = .ok prods)
    (hbe : buildEdges (ns.map Node.id) prods ns = .ok es) :
    ∀ (l : List (Node V)) (a : Node V) (ia : Fin ns.length),
      ns.get ia = a → (∀ v ∈ l, v ∈ ns) → List.Chain wired a l →
      ∃ il : List Nat, il.length = l.length ∧
        List.Chain (fun s d => ∃ x, (s, d, x) ∈ es) ia.val il ∧
        (∀ v ∈ il, v < ns.length) ∧
        ∃ jl : Fin ns.length, jl.val = il.getLastD ia.val ∧ ns.get jl = l.getLastD a := by
  intro l
  induction l with
  | nil =>
      intro a ia hia _ _
      exact ⟨[], rfl, List.Chain.nil, by simp, ia, by simp, by simpa using hia⟩
  | cons b t ih =>
      intro a ia hia hmem hch
      rcases List.chain_cons.mp hch with ⟨hw, hch'⟩
      obtain ⟨ib, hib⟩ := List.mem_iff_get.mp (hmem b (List.mem_cons_self _ _))
      have hR : ∃ x, (ia.val, ib.val, x) ∈ es := by
        refine (wired_iff_edge hids houts hco hbe ia ib).mp ?_
        rw [hia, hib]
        exact hw
      obtain ⟨il, hlen, hch2, hbound, jl, hjl, hlast⟩ :=
        ih b ib hib (fun v hv => hmem v (List.mem_cons_of_mem _ hv)) hch'
      refine ⟨ib.val :: il, by simpa using hlen, List.chain_cons.mpr ⟨hR, hch2⟩, ?_, jl, ?_, ?_⟩
      · intro v hv
        rcases List.mem_cons.mp hv with rfl | hv
        · exact ib.isLt
        · exact hbound v hv
      · rw [List.getLastD_cons]
        exact hjl
      · rw [List.getLastD_cons]
        exact hlast

/-- An edge chain on positions lifts back to a wired chain on nodes. -/
theorem chain_idx_to_wired {V : Type} {ns : List (Node V)}
    {prods : List (Source × Nat)} {es : List Edge}
    (hids : (ns.map Node.id).Nodup)
    (houts : (ns.flatMap Node.extOuts).Nodup)
    (hco : collectOutputs ns [] = .ok prods)
    (hbe : buildEdges (ns.map Node.id) prods ns = .ok es) :
    ∀ (il : List Nat) (a : Nat), a < ns.length → (∀ v ∈ il, v < ns.length) →
      List.Chain (fun s d => ∃ x, (s, d, x) ∈ es) a il →
      List.Chain wired (ns.getD a (dfltNode V))
        (il.map (fun v => ns.getD v (dfltNode V))) := by
  intro il
  induction il with
  | nil =>
      intro a _ _ _
      exact List.Chain.nil
  | cons b t ih =>
      intro a ha hb hch
      rcases List.chain_cons.mp hch with ⟨⟨x, hedge⟩, hch'⟩
      have hblt : b < ns.length := hb b (List.mem_cons_self _ _)
      refine List.chain_cons.mpr ⟨?_, ih b hblt
        (fun v hv => hb v (List.mem_cons_of_mem _ hv)) hch'⟩
      have hw := (wired_iff_edge hids houts hco hbe ⟨a, ha⟩ ⟨b, hblt⟩).mpr ⟨x, hedge⟩
      show wired (ns.getD a (dfltNode V)) (ns.getD b (dfltNode V))
      rwa [List.getD_eq_get ns (dfltNode V) ha, List.getD_eq_get ns (dfltNode V) hblt]

/-- Mapping positions through `getD` over the full range recovers the list. -/
theorem map_getD_range {α : Type} : ∀ (l : List α) (d : α),
    (List.range l.length).map (fun i => l.getD i d) = l := by
  intro l
  induction l with
  | nil => intro d; rfl
  | cons a t ih =>
      intro d
      rw [List.length_cons, List.range_succ_eq_map, List.map_cons, List.map_map]
      have hfun : ((fun i => (a :: t).getD i d) ∘ Nat.succ) = fun i => t.getD i d := by
        funext i
        rfl
      rw [hfun, ih d]
      rfl

/-- With distinct ids, equal ids pin down equal positions. -/
theorem pos_unique_of_ids {V : Type} {ns : List (Node V)}
    (hids : (ns.map Node.id).Nodup) (i j : Fin ns.length)
    (h : (ns.get i).id = (ns.get j).id) : i = j := by
  have hinj := List.nodup_iff_injective_get.mp hids
  have hlen : (ns.map Node.id).length = ns.length := List.length_map ns Node.id
  have hgi : (ns.map Node.id).get ⟨i.val, by rw [hlen]; exact i.isLt⟩ = (ns.get i).id := by
    rw [List.get_map]
  have hgj : (ns.map Node.id).get ⟨j.val, by rw [hlen]; exact j.isLt⟩ = (ns.get j).id := by
    rw [List.get_map]
  have := hinj (hgi.trans (h.trans hgj.symm))
  exact Fin.ext (by simpa using congrArg Fin.val this)

/-- A successful `from_nodes` stores a permutation of the slice in
topological order of the wiring. -/
theorem from_nodes_ok_perm_topo {V : Type} {ns : List (Node V)} {P : Pipeline V}
    (hids : (ns.map Node.id).Nodup) (h : Pipeline.from_nodes ns = .ok P) :
    P.nodes.Perm ns ∧ TopoOrdered P.nodes := by
  obtain ⟨prods, es, order, hco, hbe, hk, hP⟩ := from_nodes_ok_inv h
  have houts := from_nodes_ok_outputs_nodup h
  have hperm0 : order.Perm (List.range ns.length) := kahn_ok_perm _ _ _ _ hk
  subst hP
  have hlen : (order.map (fun i => ns.getD i (dfltNode V))).length = order.length :=
    List.length_map _ _
  constructor
  · have := hperm0.map (fun i => ns.getD i (dfltNode V))
    rwa [map_getD_range ns (dfltNode V)] at this
  · intro u v hw
    have hu' : u.val < order.length := by rw [← hlen]; exact u.isLt
    have hv' : v.val < order.length := by rw [← hlen]; exact v.isLt
    have hua : order.get ⟨u.val, hu'⟩ < ns.length :=
      List.mem_range.mp (hperm0.mem_iff.mp (List.get_mem _ _ _))
    have hvb : order.get ⟨v.val, hv'⟩ < ns.length :=
      List.mem_range.mp (hperm0.mem_iff.mp (List.get_mem _ _ _))
    have hgu : (order.map (fun i => ns.getD i (dfltNode V))).get u =
        ns.get ⟨order.get ⟨u.val, hu'⟩, hua⟩ := by
      rw [List.get_map]
      exact List.getD_eq_get ns (dfltNode V) hua
    have hgv : (order.map (fun i => ns.getD i (dfltNode V))).get v =
        ns.get ⟨order.get ⟨v.val, hv'⟩, hvb⟩ := by
      rw [List.get_map]
      exact List.getD_eq_get ns (dfltNode V) hvb
    rw [hgu, hgv] at hw
    obtain ⟨x, hedge⟩ :=
      (wired_iff_edge hids houts hco hbe ⟨order.get ⟨u.val, hu'⟩, hua⟩
        ⟨order.get ⟨v.val, hv'⟩, hvb⟩).mp hw
    have := kahn_ok_mono _ _ _ _ hk (List.nodup_range _) ⟨u.val, hu'⟩ ⟨v.val, hv'⟩ x hedge
    exact this

/-! ## Claim C4 -/

/-- C4 (amended, with the globally-unique-outputs proviso the code checks
first): a wiring cycle makes `from_nodes` fail with `InvalidPipeline`; an
acyclic wiring makes it succeed, storing the nodes in a topological order
of the wiring.  Without the proviso the claim is false: a duplicate output
pre-empts the cycle check with `DuplicateData`. -/
theorem from_nodes_cycle_behavior {V : Type} (ns : List (Node V))
    (hids : (ns.map Node.id).Nodup)
    (houts : (ns.flatMap Node.extOuts).Nodup) :
    (HasWiredCycle ns → Pipeline.from_nodes ns = .error .InvalidPipeline) ∧
    (¬ HasWiredCycle ns →
      ∃ P, Pipeline.from_nodes ns = .ok P ∧ P.nodes.Perm ns ∧ TopoOrdered P.nodes) := by
  obtain ⟨prods, hco⟩ := collectOutputs_ok_of_nodup ns [] (by simpa using houts)
  have hres : ∀ x pid, hmLookup prods x = some pid → pid ∈ ns.map Node.id := by
    intro x pid hx
    rcases collectOutputs_ok_lookup_some ns [] prods hco x pid hx with hemp | ⟨n', hn', hid, _⟩
    · cases hemp
    · exact List.mem_map.mpr ⟨n', hn', hid⟩
  obtain ⟨es, hbe⟩ := buildEdges_ok_of_resolvable (ns.map Node.id) prods hres ns
    (fun n hn => List.mem_map.mpr ⟨n, hn, rfl⟩)
  constructor
  · intro hcyc
    cases hk : kahn ns.length es (List.range ns.length) with
    | error e => simp [Pipeline.from_nodes, hco, hbe, hk]
    | ok order =>
        exfalso
        obtain ⟨a, rest, ha, hrest, hch⟩ := hcyc
        obtain ⟨ia, hia⟩ := List.mem_iff_get.mp ha
        have hmem : ∀ v ∈ rest ++ [a], v ∈ ns := by
          intro v hv
          rcases List.mem_append.mp hv with hv | hv
          · exact hrest v hv
          · rw [List.mem_singleton.mp hv]
            exact ha
        obtain ⟨il, hillen, hch2, hbound, jl, hjl, hlast⟩ :=
          chain_wired_to_idx hids houts hco hbe (rest ++ [a]) a ia hia hmem hch
        rw [List.getLastD_concat] at hlast
        have hjla : jl = ia :=
          pos_unique_of_ids hids jl ia (congrArg Node.id (hlast.trans hia.symm))
        have hperm0 : order.Perm (List.range ns.length) := kahn_ok_perm _ _ _ _ hk
        have hmemil : ∀ v ∈ il, v ∈ order :=
          fun v hv => hperm0.mem_iff.mpr (List.mem_range.mpr (hbound v hv))
        have hiamem : ia.val ∈ order :=
          hperm0.mem_iff.mpr (List.mem_range.mpr ia.isLt)
        obtain ⟨ua, hua⟩ := List.mem_iff_get.mp hiamem
        obtain ⟨ub, hub, hcase⟩ :=
          chain_pos_increasing hk (List.nodup_range _) il ia.val hch2 hmemil ua hua
        have hilne : il ≠ [] := by
          intro he
          rw [he] at hillen
          simp at hillen
        rcases hcase with he | hlt
        · exact hilne he
        · have hlval : il.getLastD ia.val = ia.val := by
            rw [← hjl, hjla]
          rw [hlval, ← hua] at hub
          have heq := List.nodup_iff_injective_get.mp
            ((hperm0.nodup_iff).mpr (List.nodup_range _)) hub
          rw [heq] at hlt
          exact lt_irrefl _ hlt
  · intro hnc
    have hnic : ¬ ∃ c cs, c ∈ List.range ns.length ∧
        (∀ v ∈ cs, v ∈ List.range ns.length) ∧
        List.Chain (fun s d => ∃ x, (s, d, x) ∈ es) c (cs ++ [c]) := by
      rintro ⟨c, cs, hc, hcs, hch⟩
      apply hnc
      have hclt := List.mem_range.mp hc
      have hcycle := chain_idx_to_wired hids houts hco hbe (cs ++ [c]) c hclt
        (fun v hv => by
          rcases List.mem_append.mp hv with hv | hv
          · exact List.mem_range.mp (hcs v hv)
          · rw [List.mem_singleton.mp hv]
            exact hclt) hch
      rw [List.map_append, List.map_singleton] at hcycle
      refine ⟨ns.getD c (dfltNode V), cs.map (fun v => ns.getD v (dfltNode V)), ?_, ?_, hcycle⟩
      · rw [List.getD_eq_get ns _ hclt]
        exact List.get_mem _ _ _
      · intro v hv
        obtain ⟨w, hw, hwv⟩ := List.mem_map.mp hv
        rw [← hwv, List.getD_eq_get ns _ (List.mem_range.mp (hcs w hw))]
        exact List.get_mem _ _ _
    obtain ⟨order, hk⟩ := kahn_ok_of_acyclic ns.length es (List.range ns.length)
      (by simp) hnic
    have hfn : Pipeline.from_nodes ns =
        .ok ⟨order.map (fun i => ns.getD i (dfltNode V)), ns.map Node.id, es⟩ := by
      simp [Pipeline.from_nodes, hco, hbe, hk]
    obtain ⟨hperm, htopo⟩ := from_nodes_ok_perm_topo hids hfn
    exact ⟨_, hfn, hperm, htopo⟩

/-- C4 counterexample: two input-free nodes sharing output `x` have a
trivially acyclic wiring, yet `from_nodes` fails — with `DuplicateData`,
not success and not `InvalidPipeline`. -/
theorem from_nodes_acyclic_failure_counterexample :
    ¬ HasWiredCycle [nodeX1, nodeX2] ∧
    Pipeline.from_nodes [nodeX1, nodeX2] = .error (.DuplicateData "x") ∧
    QupidoError.DuplicateData "x" ≠ .InvalidPipeline ∧
    ∀ P, Pipeline.from_nodes [nodeX1, nodeX2] ≠ .ok P := by
  have hempty : ∀ b, b ∈ [nodeX1, nodeX2] → b.extIns = [] := by
    intro b hb
    rcases List.mem_cons.mp hb with rfl | hb
    · rfl
    · rcases List.mem_cons.mp hb with rfl | hb
      · rfl
      · cases hb
  refine ⟨?_, rfl, by decide, ?_⟩
  · rintro ⟨a, rest, ha, hrest, hch⟩
    cases rest with
    | nil =>
        rw [List.nil_append] at hch
        rcases List.chain_cons.mp hch with ⟨⟨x, _, hxi⟩, _⟩
        rw [hempty a ha] at hxi
        cases hxi
    | cons b rest' =>
        rcases List.chain_cons.mp hch with ⟨⟨x, _, hxi⟩, _⟩
        rw [hempty b (hrest b (List.mem_cons_self _ _))] at hxi
        cases hxi
  · intro P h
    rw [show Pipeline.from_nodes [nodeX1, nodeX2] =
      .error (.DuplicateData "x") from rfl] at h
    cases h

/-- Witness for C4's amended theorem: the S4 two-node cycle fails with
`InvalidPipeline`. -/
theorem from_nodes_cycle_behavior_witness :
    Pipeline.from_nodes [nodeCycA, nodeCycB] = .error .InvalidPipeline := by
  refine (from_nodes_cycle_behavior [nodeCycA, nodeCycB] (by decide) ?_).1 ?_
  · decide
  · refine ⟨nodeCycA, [nodeCycB], List.mem_cons_self _ _,
      fun n hn => List.mem_cons_of_mem _ hn, ?_⟩
    refine List.chain_cons.mpr ⟨⟨"x", ?_, ?_⟩, List.chain_cons.mpr ⟨⟨"y", ?_, ?_⟩, List.Chain.nil⟩⟩
    · decide
    · decide
    · decide
    · decide

/-! ## Lemmas: surface queries -/

/-- The stored node order is a permutation of the constructor slice (no
distinct-id hypothesis needed). -/
theorem from_nodes_ok_nodes_perm {V : Type} {ns : List (Node V)} {P : Pipeline V}
    (h : Pipeline.from_nodes ns = .ok P) : P.nodes.Perm ns := by
  obtain ⟨prods, es, order, hco, hbe, hk, hP⟩ := from_nodes_ok_inv h
  subst hP
  have hperm0 : order.Perm (List.range ns.length) := kahn_ok_perm _ _ _ _ hk
  have := hperm0.map (fun i => ns.getD i (dfltNode V))
  rwa [map_getD_range ns (dfltNode V)] at this

/-- `findIdx` over a duplicate-free list finds the position of an element. -/
theorem findIdx_get_of_nodup : ∀ {l : List Nat}, l.Nodup → ∀ (i : Fin l.length),
    l.findIdx (fun w => w == l.get i) = i.val := by
  intro l
  induction l with
  | nil => intro _ i; exact absurd i.isLt (by simp)
  | cons a t ih =>
      intro hnd i
      rcases List.nodup_cons.mp hnd with ⟨ha, ht⟩
      obtain ⟨iv, hi⟩ := i
      cases iv with
      | zero =>
          rw [List.findIdx_cons]
          simp
      | succ iv =>
          rw [List.findIdx_cons]
          have hne : (a == t.get ⟨iv, by simpa using hi⟩) = false := by
            rw [beq_eq_false_iff_ne]
            intro he
            exact ha (he ▸ List.get_mem _ _ _)
          have hget : (a :: t).get ⟨iv + 1, hi⟩ = t.get ⟨iv, by simpa using hi⟩ := rfl
          rw [hget, hne]
          simp only [cond_false]
          rw [ih ht ⟨iv, by simpa using hi⟩]

/-- Characterization of `Pipeline::inputs` membership for a built pipeline:
the free external inputs, i.e. those produced by no node of the slice. -/
theorem mem_inputs_iff {V : Type} {ns : List (Node V)} {P : Pipeline V}
    (hids : (ns.map Node.id).Nodup) (h : Pipeline.from_nodes ns = .ok P) (x : Source) :
    x ∈ P.inputs ↔ ∃ n ∈ ns, x ∈ n.extIns ∧ ∀ n' ∈ ns, x ∉ n'.extOuts := by
  obtain ⟨prods, es, order, hco, hbe, hk, hP⟩ := from_nodes_ok_inv h
  have houts := from_nodes_ok_outputs_nodup h
  have hperm : P.nodes.Perm ns := from_nodes_ok_nodes_perm h
  have hgn : P.graphNodes = ns.map Node.id := by rw [hP]
  have hge : P.graphEdges = es := by rw [hP]
  rw [Pipeline.inputs, mem_sortSources, List.mem_flatMap]
  have hidx : ∀ (i : Fin ns.length),
      P.graphNodes.findIdx (fun w => w == (ns.get i).id) = i.val := by
    intro i
    rw [hgn]
    have hlen : (ns.map Node.id).length = ns.length := List.length_map ns Node.id
    have := findIdx_get_of_nodup hids ⟨i.val, by rw [hlen]; exact i.isLt⟩
    rwa [show (ns.map Node.id).get ⟨i.val, by rw [hlen]; exact i.isLt⟩ = (ns.get i).id from
      by rw [List.get_map]] at this
  constructor
  · rintro ⟨n, hn, hx⟩
    have hn' : n ∈ ns := hperm.mem_iff.mp hn
    obtain ⟨i, hi⟩ := List.mem_iff_get.mp hn'
    have hx' : x ∈ n.extIns.filter (fun y =>
        !((P.graphEdges.filter (fun e =>
            e.2.1 == P.graphNodes.findIdx (fun w => w == n.id))).any
          (fun e => e.2.2 == y))) := hx
    rw [List.mem_filter] at hx'
    obtain ⟨hxin, hcond⟩ := hx'
    refine ⟨n, hn', hxin, ?_⟩
    intro n' hn'' hxout
    -- a producer exists, so an incoming edge labeled x exists: contradiction
    have hxkeys : x ∈ prods.map Prod.fst := by
      rw [collectOutputs_ok_keys ns [] prods hco]
      simpa using List.mem_flatMap.mpr ⟨n', hn'', hxout⟩
    obtain ⟨pid, hpid⟩ := Option.isSome_iff_exists.mp
      ((hmLookup_isSome_iff prods x).mpr hxkeys)
    rcases collectOutputs_ok_lookup_some ns [] prods hco x pid hpid with hemp | ⟨m, hm, hmid, hmx⟩
    · cases hemp
    · obtain ⟨im, him⟩ := List.mem_iff_get.mp hm
      have hedge : (im.val, i.val, x) ∈ es := by
        refine (buildEdges_mem ns (ns.map Node.id) prods es hbe im.val i.val x).mpr
          ⟨n, hn', ?_, hxin, pid, hpid, ?_⟩
        · rw [← hi]
          exact lastIdxOf_id hids i
        · rw [← hmid, ← him]
          exact lastIdxOf_id hids im
      rw [Bool.not_eq_eq_eq_not, Bool.not_true, ← Bool.not_eq_true, List.any_filter] at hcond
      apply hcond
      rw [List.any_eq_true]
      refine ⟨(im.val, i.val, x), by rw [hge]; exact hedge, ?_⟩
      have hnid : n.id = (ns.get i).id := by rw [hi]
      rw [hnid, hidx i]
      simp
  · rintro ⟨n, hn', hxin, hfree⟩
    obtain ⟨i, hi⟩ := List.mem_iff_get.mp hn'
    refine ⟨n, hperm.mem_iff.mpr hn', ?_⟩
    show x ∈ n.extIns.filter (fun y =>
        !((P.graphEdges.filter (fun e =>
            e.2.1 == P.graphNodes.findIdx (fun w => w == n.id))).any
          (fun e => e.2.2 == y)))
    rw [List.mem_filter]
    refine ⟨hxin, ?_⟩
    rw [Bool.not_eq_eq_eq_not, Bool.not_true, ← Bool.not_eq_true, List.any_filter]
    intro hany
    rw [List.any_eq_true] at hany
    obtain ⟨e, he, hprop⟩ := hany
    rw [Bool.and_eq_true, beq_iff_eq, beq_iff_eq] at hprop
    obtain ⟨s, d, y⟩ := e
    obtain ⟨hd, hy⟩ := hprop
    dsimp only at hd hy
    rw [hge] at he
    obtain ⟨m, hm, hld, hyi, pid, hpid, hls⟩ :=
      (buildEdges_mem ns (ns.map Node.id) prods es hbe s d y).mp he
    rcases collectOutputs_ok_lookup_some ns [] prods hco y pid hpid with hemp | ⟨m', hm', _, hym⟩
    · cases hemp
    · rw [hy] at hym
      exact hfree m' hm' hym

/-- Characterization of `Pipeline::outputs` membership: the terminal
external outputs, i.e. those consumed by no node of the slice. -/
theorem mem_outputs_iff {V : Type} {ns : List (Node V)} {P : Pipeline V}
    (hids : (ns.map Node.id).Nodup) (h : Pipeline.from_nodes ns = .ok P) (x : Source) :
    x ∈ P.outputs ↔ ∃ n ∈ ns, x ∈ n.extOuts ∧ ∀ c ∈ ns, x ∉ c.extIns := by
  obtain ⟨prods, es, order, hco, hbe, hk, hP⟩ := from_nodes_ok_inv h
  have houts := from_nodes_ok_outputs_nodup h
  have hperm : P.nodes.Perm ns := from_nodes_ok_nodes_perm h
  have hgn : P.graphNodes = ns.map Node.id := by rw [hP]
  have hge : P.graphEdges = es := by rw [hP]
  rw [Pipeline.outputs, mem_sortSources, List.mem_flatMap]
  have hidx : ∀ (i : Fin ns.length),
      P.graphNodes.findIdx (fun w => w == (ns.get i).id) = i.val := by
    intro i
    rw [hgn]
    have hlen : (ns.map Node.id).length = ns.length := List.length_map ns Node.id
    have := findIdx_get_of_nodup hids ⟨i.val, by rw [hlen]; exact i.isLt⟩
    rwa [show (ns.map Node.id).get ⟨i.val, by rw [hlen]; exact i.isLt⟩ = (ns.get i).id from
      by rw [List.get_map]] at this
  constructor
  · rintro ⟨n, hn, hx⟩
    have hn' : n ∈ ns := hperm.mem_iff.mp hn
    obtain ⟨i, hi⟩ := List.mem_iff_get.mp hn'
    have hx' : x ∈ n.extOuts.filter (fun y =>
        !((P.graphEdges.filter (fun e =>
            e.1 == P.graphNodes.findIdx (fun w => w == n.id))).any
          (fun e => e.2.2 == y))) := hx
    rw [List.mem_filter] at hx'
    obtain ⟨hxout, hcond⟩ := hx'
    refine ⟨n, hn', hxout, ?_⟩
    intro c hc hxc
    obtain ⟨j, hj⟩ := List.mem_iff_get.mp hc
    -- the producer of x is n itself, so the consumer c induces an outgoing edge
    have hxkeys : x ∈ prods.map Prod.fst := by
      rw [collectOutputs_ok_keys ns [] prods hco]
      simpa using List.mem_flatMap.mpr ⟨n, hn', hxout⟩
    obtain ⟨pid, hpid⟩ := Option.isSome_iff_exists.mp
      ((hmLookup_isSome_iff prods x).mpr hxkeys)
    rcases collectOutputs_ok_lookup_some ns [] prods hco x pid hpid with hemp | ⟨m, hm, hmid, hmx⟩
    · cases hemp
    · obtain ⟨im, him⟩ := List.mem_iff_get.mp hm
      have hiim : im = i :=
        flatMap_nodup_position_unique houts im i x (by rw [him]; exact hmx)
          (by rw [hi]; exact hxout)
      have hedge : (i.val, j.val, x) ∈ es := by
        refine (buildEdges_mem ns (ns.map Node.id) prods es hbe i.val j.val x).mpr
          ⟨c, hc, ?_, hxc, pid, hpid, ?_⟩
        · rw [← hj]
          exact lastIdxOf_id hids j
        · rw [← hmid, ← him, hiim]
          exact lastIdxOf_id hids i
      rw [Bool.not_eq_eq_eq_not, Bool.not_true, ← Bool.not_eq_true, List.any_filter] at hcond
      apply hcond
      rw [List.any_eq_true]
      refine ⟨(i.val, j.val, x), by rw [hge]; exact hedge, ?_⟩
      have hnid : n.id = (ns.get i).id := by rw [hi]
      rw [hnid, hidx i]
      simp
  · rintro ⟨n, hn', hxout, hnocons⟩
    refine ⟨n, hperm.mem_iff.mpr hn', ?_⟩
    show x ∈ n.extOuts.filter (fun y =>
        !((P.graphEdges.filter (fun e =>
            e.1 == P.graphNodes.findIdx (fun w => w == n.id))).any
          (fun e => e.2.2 == y)))
    rw [List.mem_filter]
    refine ⟨hxout, ?_⟩
    rw [Bool.not_eq_eq_eq_not, Bool.not_true, ← Bool.not_eq_true, List.any_filter]
    intro hany
    rw [List.any_eq_true] at hany
    obtain ⟨e, he, hprop⟩ := hany
    rw [Bool.and_eq_true, beq_iff_eq, beq_iff_eq] at hprop
    obtain ⟨s, d, y⟩ := e
    obtain ⟨hs, hy⟩ := hprop
    dsimp only at hs hy
    rw [hge] at he
    obtain ⟨m, hm, hld, hyi, pid, hpid, hls⟩ :=
      (buildEdges_mem ns (ns.map Node.id) prods es hbe s d y).mp he
    rw [hy] at hyi
    exact hnocons m hm hyi

/-- A flatMap of filtered sublists is a sublist of the plain flatMap. -/
theorem flatMap_filter_sublist {α β : Type} (l : List α) (f : α → List β)
    (g : α → β → Bool) :
    (l.flatMap fun a => (f a).filter (g a)).Sublist (l.flatMap f) := by
  induction l with
  | nil => exact List.Sublist.refl _
  | cons a t ih =>
      rw [List.flatMap_cons, List.flatMap_cons]
      exact List.Sublist.append (List.filter_sublist _) ih

/-- The deduplicating push preserves distinctness. -/
theorem push_dedup_nodup : ∀ (l : List Source) (acc : List Source), acc.Nodup →
    (l.foldl (fun r o => if r.contains o then r else r ++ [o]) acc).Nodup := by
  intro l
  induction l with
  | nil => intro acc h; exact h
  | cons o rest ih =>
      intro acc h
      rw [List.foldl_cons]
      by_cases hc : acc.contains o
      · rw [if_pos hc]
        exact ih acc h
      · rw [if_neg hc]
        refine ih _ (List.nodup_append.mpr ⟨h, List.nodup_singleton o, ?_⟩)
        intro a ha ha'
        rw [List.mem_singleton.mp ha'] at ha
        exact hc (List.elem_iff.mpr ha)

/-! ## Claim C7 -/

/-- C7 (amended): for every built pipeline, `outputs()` and `all_outputs()`
are strictly ascending (sorted and duplicate-free), and `inputs()` is
ascending — but `inputs()` may contain duplicates (one per consumer of a
shared free input), so it is not strictly sorted in general. -/
theorem surface_queries_sorted {V : Type} (ns : List (Node V)) (P : Pipeline V)
    (hbuild : Pipeline.from_nodes ns = .ok P) :
    P.inputs.Pairwise (· ≤ ·) ∧ P.outputs.Pairwise (· < ·) ∧
      P.all_outputs.Pairwise (· < ·) := by
  have houts := from_nodes_ok_outputs_nodup hbuild
  have hperm : P.nodes.Perm ns := from_nodes_ok_nodes_perm hbuild
  refine ⟨sortSources_sorted _, ?_, ?_⟩
  · -- outputs: the pushed list is a sublist of the concatenated outputs
    refine pairwise_lt_of_le_nodup (sortSources_sorted _) (sortSources_nodup ?_)
    have hnd : (P.nodes.flatMap Node.extOuts).Nodup :=
      ((hperm.flatMap_right Node.extOuts).nodup_iff).mpr houts
    exact (flatMap_filter_sublist P.nodes Node.extOuts _).nodup hnd
  · refine pairwise_lt_of_le_nodup (sortSources_sorted _) (sortSources_nodup ?_)
    have : ∀ (l : List (Node V)) (acc : List Source), acc.Nodup →
        (l.foldl (fun r n => n.extOuts.foldl
          (fun r o => if r.contains o then r else r ++ [o]) r) acc).Nodup := by
      intro l
      induction l with
      | nil => intro acc h; exact h
      | cons n rest ih =>
          intro acc h
          rw [List.foldl_cons]
          exact ih _ (push_dedup_nodup n.extOuts acc h)
    exact this P.nodes [] List.nodup_nil

/-- C7 counterexample: two nodes both consuming the free input `a` make
`inputs()` return `["a", "a"]` — sorted, but not duplicate-free. -/
theorem inputs_duplicate_counterexample :
    Pipeline.from_nodes [node7a, node7b] = .ok pipe7 ∧
    pipe7.inputs = ["a", "a"] ∧
    ¬ pipe7.inputs.Pairwise (· < ·) := by
  refine ⟨rfl, rfl, ?_⟩
  intro hpw
  rw [show pipe7.inputs = ["a", "a"] from rfl] at hpw
  exact lt_irrefl "a" ((List.pairwise_cons.mp hpw).1 "a" (List.mem_singleton.mpr rfl))

/-- Witness for C7's amended theorem on the S1 chain pipeline. -/
theorem surface_queries_sorted_witness :
    chainPipe.inputs.Pairwise (· ≤ ·) ∧ chainPipe.outputs.Pairwise (· < ·) ∧
      chainPipe.all_outputs.Pairwise (· < ·) :=
  surface_queries_sorted chainNodes chainPipe rfl

/-! ## Lemmas: port remapping (NodeSources::map) -/

theorem NodeSources.outputs_eq_inputs (s : NodeSources) : s.outputs = s.inputs := by
  cases s <;> rfl

/-- Keys of a generic insertion fold. -/
theorem keys_foldl_hmInsert_mem_gen {α : Type} (key val : α → Source) :
    ∀ (l : List α) (acc : List (Source × Source)) (x : Source),
      (x ∈ ((l.foldl (fun h a => hmInsert h (key a) (val a)) acc).map Prod.fst)) ↔
        x ∈ acc.map Prod.fst ∨ x ∈ l.map key := by
  intro l
  induction l with
  | nil => intro acc x; simp
  | cons a t ih =>
      intro acc x
      rw [List.foldl_cons, ih, mem_keys_hmInsert]
      simp only [List.map_cons, List.mem_cons]
      tauto

/-- A generic insertion fold always produces duplicate-free keys. -/
theorem keys_nodup_foldl_hmInsert_gen {α : Type} (key val : α → Source) :
    ∀ (l : List α) (acc : List (Source × Source)), (acc.map Prod.fst).Nodup →
      ((l.foldl (fun h a => hmInsert h (key a) (val a)) acc).map Prod.fst).Nodup := by
  intro l
  induction l with
  | nil => intro acc h; exact h
  | cons a t ih =>
      intro acc h
      rw [List.foldl_cons]
      exact ih _ (keys_nodup_hmInsert _ _ _ h)

/-- Entries of a fold whose inserted value is a function of the key keep
that form. -/
theorem hmInsert_form {f : Source → Source} :
    ∀ (h : List (Source × Source)) (k : Source),
      (∀ p ∈ h, p.2 = f p.1) → ∀ p ∈ hmInsert h k (f k), p.2 = f p.1 := by
  intro h
  induction h with
  | nil =>
      intro k _ p hp
      rw [List.mem_singleton.mp hp]
  | cons q rest ih =>
      intro k hform p hp
      obtain ⟨k', v'⟩ := q
      by_cases hk : k' = k
      · rw [hmInsert, if_pos hk] at hp
        rcases List.mem_cons.mp hp with rfl | hp
        · rfl
        · exact hform p (List.mem_cons_of_mem _ hp)
      · rw [hmInsert, if_neg hk] at hp
        rcases List.mem_cons.mp hp with rfl | hp
        · exact hform (k', v') (List.mem_cons_self _ _)
        · exact ih k (fun q hq => hform q (List.mem_cons_of_mem _ hq)) p hp

theorem snd_foldl_hmInsert_form {α : Type} (key : α → Source) (f : Source → Source) :
    ∀ (l : List α) (acc : List (Source × Source)),
      (∀ p ∈ acc, p.2 = f p.1) →
      ∀ p ∈ l.foldl (fun h a => hmInsert h (key a) (f (key a))) acc, p.2 = f p.1 := by
  intro l
  induction l with
  | nil => intro acc h; exact h
  | cons a t ih =>
      intro acc h
      rw [List.foldl_cons]
      exact ih _ (hmInsert_form acc (key a) h)

theorem hmLookup_append {α : Type} :
    ∀ (l1 l2 : List (Source × α)) (k : Source),
      hmLookup (l1 ++ l2) k =
        match hmLookup l1 k with
        | some v => some v
        | none => hmLookup l2 k := by
  intro l1
  induction l1 with
  | nil => intro l2 k; rfl
  | cons p rest ih =>
      intro l2 k
      obtain ⟨k', v'⟩ := p
      by_cases hk : k' = k
      · simp [hmLookup, hk]
      · simp only [List.cons_append, hmLookup, if_neg hk]
        exact ih l2 k

/-- A generic insertion fold with fresh, duplicate-free keys is an
append. -/
theorem foldl_hmInsert_eq_append_gen {α : Type} (key val : α → Source) :
    ∀ (l : List α) (acc : List (Source × Source)),
      (∀ a ∈ l, hmLookup acc (key a) = none) → (l.map key).Nodup →
      l.foldl (fun h a => hmInsert h (key a) (val a)) acc =
        acc ++ l.map (fun a => (key a, val a)) := by
  intro l
  induction l with
  | nil => intro acc _ _; simp
  | cons a t ih =>
      intro acc hfresh hnd
      rw [List.foldl_cons,
        hmInsert_of_not_mem acc (key a) (val a) (hfresh a (List.mem_cons_self _ _)),
        ih (acc ++ [(key a, val a)]) ?_ ((List.nodup_cons.mp (by simpa using hnd)).2)]
      · simp
      · intro b hb
        rw [hmLookup_append]
        rw [hfresh b (List.mem_cons_of_mem _ hb)]
        have hne : ¬ key a = key b := by
          intro he
          exact (List.nodup_cons.mp (by simpa using hnd :
            (key a :: t.map key).Nodup)).1 (he ▸ List.mem_map.mpr ⟨b, hb, rfl⟩)
        simp [hmLookup, hne]

/-- External-name surface of a remapped PortSpec: exactly the
`f`-image of the original external names (keys must be duplicate-free for
the `Map` variant, as they are for any `HashMap`-backed spec). -/
theorem mapNames_inputs_mem (s : NodeSources) (f : Source → Source)
    (hwf : s.keysNodup) (x : Source) :
    x ∈ (s.mapNames f).inputs ↔ ∃ y ∈ s.inputs, x = f y := by
  cases s with
  | list l =>
      show x ∈ (l.foldl (fun h nodeId => hmInsert h nodeId (f nodeId)) []).map Prod.snd ↔ _
      constructor
      · intro hx
        obtain ⟨p, hp, hpx⟩ := List.mem_map.mp hx
        have hform := snd_foldl_hmInsert_form (fun nodeId => nodeId) f l [] (by simp) p hp
        have hkey : p.1 ∈ ([] : List (Source × Source)).map Prod.fst ∨
            p.1 ∈ l.map (fun nodeId => nodeId) :=
          (keys_foldl_hmInsert_mem_gen (fun nodeId => nodeId) f l [] p.1).mp
            (List.mem_map.mpr ⟨p, hp, rfl⟩)
        rcases hkey with hkey | hkey
        · simp at hkey
        · rw [List.map_id'] at hkey
          exact ⟨p.1, hkey, by rw [← hpx, hform]⟩
      · rintro ⟨y, hy, rfl⟩
        have hkey : y ∈ (l.foldl (fun h nodeId => hmInsert h nodeId (f nodeId)) []).map
            Prod.fst :=
          (keys_foldl_hmInsert_mem_gen (fun nodeId => nodeId) f l [] y).mpr
            (.inr (by rw [List.map_id']; exact hy))
        obtain ⟨p, hp, hpk⟩ := List.mem_map.mp hkey
        have hform := snd_foldl_hmInsert_form (fun nodeId => nodeId) f l [] (by simp) p hp
        refine List.mem_map.mpr ⟨p, hp, ?_⟩
        rw [hform, hpk]
  | map m =>
      have hfold := foldl_hmInsert_eq_append_gen Prod.fst (fun p => f p.2) m []
        (by intro a _; rfl) hwf
      show x ∈ (m.foldl (fun h p => hmInsert h p.1 (f p.2)) []).map Prod.snd ↔ _
      rw [hfold]
      simp only [List.nil_append, List.map_map, List.mem_map]
      constructor
      · rintro ⟨p, hp, hpx⟩
        exact ⟨p.2, List.mem_map.mpr ⟨p, hp, rfl⟩, hpx.symm⟩
      · rintro ⟨y, hy, rfl⟩
        obtain ⟨p, hp, hpy⟩ := List.mem_map.mp hy
        refine ⟨p, hp, ?_⟩
        show f p.2 = f y
        rw [hpy]

/-- Local-name surface of a remapped PortSpec: unchanged as a set. -/
theorem mapNames_locals_mem (s : NodeSources) (f : Source → Source) (x : Source) :
    x ∈ (s.mapNames f).locals ↔ x ∈ s.locals := by
  cases s with
  | list l =>
      show x ∈ (l.foldl (fun h nodeId => hmInsert h nodeId (f nodeId)) []).map Prod.fst ↔ _
      rw [keys_foldl_hmInsert_mem_gen (fun nodeId => nodeId) f l [] x]
      simp [NodeSources.locals]
  | map m =>
      show x ∈ (m.foldl (fun h p => hmInsert h p.1 (f p.2)) []).map Prod.fst ↔ _
      rw [keys_foldl_hmInsert_mem_gen Prod.fst (fun p => f p.2) m [] x]
      simp [NodeSources.locals]

/-- A remapped PortSpec always satisfies the HashMap key invariant. -/
theorem mapNames_keysNodup (s : NodeSources) (f : Source → Source) :
    (s.mapNames f).keysNodup := by
  cases s with
  | list l =>
      show ((l.foldl (fun h nodeId => hmInsert h nodeId (f nodeId)) []).map Prod.fst).Nodup
      exact keys_nodup_foldl_hmInsert_gen (fun nodeId => nodeId) f l [] (by simp)
  | map m =>
      show ((m.foldl (fun h p => hmInsert h p.1 (f p.2)) []).map Prod.fst).Nodup
      exact keys_nodup_foldl_hmInsert_gen Prod.fst (fun p => f p.2) m [] (by simp)

/-- Prefixing with `"{pfx}."` is injective. -/
theorem prefix_inj (pfx a b : String) (h : pfx ++ "." ++ a = pfx ++ "." ++ b) :
    a = b := by
  have h2 := congrArg String.data h
  simp only [String.data_append] at h2
  exact String.ext (List.append_cancel_left h2)

/-! ## Claim C5 -/

/-- C5: namespacing maps the pipeline's input and output surfaces exactly
to their prefixed images, and leaves every node's local names unchanged
(as name sets; the `List` to `Map` promotion collapses duplicate local
declarations, which cannot occur for `HashMap`-backed specs). -/
theorem with_namespace_surface {V : Type} (ns : List (Node V)) (p q : Pipeline V)
    (pfx : String)
    (hids : (ns.map Node.id).Nodup) (hwf : ∀ n ∈ ns, n.WF)
    (hbuild : Pipeline.from_nodes ns = .ok p)
    (hq : p.with_namespace pfx = .ok q) :
    (∀ x, x ∈ q.inputs ↔ ∃ y ∈ p.inputs, x = pfx ++ "." ++ y) ∧
    (∀ x, x ∈ q.outputs ↔ ∃ y ∈ p.outputs, x = pfx ++ "." ++ y) ∧
    (∀ (i : Nat) (n : Node V) (k : Source),
      (k ∈ (namespaceNode pfx i n).localIns ↔ k ∈ n.localIns) ∧
      (k ∈ (namespaceNode pfx i n).localOuts ↔ k ∈ n.localOuts)) := by
  rw [Pipeline.with_namespace] at hq
  have hperm : p.nodes.Perm ns := from_nodes_ok_nodes_perm hbuild
  have hwfp : ∀ n ∈ p.nodes, n.WF := fun n hn => hwf n (hperm.mem_iff.mp hn)
  have hidsq : ((p.nodes.mapIdx (fun i n => namespaceNode pfx i n)).map Node.id).Nodup := by
    have hrange : ((p.nodes.mapIdx (fun i n => namespaceNode pfx i n)).map Node.id) =
        List.range p.nodes.length := by
      apply List.ext_getElem
      · rw [List.length_map, List.length_mapIdx, List.length_range]
      · intro i h1 h2
        rw [List.getElem_map, List.getElem_mapIdx, List.getElem_range]
        rfl
    rw [hrange]
    exact List.nodup_range _
  have hMin : ∀ (n : Node V), n.WF → ∀ x,
      (x ∈ (n.inputs.mapNames (fun nodeId => pfx ++ "." ++ nodeId)).inputs ↔
        ∃ y ∈ n.extIns, x = pfx ++ "." ++ y) := by
    intro n hnwf x
    exact mapNames_inputs_mem n.inputs _ hnwf.1 x
  have hMout : ∀ (n : Node V), n.WF → ∀ x,
      (x ∈ (n.outputs.mapNames (fun nodeId => pfx ++ "." ++ nodeId)).outputs ↔
        ∃ y ∈ n.extOuts, x = pfx ++ "." ++ y) := by
    intro n hnwf x
    rw [NodeSources.outputs_eq_inputs]
    rw [mapNames_inputs_mem n.outputs (fun nodeId => pfx ++ "." ++ nodeId) hnwf.2 x]
    rw [Node.extOuts, NodeSources.outputs_eq_inputs]
  have hmemIns : ∀ x, (∃ n' ∈ p.nodes.mapIdx (fun i n => namespaceNode pfx i n),
      x ∈ n'.extIns) ↔ ∃ n ∈ p.nodes, ∃ y ∈ n.extIns, x = pfx ++ "." ++ y := by
    intro x
    constructor
    · rintro ⟨n', hn', hx⟩
      obtain ⟨i, hi, hfi⟩ := List.mem_mapIdx.mp hn'
      rw [← hfi] at hx
      have hn := List.getElem_mem hi
      obtain ⟨y, hy, hxy⟩ := (hMin _ (hwfp _ hn) x).mp hx
      exact ⟨p.nodes[i], hn, y, hy, hxy⟩
    · rintro ⟨n, hn, y, hy, rfl⟩
      obtain ⟨i, hi, heq⟩ := List.mem_iff_getElem.mp hn
      refine ⟨namespaceNode pfx i n, List.mem_mapIdx.mpr ⟨i, hi, by rw [heq]⟩, ?_⟩
      exact (hMin n (hwfp n hn) _).mpr ⟨y, hy, rfl⟩
  have hmemOuts : ∀ x, (∃ n' ∈ p.nodes.mapIdx (fun i n => namespaceNode pfx i n),
      x ∈ n'.extOuts) ↔ ∃ m ∈ p.nodes, ∃ z ∈ m.extOuts, x = pfx ++ "." ++ z := by
    intro x
    constructor
    · rintro ⟨n', hn', hx⟩
      obtain ⟨i, hi, hfi⟩ := List.mem_mapIdx.mp hn'
      rw [← hfi] at hx
      have hn := List.getElem_mem hi
      obtain ⟨z, hz, hxz⟩ := (hMout _ (hwfp _ hn) x).mp hx
      exact ⟨p.nodes[i], hn, z, hz, hxz⟩
    · rintro ⟨m, hm, z, hz, rfl⟩
      obtain ⟨i, hi, heq⟩ := List.mem_iff_getElem.mp hm
      refine ⟨namespaceNode pfx i m, List.mem_mapIdx.mpr ⟨i, hi, by rw [heq]⟩, ?_⟩
      exact (hMout m (hwfp m hm) _).mpr ⟨z, hz, rfl⟩
  refine ⟨?_, ?_, ?_⟩
  · intro x
    rw [mem_inputs_iff hidsq hq x]
    constructor
    · rintro ⟨n', hn', hx, hno⟩
      obtain ⟨n, hn, y, hy, rfl⟩ := (hmemIns x).mp ⟨n', hn', hx⟩
      refine ⟨y, ?_, rfl⟩
      rw [mem_inputs_iff hids hbuild y]
      refine ⟨n, hperm.mem_iff.mp hn, hy, ?_⟩
      intro m hm hym
      obtain ⟨m', hm', hym'⟩ := (hmemOuts (pfx ++ "." ++ y)).mpr
        ⟨m, hperm.mem_iff.mpr hm, y, hym, rfl⟩
      exact hno m' hm' hym'
    · rintro ⟨y, hyp, rfl⟩
      rw [mem_inputs_iff hids hbuild y] at hyp
      obtain ⟨n, hn, hy, hfree⟩ := hyp
      obtain ⟨n', hn', hx⟩ := (hmemIns (pfx ++ "." ++ y)).mpr
        ⟨n, hperm.mem_iff.mpr hn, y, hy, rfl⟩
      refine ⟨n', hn', hx, ?_⟩
      intro m' hm' hxm
      obtain ⟨m, hm, z, hz, hzeq⟩ := (hmemOuts (pfx ++ "." ++ y)).mp ⟨m', hm', hxm⟩
      rw [prefix_inj pfx z y (hzeq.symm)] at hz
      exact hfree m (hperm.mem_iff.mp hm) hz
  · intro x
    rw [mem_outputs_iff hidsq hq x]
    constructor
    · rintro ⟨n', hn', hx, hno⟩
      obtain ⟨n, hn, y, hy, rfl⟩ := (hmemOuts x).mp ⟨n', hn', hx⟩
      refine ⟨y, ?_, rfl⟩
      rw [mem_outputs_iff hids hbuild y]
      refine ⟨n, hperm.mem_iff.mp hn, hy, ?_⟩
      intro c hc hyc
      obtain ⟨c', hc', hyc'⟩ := (hmemIns (pfx ++ "." ++ y)).mpr
        ⟨c, hperm.mem_iff.mpr hc, y, hyc, rfl⟩
      exact hno c' hc' hyc'
    · rintro ⟨y, hyp, rfl⟩
      rw [mem_outputs_iff hids hbuild y] at hyp
      obtain ⟨n, hn, hy, hnocons⟩ := hyp
      obtain ⟨n', hn', hx⟩ := (hmemOuts (pfx ++ "." ++ y)).mpr
        ⟨n, hperm.mem_iff.mpr hn, y, hy, rfl⟩
      refine ⟨n', hn', hx, ?_⟩
      intro c' hc' hxc
      obtain ⟨c, hc, z, hz, hzeq⟩ := (hmemIns (pfx ++ "." ++ y)).mp ⟨c', hc', hxc⟩
      rw [prefix_inj pfx z y (hzeq.symm)] at hz
      exact hnocons c (hperm.mem_iff.mp hc) hz
  · intro i n k
    constructor
    · exact mapNames_locals_mem n.inputs _ k
    · exact mapNames_locals_mem n.outputs _ k

/-- Witness for C5 on the namespaced S1 chain. -/
theorem with_namespace_surface_witness :
    Pipeline.from_nodes chainNodes = .ok chainPipe ∧
    chainPipe.with_namespace "c" = .ok nsChainPipe ∧
    ("c.a" ∈ nsChainPipe.inputs ↔ ∃ y ∈ chainPipe.inputs, "c.a" = "c" ++ "." ++ y) := by
  have hwf : ∀ n ∈ chainNodes, n.WF := by
    intro n hn
    rcases List.mem_cons.mp hn with rfl | hn
    · exact ⟨trivial, trivial⟩
    · rcases List.mem_cons.mp hn with rfl | hn
      · exact ⟨trivial, trivial⟩
      · cases hn
  exact ⟨rfl, rfl,
    (with_namespace_surface chainNodes chainPipe nsChainPipe "c" (by decide) hwf
      rfl rfl).1 "c.a"⟩

/-! ## Claim C1 -/

/-- Presence of a key is monotone under `insertD`. -/
theorem find?_insertD_isSome_mono {V : Type} {c : Container V} {k : Source}
    (h : (c.find? k).isSome) (j : Source) (v : V) :
    ((c.insertD j v).find? k).isSome := by
  rw [Container.find?_insertD]
  split
  · rfl
  · exact h

/-- `remapInputs` succeeds when every external name of the port map is
present in the starting view. -/
theorem remapInputs_ok_of_present {V : Type} :
    ∀ (m : List (Source × Source)) (c : Container V),
      (∀ p ∈ m, (c.find? p.2).isSome) →
      ∃ view, remapInputs m c = .ok view := by
  intro m
  induction m with
  | nil => intro c _; exact ⟨c, rfl⟩
  | cons p rest ih =>
      intro c hpres
      obtain ⟨loc, ext⟩ := p
      have hext := hpres (loc, ext) (List.mem_cons_self _ _)
      cases hfind : c.find? ext with
      | none => rw [hfind] at hext; cases hext
      | some v =>
          have hpres' : ∀ q ∈ rest, (((c.insertD loc v).find? q.2)).isSome :=
            fun q hq => find?_insertD_isSome_mono (hpres q (List.mem_cons_of_mem _ hq)) loc v
          obtain ⟨view, hview⟩ := ih (c.insertD loc v) hpres'
          exact ⟨view, by simpa [remapInputs, hfind] using hview⟩

/-- `remapFor` succeeds when every external input name is present. -/
theorem remapFor_ok_of_present {V : Type} (n : Node V) (st : Container V)
    (h : ∀ x ∈ n.extIns, (st.find? x).isSome) :
    ∃ view, remapFor n st = .ok view := by
  rw [remapFor]
  cases hin : n.inputs with
  | list l => exact ⟨st, rfl⟩
  | map m =>
      refine remapInputs_ok_of_present m st ?_
      intro p hp
      refine h p.2 ?_
      rw [Node.extIns, hin]
      exact List.mem_map_of_mem _ hp

/-- `extractList` succeeds when the declared names are pairwise distinct
and all present in the produced store. -/
theorem extractList_ok_of_present {V : Type} :
    ∀ (l : List Source) (res st : Container V), l.Nodup →
      (∀ o ∈ l, (res.find? o).isSome) →
      ∃ st', extractList l res st = .ok st' := by
  intro l
  induction l with
  | nil => intro res st _ _; exact ⟨st, rfl⟩
  | cons o rest ih =>
      intro res st hnd hpres
      rcases List.nodup_cons.mp hnd with ⟨ho, hrest⟩
      have h1 := hpres o (List.mem_cons_self _ _)
      cases hfind : res.find? o with
      | none => rw [hfind] at h1; cases h1
      | some v =>
          have hpres' : ∀ o' ∈ rest, ((res.removeD o).find? o').isSome := by
            intro o' ho'
            rw [Container.find?_removeD,
              if_neg (fun he : o = o' => ho (by rw [he]; exact ho'))]
            exact hpres o' (List.mem_cons_of_mem _ ho')
          obtain ⟨st', hst'⟩ := ih (res.removeD o) (st.insertD o v) hrest hpres'
          exact ⟨st', by simpa [extractList, hfind] using hst'⟩

/-- `extractMap` succeeds when the declared local names are pairwise
distinct and all present in the produced store. -/
theorem extractMap_ok_of_present {V : Type} :
    ∀ (m : List (Source × Source)) (res st : Container V), (m.map Prod.fst).Nodup →
      (∀ p ∈ m, (res.find? p.1).isSome) →
      ∃ st', extractMap m res st = .ok st' := by
  intro m
  induction m with
  | nil => intro res st _ _; exact ⟨st, rfl⟩
  | cons p rest ih =>
      intro res st hnd hpres
      obtain ⟨loc, ext⟩ := p
      rw [List.map_cons] at hnd
      rcases List.nodup_cons.mp hnd with ⟨ho, hrest⟩
      have h1 := hpres (loc, ext) (List.mem_cons_self _ _)
      cases hfind : res.find? loc with
      | none => rw [hfind] at h1; cases h1
      | some v =>
          have hpres' : ∀ q ∈ rest, ((res.removeD loc).find? q.1).isSome := by
            intro q hq
            rw [Container.find?_removeD,
              if_neg (fun he : loc = q.1 =>
                ho (by rw [he]; exact List.mem_map.mpr ⟨q, hq, rfl⟩))]
            exact hpres q (List.mem_cons_of_mem _ hq)
          obtain ⟨st', hst'⟩ := ih (res.removeD loc) (st.insertD ext v) hrest hpres'
          exact ⟨st', by simpa [extractMap, hfind] using hst'⟩

/-- After a successful `extractList`, every key present before and every
declared name is present. -/
theorem extractList_ok_present {V : Type} :
    ∀ (l : List Source) (res st st' : Container V),
      extractList l res st = .ok st' →
      ∀ k, ((st.find? k).isSome ∨ k ∈ l) → (st'.find? k).isSome := by
  intro l
  induction l with
  | nil =>
      intro res st st' h k hk
      cases h
      rcases hk with hk | hk
      · exact hk
      · exact absurd hk (List.not_mem_nil _)
  | cons o rest ih =>
      intro res st st' h k hk
      simp only [extractList] at h
      cases hfind : res.find? o with
      | none => rw [hfind] at h; cases h
      | some v =>
          rw [hfind] at h
          refine ih _ _ _ h k ?_
          rcases hk with hk | hk
          · exact .inl (find?_insertD_isSome_mono hk o v)
          · rcases List.mem_cons.mp hk with rfl | hk
            · refine .inl ?_
              rw [Container.find?_insertD, if_pos rfl]
              rfl
            · exact .inr hk

/-- After a successful `extractMap`, every key present before and every
declared external name is present. -/
theorem extractMap_ok_present {V : Type} :
    ∀ (m : List (Source × Source)) (res st st' : Container V),
      extractMap m res st = .ok st' →
      ∀ k, ((st.find? k).isSome ∨ k ∈ m.map Prod.snd) → (st'.find? k).isSome := by
  intro m
  induction m with
  | nil =>
      intro res st st' h k hk
      cases h
      rcases hk with hk | hk
      · exact hk
      · exact absurd hk (List.not_mem_nil _)
  | cons p rest ih =>
      intro res st st' h k hk
      obtain ⟨loc, ext⟩ := p
      simp only [extractMap] at h
      cases hfind : res.find? loc with
      | none => rw [hfind] at h; cases h
      | some v =>
          rw [hfind] at h
          refine ih _ _ _ h k ?_
          rcases hk with hk | hk
          · exact .inl (find?_insertD_isSome_mono hk ext v)
          · rw [List.map_cons] at hk
            rcases List.mem_cons.mp hk with rfl | hk
            · refine .inl ?_
              rw [Container.find?_insertD, if_pos rfl]
              rfl
            · exact .inr hk

/-- `runStep` succeeds on a node whose external inputs are all present,
whose declared output locals are pairwise distinct, and whose function
produces all its declared outputs; the new state keeps every present key
and holds every external output of the node. -/
theorem runStep_ok_of_present {V : Type} (n : Node V) (st : Container V)
    (hins : ∀ x ∈ n.extIns, (st.find? x).isSome)
    (hloc : n.localOuts.Nodup)
    (hprod : ProducesOutputs n) :
    ∃ st', runStep n st = .ok st' ∧
      (∀ k, (st.find? k).isSome → (st'.find? k).isSome) ∧
      (∀ x ∈ n.extOuts, (st'.find? x).isSome) := by
  obtain ⟨view, hview⟩ := remapFor_ok_of_present n st hins
  obtain ⟨res, hres, hrout⟩ := hprod view
  have hstep : runStep n st = extractFor n res st := by
    simp only [runStep]
    rw [hview]
    dsimp only
    rw [hres]
  rw [hstep, extractFor]
  cases hout : n.outputs with
  | list l =>
      have hnd : l.Nodup := by rw [Node.localOuts, hout] at hloc; exact hloc
      have hpres : ∀ o ∈ l, (res.find? o).isSome := by
        intro o ho
        exact hrout o (by rw [Node.localOuts, hout]; exact ho)
      obtain ⟨st', hst'⟩ := extractList_ok_of_present l res st hnd hpres
      refine ⟨st', hst', ?_, ?_⟩
      · intro k hk
        exact extractList_ok_present l res st st' hst' k (.inl hk)
      · intro x hx
        rw [Node.extOuts, hout] at hx
        exact extractList_ok_present l res st st' hst' x (.inr hx)
  | map m =>
      have hnd : (m.map Prod.fst).Nodup := by
        rw [Node.localOuts, hout] at hloc; exact hloc
      have hpres : ∀ p ∈ m, (res.find? p.1).isSome := by
        intro p hp
        refine hrout p.1 ?_
        rw [Node.localOuts, hout]
        exact List.mem_map_of_mem _ hp
      obtain ⟨st', hst'⟩ := extractMap_ok_of_present m res st hnd hpres
      refine ⟨st', hst', ?_, ?_⟩
      · intro k hk
        exact extractMap_ok_present m res st st' hst' k (.inl hk)
      · intro x hx
        rw [Node.extOuts, hout] at hx
        exact extractMap_ok_present m res st st' hst' x (.inr hx)

/-- The run loop succeeds whenever every node's inputs are ready when its
turn comes: each external input of each node is either a seed key or an
output of an earlier node (`done` is the already-run prefix). -/
theorem runNodes_ok_of_ready {V : Type} (seed : Container V) :
    ∀ (rest done : List (Node V)) (st : Container V),
      (∀ n ∈ rest, n.localOuts.Nodup) →
      (∀ n ∈ rest, ProducesOutputs n) →
      (∀ k, (seed.find? k).isSome → (st.find? k).isSome) →
      (∀ n ∈ done, ∀ x ∈ n.extOuts, (st.find? x).isSome) →
      (∀ (pre : List (Node V)) (c : Node V) (mid : List (Node V)),
        rest = pre ++ c :: mid →
        ∀ x ∈ c.extIns, (seed.find? x).isSome ∨
          ∃ n, n ∈ done ++ pre ∧ x ∈ n.extOuts) →
      ∃ r, runNodes rest st = .ok r ∧
        (∀ k, (st.find? k).isSome → (r.find? k).isSome) ∧
        (∀ n ∈ rest, ∀ x ∈ n.extOuts, (r.find? x).isSome) := by
  intro rest
  induction rest with
  | nil =>
      intro done st _ _ _ _ _
      exact ⟨st, rfl, fun k hk => hk, fun n hn => absurd hn (List.not_mem_nil _)⟩
  | cons c rest' ih =>
      intro done st hnd hprod hseed hdone hready
      have hins : ∀ x ∈ c.extIns, (st.find? x).isSome := by
        intro x hx
        rcases hready [] c rest' rfl x hx with h | ⟨n, hn, hxo⟩
        · exact hseed x h
        · rw [List.append_nil] at hn
          exact hdone n hn x hxo
      obtain ⟨st1, hstep, hmono1, houts1⟩ :=
        runStep_ok_of_present c st hins (hnd c (List.mem_cons_self _ _))
          (hprod c (List.mem_cons_self _ _))
      have hdone1 : ∀ n ∈ done ++ [c], ∀ x ∈ n.extOuts, (st1.find? x).isSome := by
        intro n hn x hx
        rcases List.mem_append.mp hn with hn | hn
        · exact hmono1 _ (hdone n hn x hx)
        · have hnc : n = c := List.mem_singleton.mp hn
          rw [hnc] at hx
          exact houts1 x hx
      have hready1 : ∀ (pre : List (Node V)) (c' : Node V) (mid : List (Node V)),
          rest' = pre ++ c' :: mid →
          ∀ x ∈ c'.extIns, (seed.find? x).isSome ∨
            ∃ n, n ∈ (done ++ [c]) ++ pre ∧ x ∈ n.extOuts := by
        intro pre c' mid heq x hx
        have hsplit : c :: rest' = (c :: pre) ++ c' :: mid := by rw [heq]; rfl
        rcases hready (c :: pre) c' mid hsplit x hx with h | ⟨n, hn, hxo⟩
        · exact .inl h
        · refine .inr ⟨n, ?_, hxo⟩
          have hre : (done ++ [c]) ++ pre = done ++ c :: pre := by simp
          rw [hre]
          exact hn
      obtain ⟨r, hrun, hmono2, houts2⟩ := ih (done ++ [c]) st1
          (fun n hn => hnd n (List.mem_cons_of_mem _ hn))
          (fun n hn => hprod n (List.mem_cons_of_mem _ hn))
          (fun k hk => hmono1 k (hseed k hk))
          hdone1 hready1
      refine ⟨r, ?_, fun k hk => hmono2 k (hmono1 k hk), ?_⟩
      · simp only [runNodes]
        rw [hstep]
        exact hrun
      · intro n hn x hx
        rcases List.mem_cons.mp hn with rfl | hn
        · exact hmono2 x (houts1 x hx)
        · exact houts2 n hn x hx

/-- Position lookup behind the head of a list split. -/
theorem get_append_offset {α : Type} (l1 l2 : List α) (k : Nat) (hk : k < l2.length)
    (h : l1.length + k < (l1 ++ l2).length) :
    (l1 ++ l2).get ⟨l1.length + k, h⟩ = l2.get ⟨k, hk⟩ := by
  simp [List.getElem_append_right]

/-- C1: for every node slice with distinct ids and well-formed ports that
`from_nodes` builds into `P`, every seed store `S` holding all of
`P.inputs()`, and node functions that always succeed producing all their
declared output locals, `P.run(S)` succeeds and the result store holds
every key of `S` and every name of `P.all_outputs()`. -/
theorem run_succeeds_and_covers {V : Type} (ns : List (Node V)) (P : Pipeline V)
    (S : Container V)
    (hids : (ns.map Node.id).Nodup)
    (hwf : ∀ n ∈ ns, n.WF)
    (hbuild : Pipeline.from_nodes ns = .ok P)
    (hseed : ∀ x ∈ P.inputs, (S.find? x).isSome)
    (hprod : ∀ n ∈ ns, ProducesOutputs n) :
    ∃ r, P.run S = .ok r ∧
      (∀ k, (S.find? k).isSome → (r.find? k).isSome) ∧
      (∀ x ∈ P.all_outputs, (r.find? x).isSome) := by
  obtain ⟨hperm, htopo⟩ := from_nodes_ok_perm_topo hids hbuild
  have houts := from_nodes_ok_outputs_nodup hbuild
  have hnd : ∀ n ∈ P.nodes, n.localOuts.Nodup := by
    intro n hn
    have hn' : n ∈ ns := hperm.mem_iff.mp hn
    cases hout : n.outputs with
    | list l =>
        have hex : n.extOuts.Nodup := (List.nodup_flatMap.mp houts).1 n hn'
        rw [Node.extOuts, hout] at hex
        rw [Node.localOuts, hout]
        exact hex
    | map m =>
        have hkn := (hwf n hn').2
        rw [hout] at hkn
        rw [Node.localOuts, hout]
        exact hkn
  have hready : ∀ (pre : List (Node V)) (c : Node V) (mid : List (Node V)),
      P.nodes = pre ++ c :: mid →
      ∀ x ∈ c.extIns, (S.find? x).isSome ∨
        ∃ n, n ∈ ([] : List (Node V)) ++ pre ∧ x ∈ n.extOuts := by
    intro pre c mid heq x hx
    by_cases hp : ∃ m ∈ ns, x ∈ m.extOuts
    · obtain ⟨m, hm, hmx⟩ := hp
      have hmP : m ∈ pre ++ c :: mid := by rw [← heq]; exact hperm.mem_iff.mpr hm
      by_cases hmpre : m ∈ pre
      · exact .inr ⟨m, by simpa using hmpre, hmx⟩
      · exfalso
        have hm2 : m ∈ c :: mid := by
          rcases List.mem_append.mp hmP with h | h
          · exact absurd h hmpre
          · exact h
        obtain ⟨k, hk⟩ := List.mem_iff_get.mp hm2
        rw [heq] at htopo
        have hlenc : pre.length < (pre ++ c :: mid).length := by
          simp only [List.length_append, List.length_cons]
          omega
        have hlenm : pre.length + k.val < (pre ++ c :: mid).length := by
          have hkl := k.isLt
          simp only [List.length_cons] at hkl
          simp only [List.length_append, List.length_cons]
          omega
        have hgc : (pre ++ c :: mid).get ⟨pre.length, hlenc⟩ = c := by
          have h0 : (0 : Nat) < (c :: mid).length := by
            simp only [List.length_cons]
            omega
          have := get_append_offset pre (c :: mid) 0 h0
            (by simpa using hlenc)
          simpa using this
        have hgm : (pre ++ c :: mid).get ⟨pre.length + k.val, hlenm⟩ = m := by
          rw [get_append_offset pre (c :: mid) k.val k.isLt hlenm]
          exact hk
        have hw : wired ((pre ++ c :: mid).get ⟨pre.length + k.val, hlenm⟩)
            ((pre ++ c :: mid).get ⟨pre.length, hlenc⟩) := by
          rw [hgm, hgc]
          exact ⟨x, hmx, hx⟩
        have hlt := htopo ⟨pre.length + k.val, hlenm⟩ ⟨pre.length, hlenc⟩ hw
        rw [Fin.lt_def] at hlt
        simp only at hlt
        omega
    · push_neg at hp
      refine .inl (hseed x ?_)
      rw [mem_inputs_iff hids hbuild]
      have hcn : c ∈ ns := hperm.mem_iff.mp
        (by rw [heq]; exact List.mem_append_right _ (List.mem_cons_self _ _))
      exact ⟨c, hcn, hx, hp⟩
  obtain ⟨r, hrun, hmono, hcov⟩ := runNodes_ok_of_ready S P.nodes [] S
      hnd (fun n hn => hprod n (hperm.mem_iff.mp hn))
      (fun _ hk => hk) (fun n hn => absurd hn (List.not_mem_nil _)) hready
  refine ⟨r, hrun, hmono, ?_⟩
  intro x hx
  rw [mem_all_outputs] at hx
  obtain ⟨n, hn, hxo⟩ := hx
  exact hcov n hn x hxo

/-- Witness for C1 on the S1 chain and its seed. -/
theorem run_succeeds_and_covers_witness :
    ∃ r, chainPipe.run seed35 = .ok r ∧
      (∀ k, (seed35.find? k).isSome → (r.find? k).isSome) ∧
      (∀ x ∈ chainPipe.all_outputs, (r.find? x).isSome) := by
  have hwf : ∀ n ∈ chainNodes, n.WF := by
    intro n hn
    rcases List.mem_cons.mp hn with rfl | hn
    · exact ⟨trivial, trivial⟩
    · rcases List.mem_cons.mp hn with rfl | hn
      · exact ⟨trivial, trivial⟩
      · cases hn
  have hprod : ∀ n ∈ chainNodes, ProducesOutputs n := by
    intro n hn
    rcases List.mem_cons.mp hn with rfl | hn
    · intro ctx
      refine ⟨_, rfl, ?_⟩
      intro o ho
      have ho' : o = "sum" := by
        simpa [nodeA, Node.localOuts, NodeSources.locals] using ho
      rw [ho']
      simp [Container.find?, hmLookup]
    · rcases List.mem_cons.mp hn with rfl | hn
      · intro ctx
        refine ⟨_, rfl, ?_⟩
        intro o ho
        have ho' : o = "sq" := by
          simpa [nodeB, Node.localOuts, NodeSources.locals] using ho
        rw [ho']
        simp [Container.find?, hmLookup]
      · cases hn
  exact run_succeeds_and_covers chainNodes chainPipe seed35 (by decide) hwf rfl
    (by decide) hprod

/-! ## Claim C6 -/

/-- A failing run decomposes as a successful prefix followed by one failing
step. -/
theorem runNodes_error_iff {V : Type} :
    ∀ (ms : List (Node V)) (s0 : Container V) (e : QupidoError),
      runNodes ms s0 = .error e ↔
        ∃ pre nd post t, ms = pre ++ nd :: post ∧ runNodes pre s0 = .ok t ∧
          runStep nd t = .error e := by
  intro ms
  induction ms with
  | nil =>
      intro s0 e
      constructor
      · intro h
        simp only [runNodes] at h
        cases h
      · rintro ⟨pre, nd, post, t, heq, -, -⟩
        cases pre <;> simp at heq
  | cons n rest ih =>
      intro s0 e
      constructor
      · intro h
        simp only [runNodes] at h
        cases hstep : runStep n s0 with
        | error e1 =>
            rw [hstep] at h
            dsimp only at h
            exact ⟨[], n, rest, s0, rfl, rfl, hstep.trans h⟩
        | ok st1 =>
            rw [hstep] at h
            dsimp only at h
            obtain ⟨pre, nd, post, t, heq, hpre, hnd⟩ := (ih st1 e).mp h
            refine ⟨n :: pre, nd, post, t, by rw [heq]; rfl, ?_, hnd⟩
            simp only [runNodes]
            rw [hstep]
            exact hpre
      · rintro ⟨pre, nd, post, t, heq, hpre, hnd⟩
        cases pre with
        | nil =>
            cases heq
            simp only [runNodes] at hpre
            cases hpre
            simp only [runNodes]
            rw [hnd]
        | cons p pre' =>
            cases heq
            simp only [runNodes] at hpre ⊢
            cases hstep : runStep n s0 with
            | error e1 => rw [hstep] at hpre; dsimp only at hpre; cases hpre
            | ok st1 =>
                rw [hstep] at hpre
                dsimp only at hpre
                exact (ih st1 e).mpr ⟨pre', nd, post, t, rfl, hpre, hnd⟩

/-- A failing step is a remap failure, a node-function failure, or an
extraction failure. -/
theorem runStep_error_iff {V : Type} (n : Node V) (st : Container V) (e : QupidoError) :
    runStep n st = .error e ↔
      remapFor n st = .error e ∨
      (∃ view, remapFor n st = .ok view ∧ n.func ⟨view⟩ = .error e) ∨
      (∃ view r, remapFor n st = .ok view ∧ n.func ⟨view⟩ = .ok r ∧
        extractFor n r st = .error e) := by
  constructor
  · intro h
    simp only [runStep] at h
    cases hview : remapFor n st with
    | error e1 =>
        rw [hview] at h
        dsimp only at h
        exact .inl h
    | ok view =>
        rw [hview] at h
        dsimp only at h
        cases hres : n.func ⟨view⟩ with
        | error e1 =>
            rw [hres] at h
            dsimp only at h
            exact .inr (.inl ⟨view, rfl, hres.trans h⟩)
        | ok r =>
            rw [hres] at h
            dsimp only at h
            exact .inr (.inr ⟨view, r, rfl, hres, h⟩)
  · rintro (h | ⟨view, hview, hres⟩ | ⟨view, r, hview, hres, hext⟩)
    · simp only [runStep]
      rw [h]
    · simp only [runStep]
      rw [hview]
      dsimp only
      rw [hres]
    · simp only [runStep]
      rw [hview]
      dsimp only
      rw [hres]
      dsimp only
      exact hext

/-- A remap failure is a `DataNotFound` on a mapped external name that is
absent from the starting store and not aliased by any earlier local name of
the same port map (the loop looks the external names up in the
progressively extended view). -/
theorem remapInputs_error_sound {V : Type} :
    ∀ (m : List (Source × Source)) (c : Container V) (e : QupidoError),
      remapInputs m c = .error e →
      ∃ pre loc ext post, m = pre ++ (loc, ext) :: post ∧ e = .DataNotFound ext ∧
        c.find? ext = none ∧ ext ∉ pre.map Prod.fst := by
  intro m
  induction m with
  | nil =>
      intro c e h
      simp only [remapInputs] at h
      cases h
  | cons p rest ih =>
      intro c e h
      obtain ⟨loc, ext⟩ := p
      simp only [remapInputs] at h
      cases hfind : c.find? ext with
      | none =>
          rw [hfind] at h
          dsimp only at h
          exact ⟨[], loc, ext, rest, rfl, by cases h; rfl, hfind, by simp⟩
      | some v =>
          rw [hfind] at h
          dsimp only at h
          obtain ⟨pre, loc1, ext1, post, heq, he, hfind1, hpre⟩ :=
            ih (c.insertD loc v) e h
          refine ⟨(loc, ext) :: pre, loc1, ext1, post, by rw [heq]; rfl, he, ?_, ?_⟩
          · rw [Container.find?_insertD] at hfind1
            by_cases hle : loc = ext1
            · rw [if_pos hle] at hfind1; cases hfind1
            · rw [if_neg hle] at hfind1; exact hfind1
          · rw [List.map_cons]
            intro hmem
            rcases List.mem_cons.mp hmem with heq1 | hmem1
            · rw [Container.find?_insertD, if_pos heq1.symm] at hfind1
              cases hfind1
            · exact hpre hmem1

/-- The remap stage of a step fails only on a `Map` input port, with the
`remapInputs` failure shape. -/
theorem remapFor_error_sound {V : Type} (n : Node V) (st : Container V)
    (e : QupidoError) (h : remapFor n st = .error e) :
    ∃ m pre loc ext post, n.inputs = .map m ∧ m = pre ++ (loc, ext) :: post ∧
      e = .DataNotFound ext ∧ st.find? ext = none ∧ ext ∉ pre.map Prod.fst := by
  simp only [remapFor] at h
  cases hin : n.inputs with
  | list l =>
      rw [hin] at h
      dsimp only at h
      cases h
  | map m =>
      rw [hin] at h
      dsimp only at h
      obtain ⟨pre, loc, ext, post, heq, he, hfind, hpre⟩ :=
        remapInputs_error_sound m st e h
      exact ⟨m, pre, loc, ext, post, rfl, heq, he, hfind, hpre⟩

/-- With distinct declared names, an `extractList` failure is a
`DataNotFound` on a declared name absent from the produced store. -/
theorem extractList_error_sound {V : Type} :
    ∀ (l : List Source) (res st : Container V) (e : QupidoError), l.Nodup →
      extractList l res st = .error e →
      ∃ o, o ∈ l ∧ e = .DataNotFound o ∧ res.find? o = none := by
  intro l
  induction l with
  | nil =>
      intro res st e _ h
      simp only [extractList] at h
      cases h
  | cons o rest ih =>
      intro res st e hnd h
      rcases List.nodup_cons.mp hnd with ⟨ho, hrest⟩
      simp only [extractList] at h
      cases hfind : res.find? o with
      | none =>
          rw [hfind] at h
          dsimp only at h
          exact ⟨o, List.mem_cons_self _ _, by cases h; rfl, hfind⟩
      | some v =>
          rw [hfind] at h
          dsimp only at h
          obtain ⟨o1, ho1, he, hfind1⟩ := ih (res.removeD o) (st.insertD o v) e hrest h
          refine ⟨o1, List.mem_cons_of_mem _ ho1, he, ?_⟩
          rw [Container.find?_removeD,
            if_neg (fun hoe : o = o1 => ho (by rw [hoe]; exact ho1))] at hfind1
          exact hfind1

/-- Conversely a missing declared name makes `extractList` fail. -/
theorem extractList_error_of_missing {V : Type} :
    ∀ (l : List Source) (res st : Container V), l.Nodup →
      (∃ o ∈ l, res.find? o = none) →
      ∃ e, extractList l res st = .error e := by
  intro l
  induction l with
  | nil =>
      intro res st _ h
      obtain ⟨o, ho, -⟩ := h
      exact absurd ho (List.not_mem_nil _)
  | cons o rest ih =>
      intro res st hnd h
      rcases List.nodup_cons.mp hnd with ⟨ho, hrest⟩
      cases hfind : res.find? o with
      | none => exact ⟨.DataNotFound o, by simp [extractList, hfind]⟩
      | some v =>
          obtain ⟨o1, ho1, hmiss⟩ := h
          have ho1' : o1 ∈ rest := by
            rcases List.mem_cons.mp ho1 with rfl | h1
            · rw [hfind] at hmiss; cases hmiss
            · exact h1
          have hmiss' : (res.removeD o).find? o1 = none := by
            rw [Container.find?_removeD,
              if_neg (fun hoe : o = o1 => ho (by rw [hoe]; exact ho1'))]
            exact hmiss
          obtain ⟨e, he⟩ := ih (res.removeD o) (st.insertD o v) hrest ⟨o1, ho1', hmiss'⟩
          exact ⟨e, by simpa [extractList, hfind] using he⟩

/-- With distinct declared local names, an `extractMap` failure is a
`DataNotFound` on a declared local name absent from the produced store. -/
theorem extractMap_error_sound {V : Type} :
    ∀ (m : List (Source × Source)) (res st : Container V) (e : QupidoError),
      (m.map Prod.fst).Nodup →
      extractMap m res st = .error e →
      ∃ o, o ∈ m.map Prod.fst ∧ e = .DataNotFound o ∧ res.find? o = none := by
  intro m
  induction m with
  | nil =>
      intro res st e _ h
      simp only [extractMap] at h
      cases h
  | cons p rest ih =>
      intro res st e hnd h
      obtain ⟨loc, ext⟩ := p
      rw [List.map_cons] at hnd
      rcases List.nodup_cons.mp hnd with ⟨ho, hrest⟩
      simp only [extractMap] at h
      cases hfind : res.find? loc with
      | none =>
          rw [hfind] at h
          dsimp only at h
          exact ⟨loc, by simp, by cases h; rfl, hfind⟩
      | some v =>
          rw [hfind] at h
          dsimp only at h
          obtain ⟨o1, ho1, he, hfind1⟩ := ih (res.removeD loc) (st.insertD ext v) e hrest h
          refine ⟨o1, by rw [List.map_cons]; exact List.mem_cons_of_mem _ ho1, he, ?_⟩
          rw [Container.find?_removeD,
            if_neg (fun hoe : loc = o1 => ho (by rw [hoe]; exact ho1))] at hfind1
          exact hfind1

/-- Conversely a missing declared local name makes `extractMap` fail. -/
theorem extractMap_error_of_missing {V : Type} :
    ∀ (m : List (Source × Source)) (res st : Container V), (m.map Prod.fst).Nodup →
      (∃ o ∈ m.map Prod.fst, res.find? o = none) →
      ∃ e, extractMap m res st = .error e := by
  intro m
  induction m with
  | nil =>
      intro res st _ h
      obtain ⟨o, ho, -⟩ := h
      exact absurd ho (List.not_mem_nil _)
  | cons p rest ih =>
      intro res st hnd h
      obtain ⟨loc, ext⟩ := p
      rw [List.map_cons] at hnd
      rcases List.nodup_cons.mp hnd with ⟨ho, hrest⟩
      cases hfind : res.find? loc with
      | none => exact ⟨.DataNotFound loc, by simp [extractMap, hfind]⟩
      | some v =>
          obtain ⟨o1, ho1, hmiss⟩ := h
          have ho1' : o1 ∈ rest.map Prod.fst := by
            rw [List.map_cons] at ho1
            rcases List.mem_cons.mp ho1 with rfl | h1
            · rw [hfind] at hmiss; cases hmiss
            · exact h1
          have hmiss' : (res.removeD loc).find? o1 = none := by
            rw [Container.find?_removeD,
              if_neg (fun hoe : loc = o1 => ho (by rw [hoe]; exact ho1'))]
            exact hmiss
          obtain ⟨e, he⟩ := ih (res.removeD loc) (st.insertD ext v) hrest ⟨o1, ho1', hmiss'⟩
          exact ⟨e, by simpa [extractMap, hfind] using he⟩

/-- C6 (amended): during `run`, the engine raises errors exactly through
one failing step after a successful prefix; a step failure is a remap
failure, a node-function failure, or an extraction failure; a remap failure
is `DataNotFound` on a mapped external name absent from the running store
and not aliased by an earlier local of the same port map (the caveat the
claim misses); with distinct declared output locals, extraction fails iff
some declared output local is missing from the produced store, always with
`DataNotFound` carrying such a local; and the namespaced S1 chain on the
un-prefixed seed fails with `DataNotFound "c.a"`. -/
theorem run_data_not_found_cases {V : Type} (n : Node V) (st res : Container V)
    (e : QupidoError) (hloc : n.localOuts.Nodup) :
    (∀ (ms : List (Node V)) (s0 : Container V),
      runNodes ms s0 = .error e ↔
        ∃ pre nd post t, ms = pre ++ nd :: post ∧ runNodes pre s0 = .ok t ∧
          runStep nd t = .error e) ∧
    (runStep n st = .error e ↔
      remapFor n st = .error e ∨
      (∃ view, remapFor n st = .ok view ∧ n.func ⟨view⟩ = .error e) ∨
      (∃ view r, remapFor n st = .ok view ∧ n.func ⟨view⟩ = .ok r ∧
        extractFor n r st = .error e)) ∧
    (remapFor n st = .error e →
      ∃ m pre loc ext post, n.inputs = .map m ∧ m = pre ++ (loc, ext) :: post ∧
        e = .DataNotFound ext ∧ st.find? ext = none ∧ ext ∉ pre.map Prod.fst) ∧
    ((∃ e1, extractFor n res st = .error e1) ↔
      ∃ o ∈ n.localOuts, res.find? o = none) ∧
    (extractFor n res st = .error e →
      ∃ o ∈ n.localOuts, e = .DataNotFound o ∧ res.find? o = none) ∧
    nsChainPipe.run seed35 = .error (.DataNotFound "c.a") := by
  refine ⟨fun ms s0 => runNodes_error_iff ms s0 e, runStep_error_iff n st e,
    remapFor_error_sound n st e, ?_, ?_, rfl⟩
  · constructor
    · rintro ⟨e1, he1⟩
      rw [extractFor] at he1
      cases hout : n.outputs with
      | list l =>
          rw [hout] at he1
          dsimp only at he1
          have hnd : l.Nodup := by rw [Node.localOuts, hout] at hloc; exact hloc
          obtain ⟨o, ho, -, hmiss⟩ := extractList_error_sound l res st e1 hnd he1
          refine ⟨o, ?_, hmiss⟩
          rw [Node.localOuts, hout]
          exact ho
      | map m =>
          rw [hout] at he1
          dsimp only at he1
          have hnd : (m.map Prod.fst).Nodup := by
            rw [Node.localOuts, hout] at hloc; exact hloc
          obtain ⟨o, ho, -, hmiss⟩ := extractMap_error_sound m res st e1 hnd he1
          refine ⟨o, ?_, hmiss⟩
          rw [Node.localOuts, hout]
          exact ho
    · rintro ⟨o, ho, hmiss⟩
      rw [extractFor]
      cases hout : n.outputs with
      | list l =>
          have hnd : l.Nodup := by rw [Node.localOuts, hout] at hloc; exact hloc
          have ho' : o ∈ l := by rw [Node.localOuts, hout] at ho; exact ho
          exact extractList_error_of_missing l res st hnd ⟨o, ho', hmiss⟩
      | map m =>
          have hnd : (m.map Prod.fst).Nodup := by
            rw [Node.localOuts, hout] at hloc; exact hloc
          have ho' : o ∈ m.map Prod.fst := by
            rw [Node.localOuts, hout] at ho; exact ho
          exact extractMap_error_of_missing m res st hnd ⟨o, ho', hmiss⟩
  · intro he
    rw [extractFor] at he
    cases hout : n.outputs with
    | list l =>
        rw [hout] at he
        dsimp only at he
        have hnd : l.Nodup := by rw [Node.localOuts, hout] at hloc; exact hloc
        obtain ⟨o, ho, heo, hmiss⟩ := extractList_error_sound l res st e hnd he
        refine ⟨o, ?_, heo, hmiss⟩
        rw [Node.localOuts, hout]
        exact ho
    | map m =>
        rw [hout] at he
        dsimp only at he
        have hnd : (m.map Prod.fst).Nodup := by
          rw [Node.localOuts, hout] at hloc; exact hloc
        obtain ⟨o, ho, heo, hmiss⟩ := extractMap_error_sound m res st e hnd he
        refine ⟨o, ?_, heo, hmiss⟩
        rw [Node.localOuts, hout]
        exact ho

/-- Witness for C6 at a concrete node (its declared output local is
duplicate-free) and the namespaced-chain failure. -/
theorem run_data_not_found_cases_witness :
    nodeA.localOuts.Nodup ∧ nsChainPipe.run seed35 = .error (.DataNotFound "c.a") :=
  ⟨by decide,
    (run_data_not_found_cases nodeA seed35 (Container.new Nat)
      (.DataNotFound "c.a") (by decide)).2.2.2.2.2⟩

/-- C6 counterexample: the claim's clause (a) says `DataNotFound` is raised
whenever a `Map` input port maps some local name to an external name absent
from the running store at the node's turn.  `aliasNode` maps local `y` to
external `x`; the seed has no `x`, yet the run succeeds, because the remap
loop resolves `x` against the view already extended with the earlier local
binding `x ↦ a`. -/
theorem run_remap_alias_counterexample :
    aliasNode.inputs = .map [("x", "a"), ("y", "x")] ∧
    Pipeline.from_nodes [aliasNode] = .ok aliasPipe ∧
    seedA1.find? "x" = none ∧
    aliasPipe.run seedA1 = .ok seedA1 :=
  ⟨rfl, rfl, rfl, rfl⟩

/-! ## Claim C8 -/

/-- Flattened external outputs of permuted slices are permuted, so their
duplicate-freeness is invariant. -/
theorem flatMap_outs_nodup_perm {V : Type} {ns ns' : List (Node V)} (h : ns.Perm ns') :
    (ns.flatMap Node.extOuts).Nodup ↔ (ns'.flatMap Node.extOuts).Nodup :=
  (List.Perm.flatMap_right Node.extOuts h).nodup_iff

/-- The wiring-cycle predicate only looks at membership, so it is invariant
under permutation. -/
theorem hasWiredCycle_perm {V : Type} {ns ns' : List (Node V)} (h : ns.Perm ns') :
    HasWiredCycle ns ↔ HasWiredCycle ns' := by
  constructor <;> rintro ⟨a, rest, ha, hrest, hch⟩
  · exact ⟨a, rest, h.mem_iff.mp ha, fun n hn => h.mem_iff.mp (hrest n hn), hch⟩
  · exact ⟨a, rest, h.mem_iff.mpr ha, fun n hn => h.mem_iff.mpr (hrest n hn), hch⟩

/-- The three possible outcomes of `from_nodes`, keyed by the two
permutation-invariant conditions the code checks in order: duplicate
external outputs, then a wiring cycle. -/
theorem from_nodes_outcome_cases {V : Type} (ns : List (Node V))
    (hids : (ns.map Node.id).Nodup) :
    (¬ (ns.flatMap Node.extOuts).Nodup →
      ∃ m, Pipeline.from_nodes ns = .error (.DuplicateData m)) ∧
    ((ns.flatMap Node.extOuts).Nodup → HasWiredCycle ns →
      Pipeline.from_nodes ns = .error .InvalidPipeline) ∧
    ((ns.flatMap Node.extOuts).Nodup → ¬ HasWiredCycle ns →
      ∃ P, Pipeline.from_nodes ns = .ok P) := by
  refine ⟨?_, ?_, ?_⟩
  · intro hnd
    cases hco : collectOutputs ns [] with
    | ok prods =>
        exact absurd (by simpa using collectOutputs_ok_nodup ns [] prods hco (by simp)) hnd
    | error e =>
        obtain ⟨m, rfl, hm, hc⟩ := collectOutputs_err _ _ _ hco
        exact ⟨m, from_nodes_collect_err hco⟩
  · intro houts hcyc
    obtain ⟨prods, hco⟩ := collectOutputs_ok_of_nodup ns [] (by simpa using houts)
    have hres : ∀ x pid, hmLookup prods x = some pid → pid ∈ ns.map Node.id := by
      intro x pid hx
      rcases collectOutputs_ok_lookup_some ns [] prods hco x pid hx with hemp | ⟨n', hn', hid, _⟩
      · cases hemp
      · exact List.mem_map.mpr ⟨n', hn', hid⟩
    obtain ⟨es, hbe⟩ := buildEdges_ok_of_resolvable (ns.map Node.id) prods hres ns
      (fun n hn => List.mem_map.mpr ⟨n, hn, rfl⟩)
    cases hk : kahn ns.length es (List.range ns.length) with
    | error e => simp [Pipeline.from_nodes, hco, hbe, hk]
    | ok order =>
        exfalso
        obtain ⟨a, rest, ha, hrest, hch⟩ := hcyc
        obtain ⟨ia, hia⟩ := List.mem_iff_get.mp ha
        have hmem : ∀ v ∈ rest ++ [a], v ∈ ns := by
          intro v hv
          rcases List.mem_append.mp hv with hv | hv
          · exact hrest v hv
          · rw [List.mem_singleton.mp hv]
            exact ha
        obtain ⟨il, hillen, hch2, hbound, jl, hjl, hlast⟩ :=
          chain_wired_to_idx hids houts hco hbe (rest ++ [a]) a ia hia hmem hch
        rw [List.getLastD_concat] at hlast
        have hjla : jl = ia :=
          pos_unique_of_ids hids jl ia (congrArg Node.id (hlast.trans hia.symm))
        have hperm0 : order.Perm (List.range ns.length) := kahn_ok_perm _ _ _ _ hk
        have hmemil : ∀ v ∈ il, v ∈ order :=
          fun v hv => hperm0.mem_iff.mpr (List.mem_range.mpr (hbound v hv))
        have hiamem : ia.val ∈ order :=
          hperm0.mem_iff.mpr (List.mem_range.mpr ia.isLt)
        obtain ⟨ua, hua⟩ := List.mem_iff_get.mp hiamem
        obtain ⟨ub, hub, hcase⟩ :=
          chain_pos_increasing hk (List.nodup_range _) il ia.val hch2 hmemil ua hua
        have hilne : il ≠ [] := by
          intro he
          rw [he] at hillen
          simp at hillen
        rcases hcase with he | hlt
        · exact hilne he
        · have hlval : il.getLastD ia.val = ia.val := by
            rw [← hjl, hjla]
          rw [hlval, ← hua] at hub
          have heq := List.nodup_iff_injective_get.mp
            ((hperm0.nodup_iff).mpr (List.nodup_range _)) hub
          rw [heq] at hlt
          exact lt_irrefl _ hlt
  · intro houts hnc
    obtain ⟨prods, hco⟩ := collectOutputs_ok_of_nodup ns [] (by simpa using houts)
    have hres : ∀ x pid, hmLookup prods x = some pid → pid ∈ ns.map Node.id := by
      intro x pid hx
      rcases collectOutputs_ok_lookup_some ns [] prods hco x pid hx with hemp | ⟨n', hn', hid, _⟩
      · cases hemp
      · exact List.mem_map.mpr ⟨n', hn', hid⟩
    obtain ⟨es, hbe⟩ := buildEdges_ok_of_resolvable (ns.map Node.id) prods hres ns
      (fun n hn => List.mem_map.mpr ⟨n, hn, rfl⟩)
    have hnic : ¬ ∃ c cs, c ∈ List.range ns.length ∧
        (∀ v ∈ cs, v ∈ List.range ns.length) ∧
        List.Chain (fun s d => ∃ x, (s, d, x) ∈ es) c (cs ++ [c]) := by
      rintro ⟨c, cs, hc, hcs, hch⟩
      apply hnc
      have hclt := List.mem_range.mp hc
      have hcycle := chain_idx_to_wired hids houts hco hbe (cs ++ [c]) c hclt
        (fun v hv => by
          rcases List.mem_append.mp hv with hv | hv
          · exact List.mem_range.mp (hcs v hv)
          · rw [List.mem_singleton.mp hv]
            exact hclt) hch
      rw [List.map_append, List.map_singleton] at hcycle
      refine ⟨ns.getD c (dfltNode V), cs.map (fun v => ns.getD v (dfltNode V)), ?_, ?_, hcycle⟩
      · rw [List.getD_eq_get ns _ hclt]
        exact List.get_mem _ _ _
      · intro v hv
        obtain ⟨w, hw, hwv⟩ := List.mem_map.mp hv
        rw [← hwv, List.getD_eq_get ns _ (List.mem_range.mp (hcs w hw))]
        exact List.get_mem _ _ _
    obtain ⟨order, hk⟩ := kahn_ok_of_acyclic ns.length es (List.range ns.length)
      (by simp) hnic
    exact ⟨⟨order.map (fun i => ns.getD i (dfltNode V)), ns.map Node.id, es⟩,
      by simp [Pipeline.from_nodes, hco, hbe, hk]⟩

/-- Unfolding step of the run loop on a successful step. -/
theorem runNodes_cons_ok {V : Type} {n : Node V} {t : List (Node V)}
    {s s1 : Container V} (h : runStep n s = .ok s1) :
    runNodes (n :: t) s = runNodes t s1 := by
  simp only [runNodes]
  rw [h]

/-- Unfolding step of the run loop on a failing step. -/
theorem runNodes_cons_err {V : Type} {n : Node V} {t : List (Node V)}
    {s : Container V} {e : QupidoError} (h : runStep n s = .error e) :
    runNodes (n :: t) s = .error e := by
  simp only [runNodes]
  rw [h]

/-- `remapInputs` on two stores that agree outside a key set `D` (with all
external names of the port outside `D`) fails identically or produces views
that agree outside `D` and on every bound local name. -/
theorem remapInputs_agree {V : Type} (D : Source → Prop) :
    ∀ (m : List (Source × Source)) (c1 c2 : Container V) (P : Source → Prop),
      (∀ k, ¬ D k → c1.find? k = c2.find? k) →
      (∀ k, P k → c1.find? k = c2.find? k) →
      (∀ p ∈ m, ¬ D p.2) →
      (∃ e, remapInputs m c1 = .error e ∧ remapInputs m c2 = .error e) ∨
      (∃ v1 v2, remapInputs m c1 = .ok v1 ∧ remapInputs m c2 = .ok v2 ∧
        (∀ k, ¬ D k → v1.find? k = v2.find? k) ∧
        (∀ k, P k ∨ k ∈ m.map Prod.fst → v1.find? k = v2.find? k)) := by
  intro m
  induction m with
  | nil =>
      intro c1 c2 P hD hP _
      refine .inr ⟨c1, c2, rfl, rfl, hD, ?_⟩
      intro k hk
      rcases hk with hk | hk
      · exact hP k hk
      · exact absurd hk (List.not_mem_nil _)
  | cons p rest ih =>
      intro c1 c2 P hD hP hm
      obtain ⟨loc, ext⟩ := p
      have hext : ¬ D ext := hm (loc, ext) (List.mem_cons_self _ _)
      have heq : c1.find? ext = c2.find? ext := hD ext hext
      cases hfind : c1.find? ext with
      | none =>
          have hfind2 : c2.find? ext = none := heq.symm.trans hfind
          exact .inl ⟨.DataNotFound ext, by simp [remapInputs, hfind],
            by simp [remapInputs, hfind2]⟩
      | some v =>
          have hfind2 : c2.find? ext = some v := heq.symm.trans hfind
          have hD' : ∀ k, ¬ D k →
              (c1.insertD loc v).find? k = (c2.insertD loc v).find? k := by
            intro k hk
            rw [Container.find?_insertD, Container.find?_insertD]
            split
            · rfl
            · exact hD k hk
          have hP' : ∀ k, (P k ∨ k = loc) →
              (c1.insertD loc v).find? k = (c2.insertD loc v).find? k := by
            intro k hk
            rw [Container.find?_insertD, Container.find?_insertD]
            split
            · rfl
            · rcases hk with hk | hk
              · exact hP k hk
              · rename_i hne
                exact absurd hk.symm hne
          rcases ih (c1.insertD loc v) (c2.insertD loc v) (fun k => P k ∨ k = loc)
              hD' hP' (fun q hq => hm q (List.mem_cons_of_mem _ hq)) with
            ⟨e, h1, h2⟩ | ⟨v1, v2, h1, h2, hD2, hP2⟩
          · exact .inl ⟨e, by simpa [remapInputs, hfind] using h1,
              by simpa [remapInputs, hfind2] using h2⟩
          · refine .inr ⟨v1, v2, by simpa [remapInputs, hfind] using h1,
              by simpa [remapInputs, hfind2] using h2, hD2, ?_⟩
            intro k hk
            refine hP2 k ?_
            rcases hk with hk | hk
            · exact .inl (.inl hk)
            · rw [List.map_cons] at hk
              rcases List.mem_cons.mp hk with hk | hk
              · exact .inl (.inr hk)
              · exact .inr hk

/-- `extractList` on two states that agree outside `D` fails identically
(the failure only depends on the produced store) or produces states that
agree outside `D` and on every declared name. -/
theorem extractList_agree {V : Type} (D : Source → Prop) :
    ∀ (l : List Source) (res st1 st2 : Container V) (P : Source → Prop),
      (∀ k, ¬ D k → st1.find? k = st2.find? k) →
      (∀ k, P k → st1.find? k = st2.find? k) →
      (∃ e, extractList l res st1 = .error e ∧ extractList l res st2 = .error e) ∨
      (∃ r1 r2, extractList l res st1 = .ok r1 ∧ extractList l res st2 = .ok r2 ∧
        (∀ k, ¬ D k → r1.find? k = r2.find? k) ∧
        (∀ k, P k ∨ k ∈ l → r1.find? k = r2.find? k)) := by
  intro l
  induction l with
  | nil =>
      intro res st1 st2 P hD hP
      refine .inr ⟨st1, st2, rfl, rfl, hD, ?_⟩
      intro k hk
      rcases hk with hk | hk
      · exact hP k hk
      · exact absurd hk (List.not_mem_nil _)
  | cons o rest ih =>
      intro res st1 st2 P hD hP
      cases hfind : res.find? o with
      | none =>
          exact .inl ⟨.DataNotFound o, by simp [extractList, hfind],
            by simp [extractList, hfind]⟩
      | some v =>
          have hD' : ∀ k, ¬ D k →
              (st1.insertD o v).find? k = (st2.insertD o v).find? k := by
            intro k hk
            rw [Container.find?_insertD, Container.find?_insertD]
            split
            · rfl
            · exact hD k hk
          have hP' : ∀ k, (P k ∨ k = o) →
              (st1.insertD o v).find? k = (st2.insertD o v).find? k := by
            intro k hk
            rw [Container.find?_insertD, Container.find?_insertD]
            split
            · rfl
            · rcases hk with hk | hk
              · exact hP k hk
              · rename_i hne
                exact absurd hk.symm hne
          rcases ih (res.removeD o) (st1.insertD o v) (st2.insertD o v)
              (fun k => P k ∨ k = o) hD' hP' with
            ⟨e, h1, h2⟩ | ⟨r1, r2, h1, h2, hD2, hP2⟩
          · exact .inl ⟨e, by simpa [extractList, hfind] using h1,
              by simpa [extractList, hfind] using h2⟩
          · refine .inr ⟨r1, r2, by simpa [extractList, hfind] using h1,
              by simpa [extractList, hfind] using h2, hD2, ?_⟩
            intro k hk
            refine hP2 k ?_
            rcases hk with hk | hk
            · exact .inl (.inl hk)
            · rcases List.mem_cons.mp hk with hk | hk
              · exact .inl (.inr hk)
              · exact .inr hk

/-- `extractMap` analogue of `extractList_agree`; the agreed keys are the
external (written) names. -/
theorem extractMap_agree {V : Type} (D : Source → Prop) :
    ∀ (m : List (Source × Source)) (res st1 st2 : Container V) (P : Source → Prop),
      (∀ k, ¬ D k → st1.find? k = st2.find? k) →
      (∀ k, P k → st1.find? k = st2.find? k) →
      (∃ e, extractMap m res st1 = .error e ∧ extractMap m res st2 = .error e) ∨
      (∃ r1 r2, extractMap m res st1 = .ok r1 ∧ extractMap m res st2 = .ok r2 ∧
        (∀ k, ¬ D k → r1.find? k = r2.find? k) ∧
        (∀ k, P k ∨ k ∈ m.map Prod.snd → r1.find? k = r2.find? k)) := by
  intro m
  induction m with
  | nil =>
      intro res st1 st2 P hD hP
      refine .inr ⟨st1, st2, rfl, rfl, hD, ?_⟩
      intro k hk
      rcases hk with hk | hk
      · exact hP k hk
      · exact absurd hk (List.not_mem_nil _)
  | cons p rest ih =>
      intro res st1 st2 P hD hP
      obtain ⟨loc, ext⟩ := p
      cases hfind : res.find? loc with
      | none =>
          exact .inl ⟨.DataNotFound loc, by simp [extractMap, hfind],
            by simp [extractMap, hfind]⟩
      | some v =>
          have hD' : ∀ k, ¬ D k →
              (st1.insertD ext v).find? k = (st2.insertD ext v).find? k := by
            intro k hk
            rw [Container.find?_insertD, Container.find?_insertD]
            split
            · rfl
            · exact hD k hk
          have hP' : ∀ k, (P k ∨ k = ext) →
              (st1.insertD ext v).find? k = (st2.insertD ext v).find? k := by
            intro k hk
            rw [Container.find?_insertD, Container.find?_insertD]
            split
            · rfl
            · rcases hk with hk | hk
              · exact hP k hk
              · rename_i hne
                exact absurd hk.symm hne
          rcases ih (res.removeD loc) (st1.insertD ext v) (st2.insertD ext v)
              (fun k => P k ∨ k = ext) hD' hP' with
            ⟨e, h1, h2⟩ | ⟨r1, r2, h1, h2, hD2, hP2⟩
          · exact .inl ⟨e, by simpa [extractMap, hfind] using h1,
              by simpa [extractMap, hfind] using h2⟩
          · refine .inr ⟨r1, r2, by simpa [extractMap, hfind] using h1,
              by simpa [extractMap, hfind] using h2, hD2, ?_⟩
            intro k hk
            refine hP2 k ?_
            rcases hk with hk | hk
            · exact .inl (.inl hk)
            · rw [List.map_cons] at hk
              rcases List.mem_cons.mp hk with hk | hk
              · exact .inl (.inr hk)
              · exact .inr hk

/-- One step of a node whose function respects its declared inputs, on two
states that agree outside a key set `D` disjoint from the node's external
inputs: the step fails identically or succeeds with results that agree
outside `D` and on the node's external outputs. -/
theorem runStep_agree {V : Type} (a : Node V) (D : Source → Prop)
    (hresp : RespectsInputs a) (hins : ∀ x ∈ a.extIns, ¬ D x)
    (s1 s2 : Container V) (hagree : ∀ k, ¬ D k → s1.find? k = s2.find? k) :
    (∃ e, runStep a s1 = .error e ∧ runStep a s2 = .error e) ∨
    (∃ r1 r2, runStep a s1 = .ok r1 ∧ runStep a s2 = .ok r2 ∧
      (∀ k, ¬ D k → r1.find? k = r2.find? k) ∧
      (∀ x ∈ a.extOuts, r1.find? x = r2.find? x)) := by
  have hview : (∃ e, remapFor a s1 = .error e ∧ remapFor a s2 = .error e) ∨
      (∃ v1 v2, remapFor a s1 = .ok v1 ∧ remapFor a s2 = .ok v2 ∧
        (∀ k, k ∈ a.localIns → v1.find? k = v2.find? k)) := by
    rw [remapFor, remapFor]
    cases hin : a.inputs with
    | list l =>
        refine .inr ⟨s1, s2, rfl, rfl, ?_⟩
        intro k hk
        refine hagree k (hins k ?_)
        rw [Node.localIns, hin] at hk
        rw [Node.extIns, hin]
        exact hk
    | map m =>
        rcases remapInputs_agree D m s1 s2 (fun _ => False) hagree
            (fun k hk => absurd hk id)
            (fun p hp => hins p.2
              (by rw [Node.extIns, hin]; exact List.mem_map_of_mem _ hp)) with
          ⟨e, h1, h2⟩ | ⟨v1, v2, h1, h2, hD2, hP2⟩
        · exact .inl ⟨e, h1, h2⟩
        · refine .inr ⟨v1, v2, h1, h2, ?_⟩
          intro k hk
          refine hP2 k (.inr ?_)
          rw [Node.localIns, hin] at hk
          exact hk
  rcases hview with ⟨e, h1, h2⟩ | ⟨v1, v2, h1, h2, hloc⟩
  · refine .inl ⟨e, ?_, ?_⟩
    · simp only [runStep]
      rw [h1]
    · simp only [runStep]
      rw [h2]
  · have hfeq : a.func ⟨v1⟩ = a.func ⟨v2⟩ := hresp v1 v2 hloc
    cases hres : a.func ⟨v1⟩ with
    | error e =>
        have hres2 : a.func ⟨v2⟩ = .error e := hfeq.symm.trans hres
        refine .inl ⟨e, ?_, ?_⟩
        · simp only [runStep]
          rw [h1]
          dsimp only
          rw [hres]
        · simp only [runStep]
          rw [h2]
          dsimp only
          rw [hres2]
    | ok res =>
        have hres2 : a.func ⟨v2⟩ = .ok res := hfeq.symm.trans hres
        have hrs1 : runStep a s1 = extractFor a res s1 := by
          simp only [runStep]
          rw [h1]
          dsimp only
          rw [hres]
        have hrs2 : runStep a s2 = extractFor a res s2 := by
          simp only [runStep]
          rw [h2]
          dsimp only
          rw [hres2]
        rw [hrs1, hrs2, extractFor, extractFor]
        cases hout : a.outputs with
        | list l =>
            rcases extractList_agree D l res s1 s2 (fun _ => False) hagree
                (fun k hk => absurd hk id) with
              ⟨e, g1, g2⟩ | ⟨r1, r2, g1, g2, gD, gP⟩
            · exact .inl ⟨e, g1, g2⟩
            · refine .inr ⟨r1, r2, g1, g2, gD, ?_⟩
              intro x hx
              refine gP x (.inr ?_)
              rw [Node.extOuts, hout] at hx
              exact hx
        | map mm =>
            rcases extractMap_agree D mm res s1 s2 (fun _ => False) hagree
                (fun k hk => absurd hk id) with
              ⟨e, g1, g2⟩ | ⟨r1, r2, g1, g2, gD, gP⟩
            · exact .inl ⟨e, g1, g2⟩
            · refine .inr ⟨r1, r2, g1, g2, gD, ?_⟩
              intro x hx
              refine gP x (.inr ?_)
              rw [Node.extOuts, hout] at hx
              exact hx

/-- The run loop on two extensionally equal states: it fails on both or
succeeds on both with extensionally equal results. -/
theorem runNodes_congr {V : Type} :
    ∀ (t : List (Node V)) (s1 s2 : Container V),
      (∀ n ∈ t, RespectsInputs n) → Container.Equiv s1 s2 →
      (∃ e1 e2, runNodes t s1 = .error e1 ∧ runNodes t s2 = .error e2) ∨
      (∃ r1 r2, runNodes t s1 = .ok r1 ∧ runNodes t s2 = .ok r2 ∧
        Container.Equiv r1 r2) := by
  intro t
  induction t with
  | nil =>
      intro s1 s2 _ h
      exact .inr ⟨s1, s2, rfl, rfl, h⟩
  | cons n rest ih =>
      intro s1 s2 hresp hEq
      rcases runStep_agree n (fun _ => False) (hresp n (List.mem_cons_self _ _))
          (fun x _ h => h) s1 s2 (fun k _ => hEq k) with
        ⟨e, h1, h2⟩ | ⟨r1, r2, h1, h2, hD, -⟩
      · exact .inl ⟨e, e, runNodes_cons_err h1, runNodes_cons_err h2⟩
      · have hEq' : Container.Equiv r1 r2 := fun k => hD k id
        rcases ih r1 r2 (fun n' hn' => hresp n' (List.mem_cons_of_mem _ hn')) hEq' with
          ⟨e1, e2, g1, g2⟩ | ⟨q1, q2, g1, g2, gEq⟩
        · exact .inl ⟨e1, e2, (runNodes_cons_ok h1).trans g1,
            (runNodes_cons_ok h2).trans g2⟩
        · exact .inr ⟨q1, q2, (runNodes_cons_ok h1).trans g1,
            (runNodes_cons_ok h2).trans g2, gEq⟩

/-- Two adjacent nodes that are not wired to each other and have disjoint
external outputs can be run in either order: the two runs (with a common
suffix) fail together or succeed with extensionally equal results. -/
theorem runNodes_front_swap {V : Type} (p c : Node V) (t : List (Node V))
    (s : Container V)
    (hrespp : RespectsInputs p) (hrespc : RespectsInputs c)
    (hrespt : ∀ n ∈ t, RespectsInputs n)
    (hpc : ¬ wired p c) (hcp : ¬ wired c p)
    (hdisj : ∀ x ∈ c.extOuts, x ∉ p.extOuts) :
    (∃ e1 e2, runNodes (p :: c :: t) s = .error e1 ∧
      runNodes (c :: p :: t) s = .error e2) ∨
    (∃ r1 r2, runNodes (p :: c :: t) s = .ok r1 ∧
      runNodes (c :: p :: t) s = .ok r2 ∧ Container.Equiv r1 r2) := by
  cases hsp : runStep p s with
  | error ep =>
      cases hsc : runStep c s with
      | error ec =>
          exact .inl ⟨ep, ec, runNodes_cons_err hsp, runNodes_cons_err hsc⟩
      | ok sc =>
          have hagree : ∀ k, ¬ (k ∈ c.extOuts) → s.find? k = sc.find? k :=
            fun k hk => (runStep_ok_find hsc k hk).symm
          rcases runStep_agree p (fun k => k ∈ c.extOuts) hrespp
              (fun x hx hD => hcp ⟨x, hD, hx⟩) s sc hagree with
            ⟨e, g1, g2⟩ | ⟨r1, r2, g1, g2, -, -⟩
          · refine .inl ⟨ep, e, runNodes_cons_err hsp, ?_⟩
            rw [runNodes_cons_ok hsc]
            exact runNodes_cons_err g2
          · rw [g1] at hsp
            cases hsp
  | ok sp =>
      cases hsc : runStep c s with
      | error ec =>
          have hagree : ∀ k, ¬ (k ∈ p.extOuts) → s.find? k = sp.find? k :=
            fun k hk => (runStep_ok_find hsp k hk).symm
          rcases runStep_agree c (fun k => k ∈ p.extOuts) hrespc
              (fun x hx hD => hpc ⟨x, hD, hx⟩) s sp hagree with
            ⟨e, g1, g2⟩ | ⟨r1, r2, g1, g2, -, -⟩
          · refine .inl ⟨e, ec, ?_, runNodes_cons_err hsc⟩
            rw [runNodes_cons_ok hsp]
            exact runNodes_cons_err g2
          · rw [g1] at hsc
            cases hsc
      | ok sc =>
          have hagreeP : ∀ k, ¬ (k ∈ p.extOuts) → s.find? k = sp.find? k :=
            fun k hk => (runStep_ok_find hsp k hk).symm
          have hagreeC : ∀ k, ¬ (k ∈ c.extOuts) → s.find? k = sc.find? k :=
            fun k hk => (runStep_ok_find hsc k hk).symm
          rcases runStep_agree c (fun k => k ∈ p.extOuts) hrespc
              (fun x hx hD => hpc ⟨x, hD, hx⟩) s sp hagreeP with
            ⟨e, g1, g2⟩ | ⟨r1, r1', g1, g2, gD1, gO1⟩
          · rw [g1] at hsc
            cases hsc
          · have hce : r1 = sc := by
              have h := g1.symm.trans hsc
              injection h with h
            rcases runStep_agree p (fun k => k ∈ c.extOuts) hrespp
                (fun x hx hD => hcp ⟨x, hD, hx⟩) s sc hagreeC with
              ⟨e, g1', g2'⟩ | ⟨q1, q2, g1', g2', gD2, gO2⟩
            · rw [g1'] at hsp
              cases hsp
            · have hqe : q1 = sp := by
                have h := g1'.symm.trans hsp
                injection h with h
              subst hce
              subst hqe
              have hEq : Container.Equiv r1' q2 := by
                intro k
                by_cases hkp : k ∈ p.extOuts
                · have hkc : k ∉ c.extOuts := fun h => hdisj k h hkp
                  rw [runStep_ok_find g2 k hkc]
                  rw [← gO2 k hkp]
                · by_cases hkc : k ∈ c.extOuts
                  · rw [← gO1 k hkc]
                    rw [runStep_ok_find g2' k (fun h => hdisj k hkc h)]
                  · rw [runStep_ok_find g2 k hkc, ← hagreeP k hkp,
                      runStep_ok_find g2' k hkp, ← hagreeC k hkc]
              rcases runNodes_congr t r1' q2 hrespt hEq with
                ⟨e1, e2, hh1, hh2⟩ | ⟨w1, w2, hh1, hh2, hwEq⟩
              · refine .inl ⟨e1, e2, ?_, ?_⟩
                · rw [runNodes_cons_ok hsp, runNodes_cons_ok g2]
                  exact hh1
                · rw [runNodes_cons_ok hsc, runNodes_cons_ok g2']
                  exact hh2
              · refine .inr ⟨w1, w2, ?_, ?_, hwEq⟩
                · rw [runNodes_cons_ok hsp, runNodes_cons_ok g2]
                  exact hh1
                · rw [runNodes_cons_ok hsc, runNodes_cons_ok g2']
                  exact hh2

/-- A node that is mutually unwired with a whole prefix (and has outputs
disjoint from it) can be bubbled to the front of the run order. -/
theorem runNodes_bubble {V : Type} :
    ∀ (pre : List (Node V)) (c : Node V) (post : List (Node V)) (s : Container V),
      (∀ q ∈ pre, ¬ wired q c) → (∀ q ∈ pre, ¬ wired c q) →
      (∀ q ∈ pre, ∀ x ∈ c.extOuts, x ∉ q.extOuts) →
      RespectsInputs c → (∀ q ∈ pre, RespectsInputs q) →
      (∀ n ∈ post, RespectsInputs n) →
      (∃ e1 e2, runNodes (pre ++ c :: post) s = .error e1 ∧
        runNodes (c :: (pre ++ post)) s = .error e2) ∨
      (∃ r1 r2, runNodes (pre ++ c :: post) s = .ok r1 ∧
        runNodes (c :: (pre ++ post)) s = .ok r2 ∧ Container.Equiv r1 r2) := by
  intro pre
  induction pre with
  | nil =>
      intro c post s _ _ _ _ _ _
      cases hrun : runNodes (c :: post) s with
      | error e => exact .inl ⟨e, e, hrun, hrun⟩
      | ok r => exact .inr ⟨r, r, hrun, hrun, fun k => rfl⟩
  | cons q pre' ih =>
      intro c post s hqc hcq hdisj hrc hrpre hrpost
      have hAB : (∃ e1 e2, runNodes (q :: (pre' ++ c :: post)) s = .error e1 ∧
            runNodes (q :: c :: (pre' ++ post)) s = .error e2) ∨
          (∃ r1 r2, runNodes (q :: (pre' ++ c :: post)) s = .ok r1 ∧
            runNodes (q :: c :: (pre' ++ post)) s = .ok r2 ∧
            Container.Equiv r1 r2) := by
        cases hsq : runStep q s with
        | error e =>
            exact .inl ⟨e, e, runNodes_cons_err hsq, runNodes_cons_err hsq⟩
        | ok s1 =>
            rcases ih c post s1 (fun x hx => hqc x (List.mem_cons_of_mem _ hx))
                (fun x hx => hcq x (List.mem_cons_of_mem _ hx))
                (fun x hx => hdisj x (List.mem_cons_of_mem _ hx))
                hrc (fun x hx => hrpre x (List.mem_cons_of_mem _ hx)) hrpost with
              ⟨e1, e2, g1, g2⟩ | ⟨r1, r2, g1, g2, gEq⟩
            · exact .inl ⟨e1, e2, (runNodes_cons_ok hsq).trans g1,
                (runNodes_cons_ok hsq).trans g2⟩
            · exact .inr ⟨r1, r2, (runNodes_cons_ok hsq).trans g1,
                (runNodes_cons_ok hsq).trans g2, gEq⟩
      have hBC := runNodes_front_swap q c (pre' ++ post) s
        (hrpre q (List.mem_cons_self _ _)) hrc
        (by
          intro n hn
          rcases List.mem_append.mp hn with hn | hn
          · exact hrpre n (List.mem_cons_of_mem _ hn)
          · exact hrpost n hn)
        (hqc q (List.mem_cons_self _ _)) (hcq q (List.mem_cons_self _ _))
        (fun x hx => hdisj q (List.mem_cons_self _ _) x hx)
      rcases hAB with ⟨e1, e2, g1, g2⟩ | ⟨r1, r2, g1, g2, gEq⟩
      · rcases hBC with ⟨f1, f2, k1, k2⟩ | ⟨w1, w2, k1, k2, kEq⟩
        · exact .inl ⟨e1, f2, g1, k2⟩
        · rw [g2] at k1
          cases k1
      · rcases hBC with ⟨f1, f2, k1, k2⟩ | ⟨w1, w2, k1, k2, kEq⟩
        · rw [g2] at k1
          cases k1
        · have hwr : w1 = r2 := by
            have h := k1.symm.trans g2
            injection h with h
          subst hwr
          exact .inr ⟨r1, w2, g1, k2, fun k => (gEq k).trans (kEq k)⟩

/-- Position lookup inside the prefix of a list split. -/
theorem get_append_left_aux {α : Type} (l1 l2 : List α) (v : Nat) (hv : v < l1.length)
    (h : v < (l1 ++ l2).length) : (l1 ++ l2).get ⟨v, h⟩ = l1.get ⟨v, hv⟩ := by
  simp [List.getElem_append_left hv]

/-- No node of a topologically ordered list wires into its head. -/
theorem topoOrdered_head_no_incoming {V : Type} {c : Node V} {t : List (Node V)}
    (h : TopoOrdered (c :: t)) : ∀ q ∈ c :: t, ¬ wired q c := by
  intro q hq hw
  obtain ⟨j, hj⟩ := List.mem_iff_get.mp hq
  have h0 : (c :: t).get ⟨0, by simp⟩ = c := rfl
  have hlt := h j ⟨0, by simp⟩ (by rw [hj, h0]; exact hw)
  rw [Fin.lt_def] at hlt
  have hz : j.val < 0 := hlt
  omega

/-- A node does not wire back into the prefix before it in a topologically
ordered list. -/
theorem topoOrdered_mid_no_back {V : Type} {pre : List (Node V)} {c : Node V}
    {post : List (Node V)} (h : TopoOrdered (pre ++ c :: post)) :
    ∀ q ∈ pre, ¬ wired c q := by
  intro q hq hw
  obtain ⟨j, hj⟩ := List.mem_iff_get.mp hq
  have hjl : j.val < (pre ++ c :: post).length := by
    have := j.isLt
    simp only [List.length_append, List.length_cons]
    omega
  have hcl : pre.length < (pre ++ c :: post).length := by
    simp only [List.length_append, List.length_cons]
    omega
  have hgq : (pre ++ c :: post).get ⟨j.val, hjl⟩ = q := by
    rw [get_append_left_aux pre (c :: post) j.val j.isLt hjl]
    exact hj
  have hgc : (pre ++ c :: post).get ⟨pre.length, hcl⟩ = c := by
    have h0 : (0 : Nat) < (c :: post).length := by
      simp only [List.length_cons]
      omega
    have := get_append_offset pre (c :: post) 0 h0 (by simpa using hcl)
    simpa using this
  have hlt := h ⟨pre.length, hcl⟩ ⟨j.val, hjl⟩ (by rw [hgc, hgq]; exact hw)
  rw [Fin.lt_def] at hlt
  simp only at hlt
  have := j.isLt
  omega

/-- With globally duplicate-free outputs, the bubbled node's outputs are
disjoint from every node of the prefix. -/
theorem outs_disjoint_of_nodup_split {V : Type} {pre : List (Node V)} {c : Node V}
    {post : List (Node V)}
    (h : ((pre ++ c :: post).flatMap Node.extOuts).Nodup) :
    ∀ q ∈ pre, ∀ x ∈ c.extOuts, x ∉ q.extOuts := by
  intro q hq x hxc hxq
  obtain ⟨j, hj⟩ := List.mem_iff_get.mp hq
  have hjl : j.val < (pre ++ c :: post).length := by
    have := j.isLt
    simp only [List.length_append, List.length_cons]
    omega
  have hcl : pre.length < (pre ++ c :: post).length := by
    simp only [List.length_append, List.length_cons]
    omega
  have hgq : (pre ++ c :: post).get ⟨j.val, hjl⟩ = q := by
    rw [get_append_left_aux pre (c :: post) j.val j.isLt hjl]
    exact hj
  have hgc : (pre ++ c :: post).get ⟨pre.length, hcl⟩ = c := by
    have h0 : (0 : Nat) < (c :: post).length := by
      simp only [List.length_cons]
      omega
    have := get_append_offset pre (c :: post) 0 h0 (by simpa using hcl)
    simpa using this
  have heq := flatMap_nodup_position_unique h ⟨j.val, hjl⟩ ⟨pre.length, hcl⟩ x
    (by rw [hgq]; exact hxq) (by rw [hgc]; exact hxc)
  have hv := congrArg Fin.val heq
  simp only at hv
  have := j.isLt
  omega

/-- Topological order is preserved by dropping the head. -/
theorem topoOrdered_tail {V : Type} {c : Node V} {t : List (Node V)}
    (h : TopoOrdered (c :: t)) : TopoOrdered t := by
  intro i j hw
  have hlt := h i.succ j.succ hw
  exact Fin.succ_lt_succ_iff.mp hlt

/-- Topological order is preserved by removing a middle element. -/
theorem topoOrdered_remove_middle {V : Type} {pre : List (Node V)} {c : Node V}
    {post : List (Node V)} (h : TopoOrdered (pre ++ c :: post)) :
    TopoOrdered (pre ++ post) := by
  have hemb : ∀ (u : Fin (pre ++ post).length),
      ∃ u' : Fin (pre ++ c :: post).length,
        (pre ++ c :: post).get u' = (pre ++ post).get u ∧
        ((u.val < pre.length ∧ u'.val = u.val) ∨
          (pre.length ≤ u.val ∧ u'.val = u.val + 1)) := by
    intro u
    by_cases hu : u.val < pre.length
    · have hul : u.val < (pre ++ c :: post).length := by
        simp only [List.length_append, List.length_cons]
        omega
      refine ⟨⟨u.val, hul⟩, ?_, .inl ⟨hu, rfl⟩⟩
      rw [get_append_left_aux pre (c :: post) u.val hu hul,
        get_append_left_aux pre post u.val hu u.isLt]
    · push_neg at hu
      have hk : u.val - pre.length < post.length := by
        have := u.isLt
        simp only [List.length_append] at this
        omega
      have hul : pre.length + (u.val - pre.length + 1) <
          (pre ++ c :: post).length := by
        have := u.isLt
        simp only [List.length_append] at this
        simp only [List.length_append, List.length_cons]
        omega
      have hRHS : (pre ++ post).get u = post.get ⟨u.val - pre.length, hk⟩ := by
        rw [List.get_eq_getElem, List.get_eq_getElem]
        exact List.getElem_append_right hu
      refine ⟨⟨pre.length + (u.val - pre.length + 1), hul⟩, ?_,
        .inr ⟨hu, by show pre.length + (u.val - pre.length + 1) = u.val + 1; omega⟩⟩
      rw [hRHS, get_append_offset pre (c :: post) (u.val - pre.length + 1)
        (by simp only [List.length_cons]; omega) hul]
      rfl
  intro i j hw
  obtain ⟨i', hgi, hci⟩ := hemb i
  obtain ⟨j', hgj, hcj⟩ := hemb j
  have hlt := h i' j' (by rw [hgi, hgj]; exact hw)
  rw [Fin.lt_def] at hlt ⊢
  rcases hci with ⟨h1, h2⟩ | ⟨h1, h2⟩ <;> rcases hcj with ⟨h3, h4⟩ | ⟨h3, h4⟩ <;> omega

/-- Two topologically ordered arrangements of the same node multiset (with
globally duplicate-free outputs and input-respecting functions) run to the
same outcome from the same seed: both fail, or both succeed with
extensionally equal stores. -/
theorem runNodes_perm_rel {V : Type} :
    ∀ (l1 l2 : List (Node V)), l1.Perm l2 → TopoOrdered l1 → TopoOrdered l2 →
      (l1.flatMap Node.extOuts).Nodup →
      (∀ n ∈ l1, RespectsInputs n) →
      ∀ s : Container V,
        (∃ e1 e2, runNodes l1 s = .error e1 ∧ runNodes l2 s = .error e2) ∨
        (∃ r1 r2, runNodes l1 s = .ok r1 ∧ runNodes l2 s = .ok r2 ∧
          Container.Equiv r1 r2) := by
  intro l1
  induction l1 with
  | nil =>
      intro l2 hperm _ _ _ _ s
      have hl2 : l2 = [] := hperm.symm.eq_nil
      subst hl2
      exact .inr ⟨s, s, rfl, rfl, fun k => rfl⟩
  | cons c rest ih =>
      intro l2 hperm htopo1 htopo2 hnd hresp s
      have hc2 : c ∈ l2 := hperm.mem_iff.mp (List.mem_cons_self _ _)
      obtain ⟨pre, post, hsplit⟩ := List.append_of_mem hc2
      subst hsplit
      have hnd2 : ((pre ++ c :: post).flatMap Node.extOuts).Nodup :=
        ((List.Perm.flatMap_right Node.extOuts hperm).nodup_iff).mp hnd
      have hqc : ∀ q ∈ pre, ¬ wired q c := by
        intro q hq
        exact topoOrdered_head_no_incoming htopo1 q
          (hperm.mem_iff.mpr (List.mem_append.mpr (.inl hq)))
      have hcq : ∀ q ∈ pre, ¬ wired c q := topoOrdered_mid_no_back htopo2
      have hdisj : ∀ q ∈ pre, ∀ x ∈ c.extOuts, x ∉ q.extOuts :=
        outs_disjoint_of_nodup_split hnd2
      have hrc : RespectsInputs c := hresp c (List.mem_cons_self _ _)
      have hrpre : ∀ q ∈ pre, RespectsInputs q := by
        intro q hq
        exact hresp q (hperm.mem_iff.mpr (List.mem_append.mpr (.inl hq)))
      have hrpost : ∀ n ∈ post, RespectsInputs n := by
        intro n hn
        exact hresp n (hperm.mem_iff.mpr
          (List.mem_append.mpr (.inr (List.mem_cons_of_mem _ hn))))
      have hbub := runNodes_bubble pre c post s hqc hcq hdisj hrc hrpre hrpost
      have hpermTail : rest.Perm (pre ++ post) :=
        (hperm.trans List.perm_middle).cons_inv
      have hndtail : (rest.flatMap Node.extOuts).Nodup := by
        have h' := hnd
        rw [List.flatMap_cons] at h'
        exact (List.nodup_append.mp h').2.1
      cases hsc : runStep c s with
      | error e =>
          have hCerr : runNodes (c :: (pre ++ post)) s = .error e :=
            runNodes_cons_err hsc
          rcases hbub with ⟨e1, e2, g1, g2⟩ | ⟨r1, r2, g1, g2, -⟩
          · exact .inl ⟨e, e1, runNodes_cons_err hsc, g1⟩
          · rw [hCerr] at g2
            cases g2
      | ok s1 =>
          rcases ih (pre ++ post) hpermTail (topoOrdered_tail htopo1)
              (topoOrdered_remove_middle htopo2) hndtail
              (fun n hn => hresp n (List.mem_cons_of_mem _ hn)) s1 with
            ⟨e1, e2, g1, g2⟩ | ⟨r1, r2, g1, g2, gEq⟩
          · have hC : runNodes (c :: (pre ++ post)) s = .error e2 :=
              (runNodes_cons_ok hsc).trans g2
            rcases hbub with ⟨f1, f2, k1, k2⟩ | ⟨w1, w2, k1, k2, -⟩
            · exact .inl ⟨e1, f1, (runNodes_cons_ok hsc).trans g1, k1⟩
            · rw [hC] at k2
              cases k2
          · have hC : runNodes (c :: (pre ++ post)) s = .ok r2 :=
              (runNodes_cons_ok hsc).trans g2
            rcases hbub with ⟨f1, f2, k1, k2⟩ | ⟨w1, w2, k1, k2, kEq⟩
            · rw [hC] at k2
              cases k2
            · have hwr : w2 = r2 := by
                have h := k2.symm.trans hC
                injection h with h
              subst hwr
              exact .inr ⟨r1, w1, (runNodes_cons_ok hsc).trans g1, k1,
                fun k => (gEq k).trans ((kEq k).symm)⟩

/-- C8: for every permutation of the constructor slice (with distinct ids,
a standing model fact of `Uuid`s, and functions that respect their declared
inputs), `from_nodes` yields the same outcome kind, and when both builds
succeed the two pipelines run to the same outcome on every seed: they fail
together, and on success their result stores are extensionally equal. -/
theorem from_nodes_perm_same_behavior {V : Type} (ns ns' : List (Node V))
    (hperm : ns.Perm ns')
    (hids : (ns.map Node.id).Nodup)
    (hresp : ∀ n ∈ ns, RespectsInputs n) :
    outcomeKind (Pipeline.from_nodes ns) = outcomeKind (Pipeline.from_nodes ns') ∧
    ∀ P P', Pipeline.from_nodes ns = .ok P → Pipeline.from_nodes ns' = .ok P' →
      ∀ S : Container V,
        ((∃ e1 e2, P.run S = .error e1 ∧ P'.run S = .error e2) ∨
          (∃ r1 r2, P.run S = .ok r1 ∧ P'.run S = .ok r2 ∧
            Container.Equiv r1 r2)) ∧
        (∀ r r', P.run S = .ok r → P'.run S = .ok r' → Container.Equiv r r') := by
  have hids' : (ns'.map Node.id).Nodup := ((hperm.map Node.id).nodup_iff).mp hids
  constructor
  · by_cases hnd : (ns.flatMap Node.extOuts).Nodup
    · have hnd' : (ns'.flatMap Node.extOuts).Nodup :=
        (flatMap_outs_nodup_perm hperm).mp hnd
      by_cases hcyc : HasWiredCycle ns
      · rw [(from_nodes_outcome_cases ns hids).2.1 hnd hcyc,
          (from_nodes_outcome_cases ns' hids').2.1 hnd'
            ((hasWiredCycle_perm hperm).mp hcyc)]
      · obtain ⟨P, hP⟩ := (from_nodes_outcome_cases ns hids).2.2 hnd hcyc
        obtain ⟨P', hP'⟩ := (from_nodes_outcome_cases ns' hids').2.2 hnd'
          (fun hc => hcyc ((hasWiredCycle_perm hperm).mpr hc))
        rw [hP, hP']
        rfl
    · obtain ⟨m, hm⟩ := (from_nodes_outcome_cases ns hids).1 hnd
      obtain ⟨m', hm'⟩ := (from_nodes_outcome_cases ns' hids').1
        (fun h => hnd ((flatMap_outs_nodup_perm hperm).mpr h))
      rw [hm, hm']
      rfl
  · intro P P' hP hP' S
    obtain ⟨hpermP, htopoP⟩ := from_nodes_ok_perm_topo hids hP
    obtain ⟨hpermP', htopoP'⟩ := from_nodes_ok_perm_topo hids' hP'
    have hpermPP : P.nodes.Perm P'.nodes := hpermP.trans (hperm.trans hpermP'.symm)
    have hndP : (P.nodes.flatMap Node.extOuts).Nodup :=
      ((List.Perm.flatMap_right Node.extOuts hpermP).nodup_iff).mpr
        (from_nodes_ok_outputs_nodup hP)
    have hrespP : ∀ n ∈ P.nodes, RespectsInputs n :=
      fun n hn => hresp n (hpermP.mem_iff.mp hn)
    have hrel := runNodes_perm_rel P.nodes P'.nodes hpermPP htopoP htopoP' hndP hrespP S
    refine ⟨hrel, ?_⟩
    intro r r' hr hr'
    rcases hrel with ⟨e1, e2, g1, g2⟩ | ⟨r1, r2, g1, g2, gEq⟩
    · have hr2 : runNodes P.nodes S = .ok r := hr
      rw [hr2] at g1
      cases g1
    · have h1 : r1 = r := by
        have h := g1.symm.trans hr
        injection h with h
      have h2 : r2 = r' := by
        have h := g2.symm.trans hr'
        injection h with h
      subst h1
      subst h2
      exact gEq

/-- Witness for C8 on the two-node swap of independent constant nodes. -/
theorem from_nodes_perm_same_behavior_witness :
    outcomeKind (Pipeline.from_nodes [node8p, node8q]) =
      outcomeKind (Pipeline.from_nodes [node8q, node8p]) ∧
    (∀ r r', pipe8pq.run emptySeed = .ok r → pipe8qp.run emptySeed = .ok r' →
      Container.Equiv r r') := by
  have hresp : ∀ n ∈ [node8p, node8q], RespectsInputs n := by
    intro n hn
    rcases List.mem_cons.mp hn with rfl | hn
    · intro c1 c2 _
      rfl
    · rcases List.mem_cons.mp hn with rfl | hn
      · intro c1 c2 _
        rfl
      · cases hn
  have h := from_nodes_perm_same_behavior [node8p, node8q] [node8q, node8p]
    (List.Perm.swap _ _ _) (by decide) hresp
  exact ⟨h.1, (h.2 pipe8pq pipe8qp rfl rfl emptySeed).2⟩

end Qupido
